import Mathlib

/-
Verification of the schema_management_tools conversion scripts.

The development shallowly embeds the streaming conversion logic of
src/convert_json_ndjson.py and src/flatten_json.py.  The Python json and
ijson decoders are external libraries; they are modelled at their
documented interface by an executable JSON reader parameterised over the
numeric decoding mode actually selected at each call site:

  - json.loads without parse_float : fractional tokens become Python
    floats (mode toFloat);
  - json.loads with decimal_object_hook : floats produced by the decoder
    are re-wrapped as Decimal values of their repr string, object by
    object (decHook flag);
  - ijson.items default : fractional tokens become Decimal values holding
    the original textual digits (mode toDecimal);
  - ijson.items with use_float : fractional tokens become floats
    (mode toFloat).

A Python float is modelled by the canonical repr string of the parsed
token (fractional trailing zeros removed, a lone integral part printed
with a trailing .0).  This is exact for every concrete token used in this
development, where the nearest binary double prints back as exactly that
canonical form; no theorem below depends on the value of a float beyond
its repr string.  The unicode escape form \u of JSON string literals is
not modelled; no claim depends on it.
-/

set_option maxHeartbeats 1000000

namespace SchemaTools

/-- JSON values as produced by the Python json and ijson decoders.
Floats carry the repr string of the parsed number, Decimal values carry
the textual digits of the token they were built from. -/
inductive JVal where
  | null
  | bool (b : Bool)
  | int (n : Int)
  | float (r : String)
  | dec (d : String)
  | str (s : String)
  | arr (xs : List JVal)
  | obj (fs : List (String × JVal))

/-- Numeric decoding mode of a JSON reader call site. -/
inductive NumMode where
  | toFloat
  | toDecimal
deriving DecidableEq, Repr

/-- Configuration of one JSON reader call site: numeric mode plus whether
the decimal_object_hook of flatten_json.py is installed. -/
structure ParseCfg where
  numMode : NumMode
  decHook : Bool
deriving DecidableEq, Repr

/-- json.loads as called in convert_ndjson_to_json: no parse_float, no hook. -/
def plainCfg : ParseCfg := ⟨.toFloat, false⟩

/-- json.loads as called in the NDJSON branch of flatten_json_stream:
object_hook set to decimal_object_hook. -/
def hookCfg : ParseCfg := ⟨.toFloat, true⟩

/-- ijson.items as called in the array branch of flatten_json_stream:
default numeric handling, fractional tokens decode to Decimal. -/
def decimalCfg : ParseCfg := ⟨.toDecimal, false⟩

/-- ijson.items as called in convert_json_to_ndjson: use_float set, so
fractional tokens decode to float. -/
def floatCfg : ParseCfg := ⟨.toFloat, false⟩

/-- Whitespace characters recognised by the JSON grammar. -/
def isWsChar (c : Char) : Bool :=
  c == ' ' || c == '\t' || c == '\n' || c == '\r'

/-- Drop leading JSON whitespace. -/
def skipWs (cs : List Char) : List Char :=
  cs.dropWhile isWsChar

/-- Python falsiness of line.strip(): the line has only whitespace
characters, so the loop treats it as blank. -/
def isBlankLine (l : String) : Bool :=
  l.data.all isWsChar

/-- Value of a nonempty digit run. -/
def digitsToNat (ds : List Char) : Nat :=
  ds.foldl (fun a c => a * 10 + (c.toNat - 48)) 0

/-- Canonical repr string of the Python float obtained from a fractional
numeric token: trailing zeros of the fractional part are dropped, and a
float whose fraction vanishes prints with a trailing .0.  Tokens with an
exponent are returned unchanged; no theorem uses them. -/
def canonFloat (t : String) : String :=
  if t.data.any (fun c => c == 'e' || c == 'E') then t
  else if t.data.count '.' = 1 then
    if (((t.data.dropWhile (fun c => c ≠ '.')).tail.reverse.dropWhile
        (fun c => c == '0')).reverse).isEmpty then
      String.mk (t.data.takeWhile (fun c => c ≠ '.')) ++ ".0"
    else
      String.mk (t.data.takeWhile (fun c => c ≠ '.')) ++ "." ++
        String.mk (((t.data.dropWhile (fun c => c ≠ '.')).tail.reverse.dropWhile
          (fun c => c == '0')).reverse)
  else t

/-- Value of one backslash escape of the JSON string grammar; the \u
form is not modelled. -/
def escDecode (e : Char) : Option Char :=
  if e = '"' then some '"'
  else if e = '\\' then some '\\'
  else if e = '/' then some '/'
  else if e = 'n' then some '\n'
  else if e = 't' then some '\t'
  else if e = 'r' then some '\r'
  else if e = 'b' then some (Char.ofNat 8)
  else if e = 'f' then some (Char.ofNat 12)
  else none

/-- Read the body of a JSON string literal after the opening quote,
returning the unescaped characters and the remainder after the closing
quote.  As in the strict mode the json and ijson decoders run in, a raw
control character below code point 32 is rejected inside a string
literal. -/
def readStringChars : List Char → Option (List Char × List Char)
  | [] => none
  | '"' :: rest => some ([], rest)
  | '\\' :: e :: rest =>
    match escDecode e with
    | none => none
    | some ec =>
      match readStringChars rest with
      | none => none
      | some (s, r) => some (ec :: s, r)
  | c :: rest =>
    if c.toNat < 32 then none
    else
      match readStringChars rest with
      | none => none
      | some (s, r) => some (c :: s, r)

/-- Read the optional fractional part of a numeric token. -/
def readFrac : List Char → Option (List Char × List Char)
  | '.' :: r =>
    let ds := r.takeWhile Char.isDigit
    if ds.isEmpty then none else some ('.' :: ds, r.dropWhile Char.isDigit)
  | cs => some ([], cs)

/-- Read the optional exponent part of a numeric token. -/
def readExp : List Char → Option (List Char × List Char)
  | [] => some ([], [])
  | c :: r =>
    if c = 'e' ∨ c = 'E' then
      let (sgn, r1) :=
        match r with
        | s :: r2 => if s = '+' ∨ s = '-' then ([s], r2) else (([] : List Char), s :: r2)
        | [] => (([] : List Char), ([] : List Char))
      let ds := r1.takeWhile Char.isDigit
      if ds.isEmpty then none
      else some (c :: (sgn ++ ds), r1.dropWhile Char.isDigit)
    else some ([], c :: r)

/-- Digits, fraction and exponent of a numeric token after the optional
sign has been taken. -/
def readNumCore (sign : Bool) : List Char →
    Option (Bool × List Char × List Char × List Char × List Char)
  | [] => none
  | c :: r =>
    if c = '0' then
      match readFrac r with
      | none => none
      | some (fp, r1) =>
        match readExp r1 with
        | none => none
        | some (ep, r2) => some (sign, ['0'], fp, ep, r2)
    else if c.isDigit then
      match readFrac (r.dropWhile Char.isDigit) with
      | none => none
      | some (fp, r1) =>
        match readExp r1 with
        | none => none
        | some (ep, r2) => some (sign, c :: r.takeWhile Char.isDigit, fp, ep, r2)
    else none

/-- Read one numeric token: sign flag, integral digits, fractional part
(with its dot), exponent part, and the remainder of the input. -/
def readNumParts : List Char →
    Option (Bool × List Char × List Char × List Char × List Char)
  | '-' :: r => readNumCore true r
  | cs => readNumCore false cs

/-- Build the decoded value of a numeric token under a given reader
configuration: integral tokens become exact integers, fractional or
exponent tokens become a float (canonical repr) or a Decimal (original
digits) according to the mode. -/
def mkNumVal (cfg : ParseCfg) (sign : Bool) (ip fp ep : List Char) : JVal :=
  if fp.isEmpty && ep.isEmpty then
    .int (if sign then -(digitsToNat ip : Int) else (digitsToNat ip : Int))
  else
    let tok := String.mk ((if sign then ['-'] else []) ++ ip ++ fp ++ ep)
    match cfg.numMode with
    | .toFloat => .float (canonFloat tok)
    | .toDecimal => .dec tok

/-- Insert a key into a decoded object with Python dict semantics: a
repeated key keeps its first position but takes the new value. -/
def insertPair (fs : List (String × JVal)) (k : String) (v : JVal) :
    List (String × JVal) :=
  if fs.any (fun p => p.1 == k) then
    fs.map (fun p => if p.1 == k then (k, v) else p)
  else fs ++ [(k, v)]

/-- decimal_object_hook of flatten_json.py: every float member of a
decoded object is replaced by a Decimal built from str of that float,
that is from its repr string.  Nested containers are untouched. -/
def decimal_object_hook (fs : List (String × JVal)) : List (String × JVal) :=
  fs.map (fun p => match p.2 with | .float r => (p.1, .dec r) | _ => p)

/-- Apply the object hook of the configuration, if any, to a completed
object, as the Python json decoder does bottom-up. -/
def applyHook (cfg : ParseCfg) (fs : List (String × JVal)) :
    List (String × JVal) :=
  if cfg.decHook then decimal_object_hook fs else fs

mutual

/-- Fuel-indexed JSON value reader. -/
def parseVal (cfg : ParseCfg) : Nat → List Char → Option (JVal × List Char)
  | 0, _ => none
  | fuel + 1, cs =>
    match skipWs cs with
    | [] => none
    | c :: rest =>
      if c = '"' then
        match readStringChars rest with
        | none => none
        | some (s, r) => some (.str (String.mk s), r)
      else if c = 't' then
        match rest with
        | 'r' :: 'u' :: 'e' :: r => some (.bool true, r)
        | _ => none
      else if c = 'f' then
        match rest with
        | 'a' :: 'l' :: 's' :: 'e' :: r => some (.bool false, r)
        | _ => none
      else if c = 'n' then
        match rest with
        | 'u' :: 'l' :: 'l' :: r => some (.null, r)
        | _ => none
      else if c = '[' then
        match skipWs rest with
        | ']' :: r => some (.arr [], r)
        | cs2 => parseArrItems cfg fuel cs2 []
      else if c = '\x7b' then
        match skipWs rest with
        | '\x7d' :: r => some (.obj (applyHook cfg []), r)
        | cs2 => parseObjItems cfg fuel cs2 []
      else
        match readNumParts (c :: rest) with
        | none => none
        | some (sign, ip, fp, ep, r) => some (mkNumVal cfg sign ip fp ep, r)

/-- Elements of a JSON array after the opening bracket. -/
def parseArrItems (cfg : ParseCfg) :
    Nat → List Char → List JVal → Option (JVal × List Char)
  | 0, _, _ => none
  | fuel + 1, cs, acc =>
    match parseVal cfg fuel cs with
    | none => none
    | some (v, r) =>
      match skipWs r with
      | ',' :: r2 => parseArrItems cfg fuel r2 (acc ++ [v])
      | ']' :: r2 => some (.arr (acc ++ [v]), r2)
      | _ => none

/-- Members of a JSON object after the opening brace. -/
def parseObjItems (cfg : ParseCfg) :
    Nat → List Char → List (String × JVal) → Option (JVal × List Char)
  | 0, _, _ => none
  | fuel + 1, cs, acc =>
    match skipWs cs with
    | '"' :: r =>
      match readStringChars r with
      | none => none
      | some (k, r1) =>
        match skipWs r1 with
        | ':' :: r2 =>
          match parseVal cfg fuel r2 with
          | none => none
          | some (v, r3) =>
            match skipWs r3 with
            | ',' :: r4 => parseObjItems cfg fuel r4 (insertPair acc (String.mk k) v)
            | '\x7d' :: r4 => some (.obj (applyHook cfg (insertPair acc (String.mk k) v)), r4)
            | _ => none
        | _ => none
    | _ => none

end

/-- json.loads under a reader configuration: the whole input must be one
JSON value surrounded only by whitespace. -/
def jsonLoads (cfg : ParseCfg) (s : String) : Option JVal :=
  match parseVal cfg (s.length * 2 + 8) s.data with
  | some (v, r) => if (skipWs r).isEmpty then some v else none
  | none => none

/-- Incremental element stream of a top-level JSON array, modelling the
lazy iterator of ijson.items: elements already completed before a syntax
error are yielded, then the error flag is raised in place of further
elements.  The Boolean is true when the document is broken. -/
def ijsonArrGo (cfg : ParseCfg) :
    Nat → List Char → List JVal → List JVal × Bool
  | 0, _, acc => (acc, true)
  | fuel + 1, cs, acc =>
    match parseVal cfg (cs.length * 2 + 8) cs with
    | none => (acc, true)
    | some (v, r) =>
      match skipWs r with
      | ',' :: r2 => ijsonArrGo cfg fuel r2 (acc ++ [v])
      | ']' :: _ => (acc ++ [v], false)
      | _ => (acc ++ [v], true)

/-- ijson.items over a document expected to be a top-level array. -/
def ijsonItems (cfg : ParseCfg) (s : String) : List JVal × Bool :=
  match skipWs s.data with
  | '[' :: r =>
    match skipWs r with
    | ']' :: _ => ([], false)
    | cs => ijsonArrGo cfg (cs.length + 1) cs []
  | _ => ([], true)

/-- Fuel-indexed digit accumulator behind natReprChars. -/
def natReprAux : Nat → Nat → List Char → List Char
  | 0, _, acc => acc
  | fuel + 1, m, acc =>
    if m < 10 then Char.ofNat (48 + m) :: acc
    else natReprAux fuel (m / 10) (Char.ofNat (48 + m % 10) :: acc)

/-- Decimal digit characters of a natural number, most significant
first; the decimal form both repr of a Python int and str of a Python
int produce. -/
def natReprChars (m : Nat) : List Char :=
  natReprAux (m + 1) m []

/-- Decimal form of a Python int, as json.dump emits it. -/
def intRepr (n : Int) : String :=
  match n with
  | .ofNat m => String.mk (natReprChars m)
  | .negSucc m => String.mk ('-' :: natReprChars (m + 1))

/-- Hexadecimal digit character. -/
def hexDigit (n : Nat) : Char :=
  if n < 10 then Char.ofNat (48 + n) else Char.ofNat (87 + n)

/-- JSON string escaping of one character, as json.dumps performs it:
quote, backslash and the five named control characters take their short
escapes, any other control character takes the \u form. -/
def escapeChar (c : Char) : List Char :=
  if c = '"' then ['\\', '"']
  else if c = '\\' then ['\\', '\\']
  else if c = '\n' then ['\\', 'n']
  else if c = '\t' then ['\\', 't']
  else if c = '\r' then ['\\', 'r']
  else if c.toNat = 8 then ['\\', 'b']
  else if c.toNat = 12 then ['\\', 'f']
  else if c.toNat < 32 then
    ['\\', 'u', '0', '0', hexDigit (c.toNat / 16), hexDigit (c.toNat % 16)]
  else [c]

/-- JSON string escaping of a whole string. -/
def escapeJson (s : String) : String :=
  String.mk ((s.data.map escapeChar).flatten)

/-- A JSON string literal: quoted, escaped body. -/
def dumpStr (s : String) : String :=
  "\"" ++ escapeJson s ++ "\""

mutual

/-- json.dumps with cls set to DecimalEncoder and default separators:
Decimal values are serialised through str and hence appear as quoted JSON
string tokens; floats print their repr. -/
def dumps : JVal → String
  | .null => "null"
  | .bool true => "true"
  | .bool false => "false"
  | .int n => intRepr n
  | .float r => r
  | .dec d => dumpStr d
  | .str s => dumpStr s
  | .arr xs => "[" ++ dumpsList xs ++ "]"
  | .obj fs => "\x7b" ++ dumpsObj fs ++ "\x7d"

/-- Comma-separated dump of array elements. -/
def dumpsList : List JVal → String
  | [] => ""
  | [v] => dumps v
  | v :: vs => dumps v ++ ", " ++ dumpsList vs

/-- Comma-separated dump of object members. -/
def dumpsObj : List (String × JVal) → String
  | [] => ""
  | [(k, v)] => dumpStr k ++ ": " ++ dumps v
  | (k, v) :: fs => dumpStr k ++ ": " ++ dumps v ++ ", " ++ dumpsObj fs

end

/-! ## convert_json_ndjson.py -/

/-- Default of the batch-size CLI option: argparse type int, default
1000.  The script validates the value nowhere. -/
def defaultBatchSize : Int := 1000

/-- write_batch of convert_json_ndjson.py: the chunk of text appended to
the JSON array file for one batch.  An empty batch writes nothing; a
separating comma precedes every batch but the first. -/
def write_batch (batch : List JVal) (isFirst : Bool) : String :=
  if batch.isEmpty then ""
  else
    (if isFirst then "" else ",\n") ++
      String.intercalate ",\n" (batch.map (fun o => "    " ++ dumps o))

/-- Loop state of convert_ndjson_to_json.  The batches field records the
successive batches handed to write_batch, in order, as a structured view
of what the text field accumulates. -/
structure Conv1State where
  text : String
  isFirst : Bool
  batch : List JVal
  batches : List (List JVal)
  count : Nat
  errors : List Nat

/-- Result of convert_ndjson_to_json: output text, emitted batches,
object count and the line numbers of decode errors. -/
structure Conv1Result where
  text : String
  batches : List (List JVal)
  count : Nat
  errors : List Nat

/-- Enumerate a list with 1-based positions, as the source enumerates
input lines. -/
def enumFrom (n : Nat) : List String → List (Nat × String)
  | [] => []
  | a :: as => (n, a) :: enumFrom (n + 1) as

/-- Per-line loop of convert_ndjson_to_json: blank lines are skipped, a
decodable line joins the current batch which is flushed on reaching
batch_size, an undecodable line records its line number and is skipped. -/
def conv1Go (B : Int) : List (Nat × String) → Conv1State → Conv1State
  | [], st => st
  | (lineNum, line) :: rest, st =>
    if isBlankLine line then conv1Go B rest st
    else
      match jsonLoads plainCfg line with
      | some v =>
        let batch := st.batch ++ [v]
        if B ≤ (batch.length : Int) then
          conv1Go B rest
            { text := st.text ++ write_batch batch st.isFirst
              isFirst := false
              batch := []
              batches := st.batches ++ [batch]
              count := st.count + batch.length
              errors := st.errors }
        else conv1Go B rest { st with batch := batch }
      | none => conv1Go B rest { st with errors := st.errors ++ [lineNum] }

/-- End-of-loop step of convert_ndjson_to_json: flush the nonempty final
batch and write the closing bracket. -/
def conv1Finish (st : Conv1State) : Conv1Result :=
  if st.batch.isEmpty then ⟨st.text ++ "\n]", st.batches, st.count, st.errors⟩
  else
    ⟨st.text ++ write_batch st.batch st.isFirst ++ "\n]",
      st.batches ++ [st.batch], st.count + st.batch.length, st.errors⟩

/-- convert_ndjson_to_json of convert_json_ndjson.py on the list of input
lines: wraps the stream in brackets, batches decodable lines, flushes the
final partial batch, and skips undecodable lines recording their 1-based
line numbers. -/
def convert_ndjson_to_json (lines : List String) (B : Int) : Conv1Result :=
  conv1Finish (conv1Go B (enumFrom 1 lines) ⟨"[\n", true, [], [], 0, []⟩)

/-- NDJSON rendering of a list of values: one compact dump per line. -/
def ndjsonRender : List JVal → String
  | [] => ""
  | v :: vs => dumps v ++ "\n" ++ ndjsonRender vs

/-- Loop state of convert_json_to_ndjson. -/
structure Conv2State where
  text : String
  batch : List JVal
  batches : List (List JVal)
  count : Nat

/-- Result of convert_json_to_ndjson: output text, flushed batches,
object count, and whether the job completed (false when the array
document was broken). -/
structure Conv2Result where
  text : String
  batches : List (List JVal)
  count : Nat
  ok : Bool

/-- Per-item loop of convert_json_to_ndjson: each item joins the batch,
which is written out one dump per line when it reaches batch_size. -/
def conv2Go (B : Int) : List JVal → Conv2State → Conv2State
  | [], st => st
  | v :: rest, st =>
    let batch := st.batch ++ [v]
    if B ≤ (batch.length : Int) then
      conv2Go B rest
        { text := st.text ++ ndjsonRender batch
          batch := []
          batches := st.batches ++ [batch]
          count := st.count + batch.length }
    else conv2Go B rest { st with batch := batch }

/-- End-of-stream step of convert_json_to_ndjson: a broken container
aborts without the final flush, a complete stream flushes the nonempty
remainder batch. -/
def conv2Finish (st : Conv2State) (broken : Bool) : Conv2Result :=
  if broken then ⟨st.text, st.batches, st.count, false⟩
  else if st.batch.isEmpty then ⟨st.text, st.batches, st.count, true⟩
  else
    ⟨st.text ++ ndjsonRender st.batch, st.batches ++ [st.batch],
      st.count + st.batch.length, true⟩

/-- Core of convert_json_to_ndjson over the item stream that ijson yields
together with its break flag: a broken container aborts after the items
already yielded, leaving flushed output in place and skipping the final
flush; otherwise the remainder batch is flushed and the job completes. -/
def convert_json_to_ndjson_items (items : List JVal) (broken : Bool)
    (B : Int) : Conv2Result :=
  conv2Finish (conv2Go B items ⟨"", [], [], 0⟩) broken

/-- convert_json_to_ndjson of convert_json_ndjson.py on the input text:
streams the top-level array with ijson under use_float and writes NDJSON
lines in batches. -/
def convert_json_to_ndjson (text : String) (B : Int) : Conv2Result :=
  let p := ijsonItems floatCfg text
  convert_json_to_ndjson_items p.1 p.2 B

/-! ## flatten_json.py -/

/-- Python str of a Boolean. -/
def pyBool : Bool → String
  | true => "True"
  | false => "False"

/-- A single-quote character, written by code point. -/
def sq : String := String.mk [Char.ofNat 39]

mutual

/-- Python str of a value nested inside a container, as the csv module
renders container cells.  Only scalar cells are exercised by claims; this
rendering exists to keep the cell function total. -/
def pyStrInner : JVal → String
  | .null => "None"
  | .bool b => pyBool b
  | .int n => toString n
  | .float r => r
  | .dec d => "Decimal(" ++ sq ++ d ++ sq ++ ")"
  | .str s => sq ++ s ++ sq
  | .arr xs => "[" ++ pyStrInnerList xs ++ "]"
  | .obj fs => "\x7b" ++ pyStrInnerObj fs ++ "\x7d"

/-- Comma-separated Python str of list elements. -/
def pyStrInnerList : List JVal → String
  | [] => ""
  | [v] => pyStrInner v
  | v :: vs => pyStrInner v ++ ", " ++ pyStrInnerList vs

/-- Comma-separated Python str of dict members. -/
def pyStrInnerObj : List (String × JVal) → String
  | [] => ""
  | [(k, v)] => sq ++ k ++ sq ++ ": " ++ pyStrInner v
  | (k, v) :: fs => sq ++ k ++ sq ++ ": " ++ pyStrInner v ++ ", " ++ pyStrInnerObj fs

end

/-- Text of one CSV cell: the row comprehension of _write_to_csv turns
Decimal values into str, and the csv module then renders every value
through str, with None rendered empty. -/
def cellStr : JVal → String
  | .dec d => d
  | .str s => s
  | .null => ""
  | .bool b => pyBool b
  | .int n => toString n
  | .float r => r
  | .arr xs => pyStrInner (.arr xs)
  | .obj fs => pyStrInner (.obj fs)

/-- Observable CSV output: the header row, if one was written, and the
data rows. -/
structure CsvOut where
  header : Option (List String)
  rows : List (List String)
deriving DecidableEq

/-- csv.DictWriter.writerow under its default extrasaction, which raises
ValueError on a key absent from the field names; keys present in the
field names but absent from the record render the default restval, the
empty cell. -/
def writeRow (header : List String) (fs : List (String × JVal)) :
    Except Unit (List String) :=
  if fs.any (fun p => !(header.contains p.1)) then .error ()
  else
    .ok (header.map (fun h =>
      match fs.lookup h with
      | some v => cellStr v
      | none => ""))

/-- Loop of _write_to_csv of flatten_json.py: non-dict items are skipped
with a warning, the first dict freezes the header to its keys, and every
dict row goes through the DictWriter. -/
def writeToCsvGo : List JVal → Option (List String) → List (List String) →
    Except Unit CsvOut
  | [], hdr, rows => .ok ⟨hdr, rows⟩
  | item :: rest, hdr, rows =>
    match item with
    | .obj fs =>
      let hdr2 := match hdr with | none => fs.map Prod.fst | some h => h
      match writeRow hdr2 fs with
      | .error e => .error e
      | .ok r => writeToCsvGo rest (some hdr2) (rows ++ [r])
    | _ => writeToCsvGo rest hdr rows

/-- _write_to_csv of flatten_json.py.  The model returns the whole CSV on
success and an error marker when the DictWriter raises; rows written to
the file before such an error are not observable in the model, and no
claim depends on them. -/
def write_to_csv (items : List JVal) : Except Unit CsvOut :=
  writeToCsvGo items none []

/-- The lines a Python text-file iteration yields, without their
terminators: splitting on the newline character, a trailing empty
fragment is not a line. -/
def pyLinesAux : List Char → List Char → List String
  | [], acc => [String.mk acc.reverse]
  | '\n' :: rest, acc => String.mk acc.reverse :: pyLinesAux rest []
  | c :: rest, acc => pyLinesAux rest (c :: acc)

/-- Split a text into newline-separated fragments. -/
def pyLines (t : String) : List String :=
  match (pyLinesAux t.data []).getLast? with
  | some "" => (pyLinesAux t.data []).dropLast
  | _ => pyLinesAux t.data []

/-- Decode every NDJSON line of the flatten path with the
decimal_object_hook; the generator of flatten_json_stream has no
per-line error handling, so any undecodable line aborts the job. -/
def decodeAllLines : List String → Option (List JVal)
  | [] => some []
  | l :: ls =>
    match jsonLoads hookCfg l with
    | none => none
    | some v =>
      match decodeAllLines ls with
      | none => none
      | some vs => some (v :: vs)

/-- Which record source flatten_json_stream selected. -/
inductive SrcBranch where
  | jsonArray
  | ndjson
deriving DecidableEq

/-- Result of flatten_json_stream: the branch taken and the CSV, or an
error marker when an exception aborted the run. -/
structure FlattenResult where
  branch : SrcBranch
  result : Except Unit CsvOut

/-- flatten_json_stream of flatten_json.py: reads one character, and
exactly when that very first character is an opening bracket processes
the document as a JSON array with ijson in Decimal mode; otherwise it
decodes the text line by line with json.loads and the
decimal_object_hook. -/
def flatten_json_stream (text : String) : FlattenResult :=
  match text.data.head? with
  | some '[' =>
    let p := ijsonItems decimalCfg text
    ⟨.jsonArray, if p.2 then .error () else write_to_csv p.1⟩
  | _ =>
    match decodeAllLines (pyLines text) with
    | some vs => ⟨.ndjson, write_to_csv vs⟩
    | none => ⟨.ndjson, .error ()⟩

/-- First non-whitespace character of the input, if any. -/
def firstNonWsChar (t : String) : Option Char :=
  (skipWs t.data).head?

/-- Modelled from the spec: format auto-detection peeks the first
non-whitespace character of the input and selects the JSON-array source
exactly when it is an opening bracket.  Stated for comparison with the
detection flatten_json_stream actually performs. -/
def specFormatDetect (t : String) : SrcBranch :=
  if firstNonWsChar t = some '[' then .jsonArray else .ndjson

/-! ## Avro schema inference and demotion -/

/-- Avro types appearing in infer_avro_schema_from_duckdb; every field is
the union of null with one of these.  The decimal variant records the
optional precision and scale members of the logical-type dictionary. -/
inductive AvroType where
  | string
  | long
  | double
  | boolean
  | date
  | decimal (precision scale : Option Nat)
deriving DecidableEq

/-- One field of the inferred schema: its name and the non-null branch of
its union type. -/
structure AvroField where
  name : String
  ty : AvroType
deriving DecidableEq

/-- The inferred record schema. -/
structure AvroSchema where
  fields : List AvroField
deriving DecidableEq

/-- type_mapping of infer_avro_schema_from_duckdb. -/
def type_mapping (t : String) : Option AvroType :=
  if t = "VARCHAR" then some .string
  else if t = "BIGINT" then some .long
  else if t = "DOUBLE" then some .double
  else if t = "BOOLEAN" then some .boolean
  else if t = "DATE" then some .date
  else if t = "DECIMAL" then some (.decimal none none)
  else none

/-- One field of infer_avro_schema_from_duckdb: the column type is looked
up by its name before any parenthesis, defaulting to string, and a
DECIMAL column gets precision 18 and scale 2 assigned.  A column type
that starts with DECIMAL but maps to the string default would make the
script assign a member on a str and raise, modelled as an error. -/
def avroFieldOf (colName colType : String) : Except Unit AvroField :=
  let base :=
    (type_mapping (String.mk (colType.data.takeWhile (fun c => c ≠ '(')))).getD
      .string
  if "DECIMAL".data.isPrefixOf colType.data then
    match base with
    | .decimal _ _ => .ok ⟨colName, .decimal (some 18) (some 2)⟩
    | _ => .error ()
  else .ok ⟨colName, base⟩

/-- Fields of the inferred schema, in DESCRIBE order. -/
def inferFields : List (String × String) → Except Unit (List AvroField)
  | [] => .ok []
  | (n, t) :: rest =>
    match avroFieldOf n t with
    | .error e => .error e
    | .ok f =>
      match inferFields rest with
      | .error e => .error e
      | .ok fs => .ok (f :: fs)

/-- infer_avro_schema_from_duckdb of flatten_json.py over the DESCRIBE
output, given as the list of column names and column types. -/
def infer_avro_schema_from_duckdb (desc : List (String × String)) :
    Except Unit AvroSchema :=
  match inferFields desc with
  | .error e => .error e
  | .ok fs => .ok ⟨fs⟩

/-- The demotion loop of convert_ndjson_to_formats: every field whose
union carries a decimal logical type is rewritten to plain string. -/
def demoteDecimalFields (s : AvroSchema) : AvroSchema :=
  ⟨s.fields.map (fun f =>
    match f.ty with
    | .decimal _ _ => ⟨f.name, .string⟩
    | _ => f)⟩

/-- Record preparation before the Avro writer in
convert_ndjson_to_formats: Decimal values are serialised through str. -/
def avroPrepRecord (r : List (String × JVal)) : List (String × JVal) :=
  r.map (fun p => match p.2 with | .dec d => (p.1, .str d) | _ => p)

/-- Observable core of convert_ndjson_to_formats for the Avro sink: the
schema handed to the encoder after demotion, and the prepared records. -/
def convert_ndjson_to_formats (desc : List (String × String))
    (records : List (List (String × JVal))) :
    Except Unit (AvroSchema × List (List (String × JVal))) :=
  match infer_avro_schema_from_duckdb desc with
  | .error e => .error e
  | .ok sch => .ok (demoteDecimalFields sch, records.map avroPrepRecord)

/-! ## Derived descriptions of the loops -/

/-- One push of the batch accumulator shared by both conversion loops:
append the record, flush when the capacity is reached. -/
def pushFlush (B : Int) (p : List (List JVal) × List JVal) (v : JVal) :
    List (List JVal) × List JVal :=
  let b := p.2 ++ [v]
  if B ≤ (b.length : Int) then (p.1 ++ [b], []) else (p.1, b)

/-- Values the NDJSON loop of convert_ndjson_to_json accepts: non-blank
lines that json.loads decodes, in order. -/
def okVals (lines : List String) : List JVal :=
  lines.filterMap (fun l => if isBlankLine l then none else jsonLoads plainCfg l)

/-- 1-based numbers of the non-blank lines that fail to decode, starting
the count at n. -/
def errNumsFrom (n : Nat) : List String → List Nat
  | [] => []
  | l :: ls =>
    if isBlankLine l then errNumsFrom (n + 1) ls
    else
      match jsonLoads plainCfg l with
      | some _ => errNumsFrom (n + 1) ls
      | none => n :: errNumsFrom (n + 1) ls

/-- A line the NDJSON loop fully accepts: non-blank and decodable. -/
def goodLine (l : String) : Prop :=
  isBlankLine l = false ∧ (jsonLoads plainCfg l).isSome

/-! ## Round-trip well-formedness -/

/-- Characters allowed inside a string value the strict-mode reader can
reproduce: anything at or above code point 32, or one of the five
control characters with short escape forms. -/
def cleanChar (c : Char) : Bool :=
  decide (32 ≤ c.toNat) || decide (c.toNat = 8) || c == '\t' || c == '\n' ||
    decide (c.toNat = 12) || c == '\r'

/-- A string value whose dump the reader decodes back to it. -/
def cleanStr (s : String) : Bool :=
  s.data.all cleanChar

/-- Shape of the pieces readNumParts returns: a nonempty digit run for
the integral part with a leading zero only for the single digit 0, an
optional fractional part led by the dot, an optional exponent part led
by e or E with an optional sign. -/
structure ValidNumParts (ip fp ep : List Char) : Prop where
  ip_digits : ∀ c ∈ ip, c.isDigit
  ip_ne : ip ≠ []
  ip_zero : ip.head? = some '0' → ip = ['0']
  fp_shape : fp = [] ∨ ∃ ds, fp = '.' :: ds ∧ ds ≠ [] ∧ ∀ c ∈ ds, c.isDigit
  ep_shape : ep = [] ∨ ∃ e sgn ds, (e = 'e' ∨ e = 'E') ∧ ep = e :: (sgn ++ ds) ∧
    (sgn = [] ∨ sgn = ['+'] ∨ sgn = ['-']) ∧ ds ≠ [] ∧ ∀ c ∈ ds, c.isDigit

/-- A float repr string the dump-reparse cycle preserves: a valid
non-integral numeric token that the float canonicalization fixes. -/
def FloatReady (r : String) : Prop :=
  ∃ (sign : Bool) (ip fp ep : List Char), ValidNumParts ip fp ep ∧
    r.data = (if sign then ['-'] else []) ++ ip ++ fp ++ ep ∧
    ¬(fp = [] ∧ ep = []) ∧ canonFloat r = r

/-- Values the dump-reparse cycle of the float-mode reader preserves:
exactly the values that reader itself can produce, with canonical
floats, clean strings and objects with distinct keys. -/
inductive Wready : JVal → Prop where
  | null : Wready .null
  | bool (b : Bool) : Wready (.bool b)
  | int (n : Int) : Wready (.int n)
  | float (r : String) : FloatReady r → Wready (.float r)
  | str (s : String) : cleanStr s → Wready (.str s)
  | arr (xs : List JVal) : (∀ v ∈ xs, Wready v) → Wready (.arr xs)
  | obj (fs : List (String × JVal)) :
      (∀ p ∈ fs, cleanStr p.1 = true) → (∀ p ∈ fs, Wready p.2) →
      (fs.map Prod.fst).Nodup → Wready (.obj fs)

mutual

/-- Structural size of a value, a fuel bound for the reader. -/
def jsize : JVal → Nat
  | .arr xs => 1 + jsizeList xs
  | .obj fs => 1 + jsizeObj fs
  | _ => 1

/-- Structural size of array elements. -/
def jsizeList : List JVal → Nat
  | [] => 0
  | v :: vs => 1 + jsize v + jsizeList vs

/-- Structural size of object members. -/
def jsizeObj : List (String × JVal) → Nat
  | [] => 0
  | p :: fs => 1 + jsize p.2 + jsizeObj fs

end

/-- The continuation after a numeric token must not begin with a
character that would extend the token. -/
def numBoundary (cs : List Char) : Prop :=
  ∀ c, cs.head? = some c → c.isDigit = false ∧ c ≠ '.' ∧ c ≠ 'e' ∧ c ≠ 'E'

/-- Body of the JSON array file convert_ndjson_to_json writes: one
indented dump per record, comma-newline separated. -/
def bodyOf : List JVal → String
  | [] => ""
  | [v] => "    " ++ dumps v
  | v :: vs => "    " ++ dumps v ++ ",\n" ++ bodyOf vs

/-- Comma-newline-prefixed join, the tail String.intercalate.go builds. -/
def joinSep : List String → String
  | [] => ""
  | a :: as => ",\n" ++ a ++ joinSep as

/-- Character stream following one record of the array file: either the
closing newline and bracket, or the separator, indentation and dump of
each remaining record in turn. -/
def recTail : List JVal → List Char
  | [] => ['\n', ']']
  | v :: vs =>
    ',' :: '\n' :: ' ' :: ' ' :: ' ' :: ' ' :: ((dumps v).data ++ recTail vs)

/-! ## Batch accumulator lemmas -/

theorem pushFlush_foldl_flatten (B : Int) (xs : List JVal) :
    ∀ (out : List (List JVal)) (b : List JVal),
      (xs.foldl (pushFlush B) (out, b)).1.flatten ++
        (xs.foldl (pushFlush B) (out, b)).2 = out.flatten ++ b ++ xs := by
  induction xs with
  | nil => intro out b; simp
  | cons x xs ih =>
    intro out b
    simp only [List.foldl_cons]
    by_cases h : B ≤ ((b ++ [x]).length : Int)
    · simp only [pushFlush, h, if_pos]
      rw [ih]
      simp
    · simp only [pushFlush, h, if_neg, not_false_iff]
      rw [ih]
      simp

theorem pushFlush_foldl_sizes (Bn : Nat) (hB : 0 < Bn) (xs : List JVal) :
    ∀ (out : List (List JVal)) (b : List JVal), b.length < Bn →
      ∃ cs,
        (xs.foldl (pushFlush (Bn : Int)) (out, b)).1 = out ++ cs ∧
        (∀ c ∈ cs, c.length = Bn) ∧
        cs.length = (b.length + xs.length) / Bn ∧
        (xs.foldl (pushFlush (Bn : Int)) (out, b)).2.length =
          (b.length + xs.length) % Bn := by
  induction xs with
  | nil =>
    intro out b hb
    refine ⟨[], by simp, by simp, ?_, ?_⟩
    · simp [Nat.div_eq_of_lt hb]
    · simp [Nat.mod_eq_of_lt hb]
  | cons x xs ih =>
    intro out b hb
    simp only [List.foldl_cons]
    by_cases h : (Bn : Int) ≤ ((b ++ [x]).length : Int)
    · have hlen : b.length + 1 = Bn := by
        have hx : (Bn : Int) ≤ (b.length : Int) + 1 := by simpa using h
        have h2 : Bn ≤ b.length + 1 := by exact_mod_cast hx
        omega
      simp only [pushFlush, h, if_pos]
      obtain ⟨cs, h1, h2, h3, h4⟩ := ih (out ++ [b ++ [x]]) [] (by simpa using hB)
      refine ⟨(b ++ [x]) :: cs, ?_, ?_, ?_, ?_⟩
      · simpa using h1
      · intro c hc
        rcases List.mem_cons.mp hc with rfl | hc2
        · simpa using hlen
        · exact h2 c hc2
      · have harith : b.length + (xs.length + 1) = xs.length + Bn := by omega
        simp only [List.length_cons, harith, List.length_nil, Nat.zero_add] at *
        rw [h3, Nat.add_div_right _ hB]
      · have harith : b.length + (xs.length + 1) = xs.length + Bn := by omega
        simp only [List.length_nil, Nat.zero_add] at h4
        rw [List.length_cons, harith, Nat.add_mod_right]
        exact h4
    · have hlt : (b ++ [x]).length < Bn := by
        have hx : ¬ (Bn : Int) ≤ (b.length : Int) + 1 := by simpa using h
        have h2 : ¬ Bn ≤ b.length + 1 := fun hc => hx (by exact_mod_cast hc)
        simp only [List.length_append, List.length_cons, List.length_nil]
        omega
      simp only [pushFlush, h, if_neg, not_false_iff]
      obtain ⟨cs, h1, h2, h3, h4⟩ := ih out (b ++ [x]) hlt
      refine ⟨cs, h1, h2, ?_, ?_⟩
      · rw [h3]; congr 1; simp; omega
      · rw [h4]; congr 1; simp; omega

theorem pushFlush_foldl_nonpos (B : Int) (hB : B ≤ 0) (xs : List JVal) :
    ∀ (out : List (List JVal)),
      xs.foldl (pushFlush B) (out, []) =
        (out ++ xs.map (fun x => [x]), []) := by
  induction xs with
  | nil => intro out; simp
  | cons x xs ih =>
    intro out
    have h : B ≤ ((([] : List JVal) ++ [x]).length : Int) := by
      refine le_trans hB ?_
      simp
    simp only [List.foldl_cons, pushFlush, h, if_pos]
    rw [ih]
    simp

/-! ## Loop characterizations -/

theorem ndjsonRender_append (a b : List JVal) :
    ndjsonRender (a ++ b) = ndjsonRender a ++ ndjsonRender b := by
  induction a with
  | nil => simp [ndjsonRender]
  | cons v vs ih =>
    simp only [List.cons_append, ndjsonRender, List.append_eq, ih, String.append_assoc]

theorem conv1Go_spec (B : Int) (lines : List String) :
    ∀ (n : Nat) (st : Conv1State),
      (conv1Go B (enumFrom n lines) st).errors = st.errors ++ errNumsFrom n lines ∧
      ((conv1Go B (enumFrom n lines) st).batches,
          (conv1Go B (enumFrom n lines) st).batch) =
        (okVals lines).foldl (pushFlush B) (st.batches, st.batch) ∧
      (st.count = st.batches.flatten.length →
        (conv1Go B (enumFrom n lines) st).count =
          (conv1Go B (enumFrom n lines) st).batches.flatten.length) := by
  induction lines with
  | nil =>
    intro n st
    simp [enumFrom, conv1Go, okVals, errNumsFrom]
  | cons l ls ih =>
    intro n st
    by_cases hb : isBlankLine l
    · have hred : conv1Go B (enumFrom n (l :: ls)) st =
          conv1Go B (enumFrom (n + 1) ls) st := by
        simp [enumFrom, conv1Go, hb]
      rw [hred]
      obtain ⟨e1, e2, e3⟩ := ih (n + 1) st
      refine ⟨?_, ?_, e3⟩
      · rw [e1]; simp [errNumsFrom, hb]
      · rw [e2]; simp [okVals, List.filterMap_cons, hb]
    · cases hdec : jsonLoads plainCfg l with
      | none =>
        have hred : conv1Go B (enumFrom n (l :: ls)) st =
            conv1Go B (enumFrom (n + 1) ls) { st with errors := st.errors ++ [n] } := by
          simp only [enumFrom, conv1Go, hdec]
          rw [if_neg hb]
        rw [hred]
        obtain ⟨e1, e2, e3⟩ := ih (n + 1) { st with errors := st.errors ++ [n] }
        refine ⟨?_, ?_, e3⟩
        · rw [e1]; simp [errNumsFrom, hb, hdec]
        · rw [e2]; simp [okVals, List.filterMap_cons, hb, hdec]
      | some v =>
        by_cases hfull : B ≤ ((st.batch ++ [v]).length : Int)
        · have hred : conv1Go B (enumFrom n (l :: ls)) st =
              conv1Go B (enumFrom (n + 1) ls)
                { text := st.text ++ write_batch (st.batch ++ [v]) st.isFirst
                  isFirst := false
                  batch := []
                  batches := st.batches ++ [st.batch ++ [v]]
                  count := st.count + (st.batch ++ [v]).length
                  errors := st.errors } := by
            simp only [enumFrom, conv1Go, hdec]
            rw [if_neg hb, if_pos hfull]
          rw [hred]
          obtain ⟨e1, e2, e3⟩ := ih (n + 1)
            { text := st.text ++ write_batch (st.batch ++ [v]) st.isFirst
              isFirst := false
              batch := []
              batches := st.batches ++ [st.batch ++ [v]]
              count := st.count + (st.batch ++ [v]).length
              errors := st.errors }
          refine ⟨?_, ?_, ?_⟩
          · rw [e1]; simp [errNumsFrom, hb, hdec]
          · rw [e2]
            have hok : okVals (l :: ls) = v :: okVals ls := by
              simp [okVals, List.filterMap_cons, hb, hdec]
            rw [hok, List.foldl_cons]
            have hfull2 : B ≤ (st.batch.length : Int) + 1 := by simpa using hfull
            have hpf : pushFlush B (st.batches, st.batch) v =
                (st.batches ++ [st.batch ++ [v]], []) := by
              simp [pushFlush, hfull2]
            rw [hpf]
          · intro hc
            apply e3
            simp [hc]
        · have hred : conv1Go B (enumFrom n (l :: ls)) st =
              conv1Go B (enumFrom (n + 1) ls) { st with batch := st.batch ++ [v] } := by
            simp only [enumFrom, conv1Go, hdec]
            rw [if_neg hb, if_neg hfull]
          rw [hred]
          obtain ⟨e1, e2, e3⟩ := ih (n + 1) { st with batch := st.batch ++ [v] }
          refine ⟨?_, ?_, e3⟩
          · rw [e1]; simp [errNumsFrom, hb, hdec]
          · rw [e2]
            have hok : okVals (l :: ls) = v :: okVals ls := by
              simp [okVals, List.filterMap_cons, hb, hdec]
            rw [hok, List.foldl_cons]
            have hfull2 : ¬ B ≤ (st.batch.length : Int) + 1 := by simpa using hfull
            have hpf : pushFlush B (st.batches, st.batch) v =
                (st.batches, st.batch ++ [v]) := by
              simp [pushFlush, hfull2]
            rw [hpf]

theorem conv2Go_spec (B : Int) (items : List JVal) :
    ∀ (st : Conv2State),
      ((conv2Go B items st).batches, (conv2Go B items st).batch) =
        items.foldl (pushFlush B) (st.batches, st.batch) ∧
      (st.count = st.batches.flatten.length →
        (conv2Go B items st).count =
          (conv2Go B items st).batches.flatten.length) ∧
      (∀ t0 : String, st.text = t0 ++ ndjsonRender st.batches.flatten →
        (conv2Go B items st).text =
          t0 ++ ndjsonRender (conv2Go B items st).batches.flatten) := by
  induction items with
  | nil =>
    intro st
    exact ⟨by simp [conv2Go], fun h => by simpa [conv2Go] using h,
      fun t0 h => by simpa [conv2Go] using h⟩
  | cons v vs ih =>
    intro st
    by_cases hfull : B ≤ ((st.batch ++ [v]).length : Int)
    · have hred : conv2Go B (v :: vs) st =
          conv2Go B vs
            { text := st.text ++ ndjsonRender (st.batch ++ [v])
              batch := []
              batches := st.batches ++ [st.batch ++ [v]]
              count := st.count + (st.batch ++ [v]).length } := by
        simp only [conv2Go]
        rw [if_pos hfull]
      rw [hred]
      obtain ⟨e1, e2, e3⟩ := ih
        { text := st.text ++ ndjsonRender (st.batch ++ [v])
          batch := []
          batches := st.batches ++ [st.batch ++ [v]]
          count := st.count + (st.batch ++ [v]).length }
      refine ⟨?_, ?_, ?_⟩
      · rw [e1, List.foldl_cons]
        have hfull2 : B ≤ (st.batch.length : Int) + 1 := by simpa using hfull
        have hpf : pushFlush B (st.batches, st.batch) v =
            (st.batches ++ [st.batch ++ [v]], []) := by
          simp [pushFlush, hfull2]
        rw [hpf]
      · intro hc
        apply e2
        simp [hc]
      · intro t0 ht
        apply e3
        rw [ht]
        simp only [List.flatten_append, List.flatten_cons, List.flatten_nil,
          List.append_nil, ndjsonRender_append, String.append_assoc]
    · have hred : conv2Go B (v :: vs) st =
          conv2Go B vs { st with batch := st.batch ++ [v] } := by
        simp only [conv2Go]
        rw [if_neg hfull]
      rw [hred]
      obtain ⟨e1, e2, e3⟩ := ih { st with batch := st.batch ++ [v] }
      refine ⟨?_, e2, e3⟩
      rw [e1, List.foldl_cons]
      have hfull2 : ¬ B ≤ (st.batch.length : Int) + 1 := by simpa using hfull
      have hpf : pushFlush B (st.batches, st.batch) v =
          (st.batches, st.batch ++ [v]) := by
        simp [pushFlush, hfull2]
      rw [hpf]

/-- Result-level description of convert_ndjson_to_json: the recorded
error numbers are exactly the non-blank undecodable line numbers, the
emitted batches concatenate to the accepted values in order, and the
object count equals the number of records written. -/
theorem convert_ndjson_to_json_spec (lines : List String) (B : Int) :
    (convert_ndjson_to_json lines B).errors = errNumsFrom 1 lines ∧
    (convert_ndjson_to_json lines B).batches.flatten = okVals lines ∧
    (convert_ndjson_to_json lines B).count =
      (convert_ndjson_to_json lines B).batches.flatten.length := by
  obtain ⟨e1, e2, e3⟩ := conv1Go_spec B lines 1 ⟨"[\n", true, [], [], 0, []⟩
  have hflat := pushFlush_foldl_flatten B (okVals lines) [] []
  rw [← e2] at hflat
  set st := conv1Go B (enumFrom 1 lines) ⟨"[\n", true, [], [], 0, []⟩ with hst
  simp only [List.flatten_nil, List.nil_append] at hflat
  have hcount : st.count = st.batches.flatten.length := e3 rfl
  have herr : st.errors = errNumsFrom 1 lines := by simpa using e1
  unfold convert_ndjson_to_json conv1Finish
  rw [← hst]
  by_cases hbe : st.batch.isEmpty
  · have hb : st.batch = [] := List.isEmpty_iff.mp hbe
    rw [hb, List.append_nil] at hflat
    rw [if_pos hbe]
    exact ⟨herr, hflat, hcount⟩
  · rw [if_neg hbe]
    refine ⟨herr, ?_, ?_⟩
    · simp only [List.flatten_append, List.flatten_cons, List.flatten_nil,
        List.append_nil]
      exact hflat
    · simp only [List.flatten_append, List.flatten_cons, List.flatten_nil,
        List.append_nil, List.length_append]
      omega

/-- Result-level description of the item-stream core of
convert_json_to_ndjson: the job completes exactly when the container was
not broken, the count equals the number of records written, the output
text is the NDJSON rendering of the written records, a complete run
writes every item in order, and a broken run writes a prefix of the
yielded items. -/
theorem convert_json_to_ndjson_items_spec (items : List JVal) (broken : Bool)
    (B : Int) :
    (convert_json_to_ndjson_items items broken B).ok = !broken ∧
    (convert_json_to_ndjson_items items broken B).count =
      (convert_json_to_ndjson_items items broken B).batches.flatten.length ∧
    (convert_json_to_ndjson_items items broken B).text =
      ndjsonRender (convert_json_to_ndjson_items items broken B).batches.flatten ∧
    (broken = false →
      (convert_json_to_ndjson_items items broken B).batches.flatten = items) ∧
    (broken = true →
      (convert_json_to_ndjson_items items broken B).batches.flatten ++
        (conv2Go B items ⟨"", [], [], 0⟩).batch = items) := by
  obtain ⟨e1, e2, e3⟩ := conv2Go_spec B items ⟨"", [], [], 0⟩
  have hflat := pushFlush_foldl_flatten B items [] []
  rw [← e1] at hflat
  set st := conv2Go B items ⟨"", [], [], 0⟩ with hst
  simp only [List.flatten_nil, List.nil_append] at hflat
  have hcount : st.count = st.batches.flatten.length := e2 rfl
  have htext : st.text = "" ++ ndjsonRender st.batches.flatten := by
    apply e3
    simp [ndjsonRender]
  simp only [String.empty_append] at htext
  unfold convert_json_to_ndjson_items conv2Finish
  rw [← hst]
  cases broken with
  | true =>
    rw [if_pos rfl]
    exact ⟨rfl, hcount, htext, by simp, fun _ => hflat⟩
  | false =>
    rw [if_neg Bool.false_ne_true]
    by_cases hbe : st.batch.isEmpty
    · have hb : st.batch = [] := List.isEmpty_iff.mp hbe
      rw [hb, List.append_nil] at hflat
      rw [if_pos hbe]
      exact ⟨rfl, hcount, htext, fun _ => hflat, by simp⟩
    · rw [if_neg hbe]
      refine ⟨rfl, ?_, ?_, fun _ => ?_, by simp⟩
      · simp only [List.flatten_append, List.flatten_cons, List.flatten_nil,
          List.append_nil, List.length_append]
        omega
      · simp only [List.flatten_append, List.flatten_cons, List.flatten_nil,
          List.append_nil, ndjsonRender_append]
        rw [htext]
      · simp only [List.flatten_append, List.flatten_cons, List.flatten_nil,
          List.append_nil]
        exact hflat

/-! ## Well-formed line lists -/

theorem okVals_length_of_good (lines : List String)
    (h : ∀ l ∈ lines, goodLine l) : (okVals lines).length = lines.length := by
  induction lines with
  | nil => simp [okVals]
  | cons l ls ih =>
    obtain ⟨hnb, hsome⟩ := h l (List.mem_cons_self l ls)
    obtain ⟨v, hv⟩ := Option.isSome_iff_exists.mp hsome
    simp only [okVals, List.filterMap_cons, hnb, if_neg, hv]
    simpa [okVals] using ih (fun x hx => h x (List.mem_cons_of_mem l hx))

theorem errNumsFrom_of_ok (lines : List String)
    (h : ∀ l ∈ lines, isBlankLine l = true ∨ goodLine l) :
    ∀ n, errNumsFrom n lines = [] := by
  induction lines with
  | nil => intro n; simp [errNumsFrom]
  | cons l ls ih =>
    intro n
    have htail := ih (fun x hx => h x (List.mem_cons_of_mem l hx))
    rcases h l (List.mem_cons_self l ls) with hbl | ⟨hnb, hsome⟩
    · simp only [errNumsFrom, hbl, if_pos]
      exact htail (n + 1)
    · obtain ⟨v, hv⟩ := Option.isSome_iff_exists.mp hsome
      simp only [errNumsFrom, hnb, if_neg, hv]
      exact htail (n + 1)

theorem okVals_append (xs ys : List String) :
    okVals (xs ++ ys) = okVals xs ++ okVals ys := by
  simp [okVals, List.filterMap_append]

theorem errNumsFrom_append (xs ys : List String) :
    ∀ n, errNumsFrom n (xs ++ ys) = errNumsFrom n xs ++ errNumsFrom (n + xs.length) ys := by
  induction xs with
  | nil => intro n; simp [errNumsFrom]
  | cons l ls ih =>
    intro n
    by_cases hb : isBlankLine l
    · simp only [List.cons_append, errNumsFrom, hb, if_pos, List.append_eq,
        ih (n + 1), List.length_cons]
      have harith : n + 1 + ls.length = n + (ls.length + 1) := by omega
      rw [harith]
    · cases hdec : jsonLoads plainCfg l with
      | some v =>
        simp only [List.cons_append, errNumsFrom, hdec, List.append_eq]
        rw [if_neg hb, if_neg hb]
        simp only [ih (n + 1), List.length_cons]
        have harith : n + 1 + ls.length = n + (ls.length + 1) := by omega
        rw [harith]
      | none =>
        simp only [List.cons_append, errNumsFrom, hdec, List.append_eq]
        rw [if_neg hb, if_neg hb]
        simp only [ih (n + 1), List.length_cons, List.cons_append]
        have harith : n + 1 + ls.length = n + (ls.length + 1) := by omega
        rw [harith]

/-! ## Final batch layout -/

/-- The batches a full conversion run emits over a record stream: the
full batches flushed inside the loop, followed by the nonempty remainder
flushed at end of input. -/
def finalBatches (B : Int) (xs : List JVal) : List (List JVal) :=
  if (xs.foldl (pushFlush B) ([], [])).2.isEmpty then
    (xs.foldl (pushFlush B) ([], [])).1
  else
    (xs.foldl (pushFlush B) ([], [])).1 ++ [(xs.foldl (pushFlush B) ([], [])).2]

theorem finalBatches_spec (Bn : Nat) (hB : 0 < Bn) (xs : List JVal) :
    (finalBatches (Bn : Int) xs).flatten = xs ∧
    (xs.length % Bn = 0 →
      (finalBatches (Bn : Int) xs).length = xs.length / Bn ∧
      ∀ b ∈ finalBatches (Bn : Int) xs, b.length = Bn) ∧
    (xs.length % Bn ≠ 0 →
      (finalBatches (Bn : Int) xs).length = xs.length / Bn + 1 ∧
      (∀ b ∈ (finalBatches (Bn : Int) xs).dropLast, b.length = Bn) ∧
      (finalBatches (Bn : Int) xs).getLast?.map List.length =
        some (xs.length % Bn)) := by
  obtain ⟨cs, h1, h2, h3, h4⟩ := pushFlush_foldl_sizes Bn hB xs [] [] (by simpa using hB)
  have hflat := pushFlush_foldl_flatten (Bn : Int) xs [] []
  simp only [List.flatten_nil, List.nil_append, List.length_nil, Nat.zero_add] at h1 h3 h4 hflat
  unfold finalBatches
  by_cases hrem : xs.length % Bn = 0
  · have hb : (xs.foldl (pushFlush (Bn : Int)) ([], [])).2 = [] := by
      have := h4
      rw [hrem] at this
      exact List.eq_nil_of_length_eq_zero this
    simp only [hb, List.isEmpty_nil, if_pos]
    refine ⟨?_, fun _ => ⟨by rw [h1]; omega, ?_⟩, fun hc => absurd hrem hc⟩
    · rw [hb, List.append_nil] at hflat
      exact hflat
    · intro b hbmem
      rw [h1] at hbmem
      exact h2 b hbmem
  · have hb : (xs.foldl (pushFlush (Bn : Int)) ([], [])).2 ≠ [] := by
      intro hc
      rw [hc] at h4
      exact hrem (by simpa using h4.symm)
    have hbe : ((xs.foldl (pushFlush (Bn : Int)) ([], [])).2.isEmpty) = false := by
      simpa [List.isEmpty_iff] using hb
    simp only [hbe, Bool.false_eq_true, if_neg, not_false_iff]
    refine ⟨?_, fun hc => absurd hc hrem, fun _ => ⟨?_, ?_, ?_⟩⟩
    · simp only [List.flatten_append, List.flatten_cons, List.flatten_nil,
        List.append_nil]
      exact hflat
    · rw [List.length_append, h1]
      simp only [List.length_cons, List.length_nil]
      omega
    · intro b hbmem
      rw [h1] at hbmem
      rw [List.dropLast_concat] at hbmem
      exact h2 b hbmem
    · rw [List.getLast?_concat]
      show some ((xs.foldl (pushFlush (Bn : Int)) ([], [])).2.length) =
        some (xs.length % Bn)
      exact congrArg some h4

/-- The batches of convert_ndjson_to_json are the final batch layout over
the accepted values. -/
theorem convert_ndjson_to_json_batches (lines : List String) (B : Int) :
    (convert_ndjson_to_json lines B).batches = finalBatches B (okVals lines) := by
  obtain ⟨_, e2, _⟩ := conv1Go_spec B lines 1 ⟨"[\n", true, [], [], 0, []⟩
  set st := conv1Go B (enumFrom 1 lines) ⟨"[\n", true, [], [], 0, []⟩ with hst
  have hb1 : st.batches = ((okVals lines).foldl (pushFlush B) ([], [])).1 :=
    congrArg Prod.fst e2
  have hb2 : st.batch = ((okVals lines).foldl (pushFlush B) ([], [])).2 :=
    congrArg Prod.snd e2
  unfold convert_ndjson_to_json finalBatches conv1Finish
  rw [← hst, ← hb1, ← hb2]
  by_cases hbe : st.batch.isEmpty
  · rw [if_pos hbe, if_pos hbe]
  · rw [if_neg hbe, if_neg hbe]

/-- The batches of a completed convert_json_to_ndjson run are the final
batch layout over the yielded items. -/
theorem convert_json_to_ndjson_items_batches (items : List JVal) (B : Int) :
    (convert_json_to_ndjson_items items false B).batches = finalBatches B items := by
  obtain ⟨e1, _, _⟩ := conv2Go_spec B items ⟨"", [], [], 0⟩
  set st := conv2Go B items ⟨"", [], [], 0⟩ with hst
  have hb1 : st.batches = (items.foldl (pushFlush B) ([], [])).1 :=
    congrArg Prod.fst e1
  have hb2 : st.batch = (items.foldl (pushFlush B) ([], [])).2 :=
    congrArg Prod.snd e1
  unfold convert_json_to_ndjson_items finalBatches conv2Finish
  rw [← hst, ← hb1, ← hb2]
  rw [if_neg Bool.false_ne_true]
  by_cases hbe : st.batch.isEmpty
  · rw [if_pos hbe, if_pos hbe]
  · rw [if_neg hbe, if_neg hbe]

/-- Deciding whether a line is fully accepted is computable. -/
instance goodLineDecidable (l : String) : Decidable (goodLine l) := by
  unfold goodLine
  infer_instance

/-! ## Claim theorems: conversion script -/

/-- C5: for every input of N well-formed records and every batch size
B > 0, each conversion direction emits exactly N / B full batches of size
B, plus one remainder batch of size N mod B exactly when N mod B > 0;
the total count of written records is N, and the emitted batches
concatenate to the input records in their original order, so every
record appears in exactly one batch and none is duplicated or dropped. -/
theorem c5_batch_completeness (lines : List String) (items : List JVal)
    (Bn : Nat) (hB : 0 < Bn) (hgood : ∀ l ∈ lines, goodLine l) :
    ((convert_ndjson_to_json lines (Bn : Int)).batches.flatten = okVals lines ∧
      (convert_ndjson_to_json lines (Bn : Int)).count = lines.length ∧
      (lines.length % Bn = 0 →
        (convert_ndjson_to_json lines (Bn : Int)).batches.length =
          lines.length / Bn ∧
        ∀ b ∈ (convert_ndjson_to_json lines (Bn : Int)).batches, b.length = Bn) ∧
      (lines.length % Bn ≠ 0 →
        (convert_ndjson_to_json lines (Bn : Int)).batches.length =
          lines.length / Bn + 1 ∧
        (∀ b ∈ (convert_ndjson_to_json lines (Bn : Int)).batches.dropLast,
          b.length = Bn) ∧
        (convert_ndjson_to_json lines (Bn : Int)).batches.getLast?.map
          List.length = some (lines.length % Bn))) ∧
    ((convert_json_to_ndjson_items items false (Bn : Int)).batches.flatten =
        items ∧
      (convert_json_to_ndjson_items items false (Bn : Int)).count =
        items.length ∧
      (items.length % Bn = 0 →
        (convert_json_to_ndjson_items items false (Bn : Int)).batches.length =
          items.length / Bn ∧
        ∀ b ∈ (convert_json_to_ndjson_items items false (Bn : Int)).batches,
          b.length = Bn) ∧
      (items.length % Bn ≠ 0 →
        (convert_json_to_ndjson_items items false (Bn : Int)).batches.length =
          items.length / Bn + 1 ∧
        (∀ b ∈ (convert_json_to_ndjson_items items false
            (Bn : Int)).batches.dropLast, b.length = Bn) ∧
        (convert_json_to_ndjson_items items false
            (Bn : Int)).batches.getLast?.map List.length =
          some (items.length % Bn))) := by
  have hlen : (okVals lines).length = lines.length :=
    okVals_length_of_good lines hgood
  constructor
  · obtain ⟨s1, s2, s3⟩ := convert_ndjson_to_json_spec lines (Bn : Int)
    have hb := convert_ndjson_to_json_batches lines (Bn : Int)
    obtain ⟨f1, f2, f3⟩ := finalBatches_spec Bn hB (okVals lines)
    rw [hlen] at f2 f3
    refine ⟨s2, ?_, ?_, ?_⟩
    · rw [s3, s2, hlen]
    · intro hm
      obtain ⟨g1, g2⟩ := f2 hm
      rw [hb]
      exact ⟨g1, g2⟩
    · intro hm
      obtain ⟨g1, g2, g3⟩ := f3 hm
      rw [hb]
      exact ⟨g1, g2, g3⟩
  · obtain ⟨o1, o2, o3, o4, o5⟩ :=
      convert_json_to_ndjson_items_spec items false (Bn : Int)
    have hfl : (convert_json_to_ndjson_items items false (Bn : Int)).batches.flatten =
        items := o4 rfl
    have hb := convert_json_to_ndjson_items_batches items (Bn : Int)
    obtain ⟨f1, f2, f3⟩ := finalBatches_spec Bn hB items
    refine ⟨hfl, ?_, ?_, ?_⟩
    · rw [o2, hfl]
    · intro hm
      obtain ⟨g1, g2⟩ := f2 hm
      rw [hb]
      exact ⟨g1, g2⟩
    · intro hm
      obtain ⟨g1, g2, g3⟩ := f3 hm
      rw [hb]
      exact ⟨g1, g2, g3⟩

/-- C5 witness: five records with batch size two give two full batches
and a remainder of one, ten records written in total across both
directions. -/
theorem c5_batch_completeness_witness :
    (convert_ndjson_to_json
      ["\x7b\"a\": 1\x7d", "\x7b\"a\": 2\x7d", "\x7b\"a\": 3\x7d",
        "\x7b\"a\": 4\x7d", "\x7b\"a\": 5\x7d"] ((2 : Nat) : Int)).count = 5 ∧
    (convert_json_to_ndjson_items [.int 1, .int 2, .int 3] false
      ((2 : Nat) : Int)).count = 3 := by
  have h := c5_batch_completeness
    ["\x7b\"a\": 1\x7d", "\x7b\"a\": 2\x7d", "\x7b\"a\": 3\x7d",
      "\x7b\"a\": 4\x7d", "\x7b\"a\": 5\x7d"]
    [.int 1, .int 2, .int 3] 2 (by norm_num) (by decide)
  exact ⟨h.1.2.1, h.2.2.1⟩

/-- C6: on an NDJSON input whose lines all decode except a single
non-blank malformed line after the first pre.length lines, the run
reports exactly one decode error carrying that 1-based line number,
skips the malformed line, keeps every other record in order, completes,
and when no line is blank it writes exactly N - 1 records; interleaved
blank lines are skipped without being reported as errors. -/
theorem c6_error_isolation (pre post : List String) (bad : String) (B : Int)
    (hpre : ∀ l ∈ pre, isBlankLine l = true ∨ goodLine l)
    (hpost : ∀ l ∈ post, isBlankLine l = true ∨ goodLine l)
    (hbadnb : isBlankLine bad = false)
    (hbad : jsonLoads plainCfg bad = none) :
    (convert_ndjson_to_json (pre ++ bad :: post) B).errors = [pre.length + 1] ∧
    (convert_ndjson_to_json (pre ++ bad :: post) B).batches.flatten =
      okVals pre ++ okVals post ∧
    (convert_ndjson_to_json (pre ++ bad :: post) B).count =
      (okVals pre).length + (okVals post).length ∧
    ((∀ l ∈ pre ++ post, goodLine l) →
      (convert_ndjson_to_json (pre ++ bad :: post) B).count =
        (pre ++ bad :: post).length - 1) := by
  obtain ⟨s1, s2, s3⟩ := convert_ndjson_to_json_spec (pre ++ bad :: post) B
  have hokcons : okVals (bad :: post) = okVals post := by
    simp [okVals, List.filterMap_cons, hbadnb, hbad]
  have herrcons : ∀ n, errNumsFrom n (bad :: post) =
      n :: errNumsFrom (n + 1) post := by
    intro n
    simp [errNumsFrom, hbadnb, hbad]
  have hflat : (convert_ndjson_to_json (pre ++ bad :: post) B).batches.flatten =
      okVals pre ++ okVals post := by
    rw [s2, okVals_append, hokcons]
  refine ⟨?_, hflat, ?_, ?_⟩
  · rw [s1, errNumsFrom_append, errNumsFrom_of_ok pre hpre,
      herrcons, errNumsFrom_of_ok post
        (fun l hl => hpost l hl)]
    simp [Nat.add_comm]
  · rw [s3, hflat, List.length_append]
  · intro hall
    have hpre2 : ∀ l ∈ pre, goodLine l :=
      fun l hl => hall l (List.mem_append_left post hl)
    have hpost2 : ∀ l ∈ post, goodLine l :=
      fun l hl => hall l (List.mem_append_right pre hl)
    rw [s3, hflat, List.length_append,
      okVals_length_of_good pre hpre2, okVals_length_of_good post hpost2]
    simp only [List.length_append, List.length_cons]
    omega

/-- C6 witness: three lines with the malformed second line give one
error at line 2 and two written records. -/
theorem c6_error_isolation_witness :
    (convert_ndjson_to_json
      ["\x7b\"a\": 1\x7d", "\x7b\"a\": broke", "\x7b\"a\": 3\x7d"] 1000).errors =
        [2] ∧
    (convert_ndjson_to_json
      ["\x7b\"a\": 1\x7d", "\x7b\"a\": broke", "\x7b\"a\": 3\x7d"] 1000).count =
        3 - 1 := by
  have h := c6_error_isolation ["\x7b\"a\": 1\x7d"] ["\x7b\"a\": 3\x7d"]
    "\x7b\"a\": broke" 1000 (by decide) (by decide) (by decide) (by rfl)
  exact ⟨h.1, h.2.2.2 (by decide)⟩

/-- C7: when the streamed top-level array is syntactically broken, the
run aborts reporting failure, the output holds exactly the records of
the full batches flushed before the break, in order, as a prefix of the
yielded items, and no record beyond the yielded ones is processed. -/
theorem c7_container_failure (text : String) (items : List JVal)
    (Bn : Nat) (hB : 0 < Bn)
    (hbrk : ijsonItems floatCfg text = (items, true)) :
    (convert_json_to_ndjson text (Bn : Int)).ok = false ∧
    (convert_json_to_ndjson text (Bn : Int)).batches.flatten =
      items.take (Bn * (items.length / Bn)) ∧
    (convert_json_to_ndjson text (Bn : Int)).batches.flatten <+: items ∧
    (convert_json_to_ndjson text (Bn : Int)).text =
      ndjsonRender (convert_json_to_ndjson text (Bn : Int)).batches.flatten := by
  have hconv : convert_json_to_ndjson text (Bn : Int) =
      convert_json_to_ndjson_items items true (Bn : Int) := by
    unfold convert_json_to_ndjson
    rw [hbrk]
  obtain ⟨o1, o2, o3, _, o5⟩ :=
    convert_json_to_ndjson_items_spec items true (Bn : Int)
  have happ := o5 rfl
  obtain ⟨e1, _, _⟩ := conv2Go_spec (Bn : Int) items ⟨"", [], [], 0⟩
  obtain ⟨cs, g1, g2, g3, g4⟩ :=
    pushFlush_foldl_sizes Bn hB items [] [] (by simpa using hB)
  have hb2 : (conv2Go (Bn : Int) items ⟨"", [], [], 0⟩).batch =
      (items.foldl (pushFlush (Bn : Int)) ([], [])).2 :=
    congrArg Prod.snd e1
  have hremlen : (conv2Go (Bn : Int) items ⟨"", [], [], 0⟩).batch.length =
      items.length % Bn := by
    rw [hb2, g4]
    simp
  have hflatlen :
      (convert_json_to_ndjson_items items true (Bn : Int)).batches.flatten.length =
        items.length - items.length % Bn := by
    have := congrArg List.length happ
    rw [List.length_append, hremlen] at this
    omega
  have hdm := Nat.div_add_mod items.length Bn
  have hmul : Bn * (items.length / Bn) = items.length - items.length % Bn :=
    Nat.eq_sub_of_add_eq hdm
  rw [hconv]
  set F := (convert_json_to_ndjson_items items true (Bn : Int)).batches.flatten
    with hF
  set R := (conv2Go (Bn : Int) items ⟨"", [], [], 0⟩).batch with hR
  refine ⟨o1, ?_, ⟨R, happ⟩, o3⟩
  rw [hmul, ← hflatlen, ← happ, List.take_left]

/-- C7 witness: a broken fourth element with batch size two leaves the
first full batch of two records written and reports failure. -/
theorem c7_container_failure_witness :
    (convert_json_to_ndjson
      "[ \x7b\"a\": 1\x7d, \x7b\"a\": 2\x7d, \x7b\"a\": 3\x7d, \x7b\"a\": broke\x7d ]"
      ((2 : Nat) : Int)).ok = false ∧
    (convert_json_to_ndjson
      "[ \x7b\"a\": 1\x7d, \x7b\"a\": 2\x7d, \x7b\"a\": 3\x7d, \x7b\"a\": broke\x7d ]"
      ((2 : Nat) : Int)).text =
      ndjsonRender (convert_json_to_ndjson
        "[ \x7b\"a\": 1\x7d, \x7b\"a\": 2\x7d, \x7b\"a\": 3\x7d, \x7b\"a\": broke\x7d ]"
        ((2 : Nat) : Int)).batches.flatten := by
  have h := c7_container_failure
    "[ \x7b\"a\": 1\x7d, \x7b\"a\": 2\x7d, \x7b\"a\": 3\x7d, \x7b\"a\": broke\x7d ]"
    [.obj [("a", .int 1)], .obj [("a", .int 2)], .obj [("a", .int 3)]]
    2 (by norm_num) (by rfl)
  exact ⟨h.1, h.2.2.2⟩

/-- C8 counterexample: with batch size 0 (and also a negative batch
size) the conversion is not rejected: it runs to completion, decodes
both records, reports no error, and writes them as two singleton
batches. -/
theorem c8_nonpositive_batch_accepted :
    (convert_ndjson_to_json ["\x7b\"a\": 1\x7d", "\x7b\"a\": 2\x7d"] 0).count = 2 ∧
    (convert_ndjson_to_json ["\x7b\"a\": 1\x7d", "\x7b\"a\": 2\x7d"] 0).errors = [] ∧
    (convert_ndjson_to_json ["\x7b\"a\": 1\x7d", "\x7b\"a\": 2\x7d"] 0).batches =
      [[.obj [("a", .int 1)]], [.obj [("a", .int 2)]]] ∧
    (convert_ndjson_to_json ["\x7b\"a\": 1\x7d", "\x7b\"a\": 2\x7d"] 0).text =
      "[\n    \x7b\"a\": 1\x7d,\n    \x7b\"a\": 2\x7d\n]" ∧
    (convert_ndjson_to_json ["\x7b\"a\": 1\x7d", "\x7b\"a\": 2\x7d"] (-7)).count = 2 :=
  ⟨rfl, rfl, rfl, rfl, rfl⟩

/-- C8 amended: the scripts never validate batch_size, whose argparse
default is 1000; a batch size less than or equal to zero is accepted and
the conversion proceeds, flushing a singleton batch after every record,
so all N records are still written and no error is reported. -/
theorem c8_nonpositive_batch_behavior (lines : List String) (B : Int)
    (hB : B ≤ 0) (hgood : ∀ l ∈ lines, goodLine l) :
    (convert_ndjson_to_json lines B).batches =
      (okVals lines).map (fun v => [v]) ∧
    (convert_ndjson_to_json lines B).count = lines.length ∧
    (convert_ndjson_to_json lines B).errors = [] ∧
    defaultBatchSize = 1000 := by
  obtain ⟨s1, s2, s3⟩ := convert_ndjson_to_json_spec lines B
  have hb := convert_ndjson_to_json_batches lines B
  have hnp := pushFlush_foldl_nonpos B hB (okVals lines) []
  have hfb : finalBatches B (okVals lines) = (okVals lines).map (fun v => [v]) := by
    unfold finalBatches
    rw [hnp]
    simp
  refine ⟨?_, ?_, ?_, rfl⟩
  · rw [hb, hfb]
  · rw [s3, s2, okVals_length_of_good lines hgood]
  · rw [s1]
    exact errNumsFrom_of_ok lines (fun l hl => Or.inr (hgood l hl)) 1

/-- C8 amended witness: one record with batch size -3 is written as one
singleton batch. -/
theorem c8_nonpositive_batch_behavior_witness :
    (convert_ndjson_to_json ["\x7b\"a\": 1\x7d"] (-3)).batches =
      (okVals ["\x7b\"a\": 1\x7d"]).map (fun v => [v]) ∧
    (convert_ndjson_to_json ["\x7b\"a\": 1\x7d"] (-3)).count = 1 := by
  have h := c8_nonpositive_batch_behavior ["\x7b\"a\": 1\x7d"] (-3)
    (by norm_num) (by decide)
  exact ⟨h.1, h.2.1⟩

/-- C4 counterexample: the composed text pipeline on the single record
with decimal token 16000.50 returns the record with token 16000.5, so
the round trip does not preserve decimal textual equality (it holds only
up to floating-point value equality). -/
theorem c4_roundtrip_textual_fails :
    (convert_json_to_ndjson
        (convert_ndjson_to_json ["\x7b\"a\": 16000.50\x7d"] defaultBatchSize).text
        defaultBatchSize).text = "\x7b\"a\": 16000.5\x7d\n" ∧
    "\x7b\"a\": 16000.5\x7d\n" ≠ "\x7b\"a\": 16000.50\x7d" ++ "\n" :=
  ⟨rfl, by decide⟩

/-! ## CSV writer lemmas -/

theorem writeRow_ok (hdr : List String) (fs : List (String × JVal))
    (h : ∀ p ∈ fs, hdr.contains p.1) :
    writeRow hdr fs = .ok (hdr.map (fun hn =>
      match fs.lookup hn with
      | some v => cellStr v
      | none => "")) := by
  unfold writeRow
  rw [if_neg]
  intro hc
  simp only [List.any_eq_true] at hc
  obtain ⟨p, hp, hnp⟩ := hc
  have hmem : p.1 ∈ hdr := by simpa using h p hp
  simp [hmem] at hnp

theorem writeRow_err (hdr : List String) (fs : List (String × JVal))
    (h : ∃ p ∈ fs, ¬ (hdr.contains p.1 = true)) :
    writeRow hdr fs = .error () := by
  unfold writeRow
  rw [if_pos]
  simp only [List.any_eq_true]
  obtain ⟨p, hp, hnp⟩ := h
  have hmem : p.1 ∉ hdr := fun hm => hnp (by simpa using hm)
  refine ⟨p, hp, ?_⟩
  simp [hmem]

theorem writeToCsvGo_ok (hdr : List String) (objs : List (List (String × JVal))) :
    ∀ (rows : List (List String)),
      (∀ fs ∈ objs, ∀ p ∈ fs, hdr.contains p.1) →
      writeToCsvGo (objs.map .obj) (some hdr) rows =
        .ok ⟨some hdr, rows ++ objs.map (fun fs => hdr.map (fun hn =>
          match fs.lookup hn with
          | some v => cellStr v
          | none => ""))⟩ := by
  induction objs with
  | nil => intro rows h; simp [writeToCsvGo]
  | cons fs rest ih =>
    intro rows h
    have hrow := writeRow_ok hdr fs (h fs (List.mem_cons_self fs rest))
    simp only [List.map_cons, writeToCsvGo, hrow]
    have hnext := ih (rows ++ [hdr.map (fun hn =>
      match fs.lookup hn with
      | some v => cellStr v
      | none => "")]) (fun g hg p hp => h g (List.mem_cons_of_mem fs hg) p hp)
    rw [hnext]
    simp

theorem writeToCsvGo_err (hdr : List String) (objs : List (List (String × JVal))) :
    ∀ (rows : List (List String)),
      (∃ fs ∈ objs, ∃ p ∈ fs, ¬ (hdr.contains p.1 = true)) →
      writeToCsvGo (objs.map .obj) (some hdr) rows = .error () := by
  induction objs with
  | nil => intro rows h; simp at h
  | cons fs rest ih =>
    intro rows h
    by_cases hfs : ∃ p ∈ fs, ¬ (hdr.contains p.1 = true)
    · have hrow := writeRow_err hdr fs hfs
      simp only [List.map_cons, writeToCsvGo, hrow]
    · push_neg at hfs
      have hclean : ∀ p ∈ fs, hdr.contains p.1 := by
        intro p hp
        have := hfs p hp
        simpa using this
      have hrow := writeRow_ok hdr fs hclean
      simp only [List.map_cons, writeToCsvGo, hrow]
      apply ih
      rcases h with ⟨g, hg, p, hp, hnp⟩
      rcases List.mem_cons.mp hg with rfl | hg2
      · exact absurd (hclean p hp) hnp
      · exact ⟨g, hg2, p, hp, hnp⟩

/-- Branch selection of flatten_json_stream depends only on the literal
first character of the input. -/
theorem flatten_branch_eq (t : String) :
    (flatten_json_stream t).branch =
      if t.data.head? = some '[' then .jsonArray else .ndjson := by
  unfold flatten_json_stream
  by_cases h : t.data.head? = some '['
  · rw [h, if_pos rfl]
    rfl
  · rw [if_neg h]
    cases hh : t.data.head? with
    | none =>
      cases hd : decodeAllLines (pyLines t) <;> simp [hd]
    | some c =>
      have hc : ¬ (c = '[') := fun e => h (by rw [hh, e])
      split
      · rename_i heq
        cases heq
        exact absurd rfl hc
      · cases hd : decodeAllLines (pyLines t) <;> simp [hd]

/-! ## Claim theorems: flattening -/

/-- C1 evidence: the numeric token 16000.50 is decoded through a binary
float and re-emitted as 16000.5 on the NDJSON-to-CSV path, the
NDJSON-to-array path and the array-to-NDJSON path; only the
array-to-CSV path preserves the textual digits.  The flatten hook
documents itself as preserving precision yet receives an already-rounded
float. -/
theorem c1_decimal_precision_lost :
    (flatten_json_stream "\x7b\"tuition\": 16000.50\x7d\n").result =
      .ok ⟨some ["tuition"], [["16000.5"]]⟩ ∧
    (convert_ndjson_to_json ["\x7b\"tuition\": 16000.50\x7d"]
        defaultBatchSize).text =
      "[\n    \x7b\"tuition\": 16000.5\x7d\n]" ∧
    (convert_json_to_ndjson "[\x7b\"tuition\": 16000.50\x7d]"
        defaultBatchSize).text =
      "\x7b\"tuition\": 16000.5\x7d\n" ∧
    (flatten_json_stream "[\x7b\"tuition\": 16000.50\x7d]").result =
      .ok ⟨some ["tuition"], [["16000.50"]]⟩ ∧
    "16000.5" ≠ "16000.50" :=
  ⟨rfl, rfl, rfl, rfl, by decide⟩

/-- C2 counterexample: a second record carrying the extra field c is not
dropped with the job continuing; the DictWriter raises and the flatten
job aborts with an error. -/
theorem c2_extra_field_aborts :
    (flatten_json_stream
        "\x7b\"a\": 1, \"b\": 2\x7d\n\x7b\"a\": 3, \"c\": 4\x7d\n").result =
      .error () ∧
    write_to_csv [.obj [("a", .int 1), ("b", .int 2)],
        .obj [("a", .int 3), ("c", .int 4)]] = .error () :=
  ⟨rfl, rfl⟩

/-- C2 amended: the header freezes to the first record with fields in
original order; a later record whose keys all lie in the header is
written with the empty cell at each header field it lacks; but a later
record carrying a field outside the header makes the CSV writer raise,
aborting the job, instead of dropping the field non-fatally. -/
theorem c2_header_freeze_amended (fs0 : List (String × JVal))
    (objs : List (List (String × JVal))) :
    ((∀ fs ∈ objs, ∀ p ∈ fs, (fs0.map Prod.fst).contains p.1) →
      write_to_csv (.obj fs0 :: objs.map .obj) =
        .ok ⟨some (fs0.map Prod.fst),
          (fs0 :: objs).map (fun fs => (fs0.map Prod.fst).map (fun hn =>
            match fs.lookup hn with
            | some v => cellStr v
            | none => ""))⟩) ∧
    ((∃ fs ∈ objs, ∃ p ∈ fs, ¬ ((fs0.map Prod.fst).contains p.1 = true)) →
      write_to_csv (.obj fs0 :: objs.map .obj) = .error ()) := by
  have hself : ∀ p ∈ fs0, (fs0.map Prod.fst).contains p.1 := by
    intro p hp
    have : p.1 ∈ fs0.map Prod.fst := List.mem_map_of_mem Prod.fst hp
    simpa using this
  have hrow0 := writeRow_ok (fs0.map Prod.fst) fs0 hself
  constructor
  · intro hrest
    unfold write_to_csv
    simp only [writeToCsvGo, hrow0]
    rw [writeToCsvGo_ok (fs0.map Prod.fst) objs _ hrest]
    simp
  · intro hex
    unfold write_to_csv
    simp only [writeToCsvGo, hrow0]
    exact writeToCsvGo_err (fs0.map Prod.fst) objs _ hex

/-- C2 amended witness: header a,b frozen from the first record; the
second record missing b gets an empty cell; a record with the extra
field c aborts. -/
theorem c2_header_freeze_amended_witness :
    write_to_csv [.obj [("a", .int 1), ("b", .int 2)], .obj [("a", .int 3)]] =
      .ok ⟨some ["a", "b"], [["1", "2"], ["3", ""]]⟩ ∧
    write_to_csv [.obj [("a", .int 1), ("b", .int 2)],
        .obj [("a", .int 3), ("c", .int 4)]] = .error () := by
  have h1 := (c2_header_freeze_amended [("a", .int 1), ("b", .int 2)]
    [[("a", .int 3)]]).1 (by decide)
  have h2 := (c2_header_freeze_amended [("a", .int 1), ("b", .int 2)]
    [[("a", .int 3), ("c", .int 4)]]).2 (by decide)
  exact ⟨h1, h2⟩

/-- C3 counterexample: on an input whose first non-whitespace character
is an opening bracket but which starts with a space, the detection the
spec describes selects the array source while flatten_json_stream takes
the NDJSON branch; the whole array is then decoded as one non-dict line
and skipped, so the CSV comes out empty, whereas the same text without
the leading space yields a header and a row. -/
theorem c3_whitespace_array_misdetected :
    specFormatDetect " [\x7b\"a\": 1\x7d]" = .jsonArray ∧
    (flatten_json_stream " [\x7b\"a\": 1\x7d]").branch = .ndjson ∧
    (flatten_json_stream " [\x7b\"a\": 1\x7d]").result = .ok ⟨none, []⟩ ∧
    (flatten_json_stream "[\x7b\"a\": 1\x7d]").branch = .jsonArray ∧
    (flatten_json_stream "[\x7b\"a\": 1\x7d]").result =
      .ok ⟨some ["a"], [["1"]]⟩ :=
  ⟨rfl, rfl, rfl, rfl, rfl⟩

/-- C3 amended: flatten_json_stream selects the JSON-array source
exactly when the literal first character of the input is an opening
bracket, with no whitespace skipping; any other first character,
whitespace included, selects the NDJSON source. -/
theorem c3_first_char_detection (t : String) (c : Char)
    (h : t.data.head? = some c) :
    ((flatten_json_stream t).branch = .jsonArray ↔ c = '[') ∧
    (isWsChar c = true → (flatten_json_stream t).branch = .ndjson) := by
  have hbr := flatten_branch_eq t
  rw [h] at hbr
  by_cases hc : c = '['
  · subst hc
    rw [if_pos rfl] at hbr
    refine ⟨by simp [hbr], fun hw => absurd hw (by decide)⟩
  · have hne : ¬ (some c = some '[') := fun e => hc (by injection e)
    rw [if_neg hne] at hbr
    refine ⟨?_, fun _ => hbr⟩
    rw [hbr]
    simp [hc]

/-- C3 amended witness: a record-first NDJSON input starts with a brace,
so the NDJSON source is selected. -/
theorem c3_first_char_detection_witness :
    ((flatten_json_stream "\x7b\"a\": 1\x7d").branch = .jsonArray ↔
      '\x7b' = '[') ∧
    (isWsChar '\x7b' = true →
      (flatten_json_stream "\x7b\"a\": 1\x7d").branch = .ndjson) :=
  c3_first_char_detection "\x7b\"a\": 1\x7d" '\x7b' rfl

/-! ## Avro lemmas -/

theorem avroFieldOf_decimal (n t : String) (f : AvroField)
    (hpre : "DECIMAL".data.isPrefixOf t.data) (h : avroFieldOf n t = .ok f) :
    f = ⟨n, .decimal (some 18) (some 2)⟩ := by
  unfold avroFieldOf at h
  rw [if_pos hpre] at h
  split at h
  · cases h
    rfl
  · cases h

theorem inferFields_decimal_mem (desc : List (String × String)) :
    ∀ (fs : List AvroField), inferFields desc = .ok fs →
      ∀ n t, (n, t) ∈ desc → "DECIMAL".data.isPrefixOf t.data →
        (⟨n, .decimal (some 18) (some 2)⟩ : AvroField) ∈ fs := by
  induction desc with
  | nil =>
    intro fs h n t hmem
    simp at hmem
  | cons d rest ih =>
    intro fs h n t hmem hpre
    obtain ⟨n0, t0⟩ := d
    simp only [inferFields] at h
    cases hf : avroFieldOf n0 t0 with
    | error e =>
      rw [hf] at h
      cases h
    | ok f =>
      rw [hf] at h
      cases hrest : inferFields rest with
      | error e =>
        rw [hrest] at h
        cases h
      | ok fs2 =>
        rw [hrest] at h
        cases h
        rcases List.mem_cons.mp hmem with heq | hmem2
        · have hn : n = n0 := congrArg Prod.fst heq
          have ht : t = t0 := congrArg Prod.snd heq
          subst hn
          subst ht
          have := avroFieldOf_decimal n t f hpre hf
          rw [this]
          exact List.mem_cons_self _ _
        · exact List.mem_cons_of_mem _ (ih fs2 hrest n t hmem2 hpre)

/-! ## Claim theorems: Avro and encoding -/

/-- C9: every schema the Avro path hands to the encoder has been through
the demotion loop, so no field carries a decimal logical type; every
DESCRIBE column whose type starts with DECIMAL ends up as a plain string
field; and every Decimal value of the fetched records is serialised
through str, so no Decimal reaches the encoder. -/
theorem c9_avro_decimal_demoted (desc : List (String × String))
    (records : List (List (String × JVal))) (sch : AvroSchema)
    (recs : List (List (String × JVal)))
    (h : convert_ndjson_to_formats desc records = .ok (sch, recs)) :
    (∀ f ∈ sch.fields, ∀ p s, f.ty ≠ .decimal p s) ∧
    (∀ n t, (n, t) ∈ desc → "DECIMAL".data.isPrefixOf t.data →
      (⟨n, .string⟩ : AvroField) ∈ sch.fields) ∧
    (∀ r ∈ recs, ∀ p ∈ r, ∀ d, p.2 ≠ .dec d) := by
  unfold convert_ndjson_to_formats infer_avro_schema_from_duckdb at h
  cases hi : inferFields desc with
  | error e =>
    rw [hi] at h
    cases h
  | ok fs =>
    rw [hi] at h
    cases h
    refine ⟨?_, ?_, ?_⟩
    · intro f hf p s
      simp only [demoteDecimalFields, List.mem_map] at hf
      obtain ⟨f0, _, hf0⟩ := hf
      cases hty : f0.ty <;> rw [hty] at hf0 <;> rw [← hf0] <;> simp [hty]
    · intro n t hmem hpre
      have hmem2 := inferFields_decimal_mem desc fs hi n t hmem hpre
      simp only [demoteDecimalFields, List.mem_map]
      exact ⟨⟨n, .decimal (some 18) (some 2)⟩, hmem2, rfl⟩
    · intro r hr p hp d
      simp only [List.mem_map] at hr
      obtain ⟨r0, _, hr0⟩ := hr
      rw [← hr0] at hp
      simp only [avroPrepRecord, List.mem_map] at hp
      obtain ⟨q, _, hq⟩ := hp
      cases hqv : q.2 <;> rw [hqv] at hq <;> rw [← hq] <;> simp [hqv]

/-- C9 witness: a VARCHAR column and a DECIMAL(18,3) column infer to a
schema whose decimal column is the plain string field, and a Decimal
record value is not handed to the encoder as a Decimal. -/
theorem c9_avro_decimal_demoted_witness :
    ((⟨"tuition", .string⟩ : AvroField) ∈
      (⟨[⟨"name", .string⟩, ⟨"tuition", .string⟩]⟩ : AvroSchema).fields) ∧
    (∀ f ∈ (⟨[⟨"name", .string⟩, ⟨"tuition", .string⟩]⟩ : AvroSchema).fields,
      ∀ p s, f.ty ≠ .decimal p s) := by
  have h := c9_avro_decimal_demoted
    [("name", "VARCHAR"), ("tuition", "DECIMAL(18,3)")]
    [[("tuition", .dec "16000.50")]]
    ⟨[⟨"name", .string⟩, ⟨"tuition", .string⟩]⟩
    [[("tuition", .str "16000.50")]] rfl
  exact ⟨h.2.1 "tuition" "DECIMAL(18,3)" (by simp) (by rfl), h.1⟩

/-! ## Encoding lemmas -/

theorem flatten_map_escape_eq_self (l : List Char)
    (h : ∀ c ∈ l, escapeChar c = [c]) : (l.map escapeChar).flatten = l := by
  induction l with
  | nil => simp
  | cons c cs ih =>
    simp only [List.map_cons, List.flatten_cons,
      h c (List.mem_cons_self c cs),
      ih (fun x hx => h x (List.mem_cons_of_mem c hx))]
    rfl

theorem escapeChar_decChar (c : Char)
    (h : c ∈ ['0', '1', '2', '3', '4', '5', '6', '7', '8', '9', '+', '-',
      '.', 'e', 'E']) : escapeChar c = [c] := by
  fin_cases h <;> rfl

/-- C10: a value held as an exact Decimal is emitted by the
DecimalEncoder dump as a quoted JSON string token holding its digits,
not as a bare numeric literal; concretely, the fractional token 16000.50
decodes in Decimal mode to a Decimal and its dump re-decodes as a JSON
string, so the JSON type changes from number to string across the
conversion. -/
theorem c10_decimal_encoded_as_string (s : String)
    (h : ∀ c ∈ s.data, c ∈ ['0', '1', '2', '3', '4', '5', '6', '7', '8',
      '9', '+', '-', '.', 'e', 'E']) :
    dumps (.dec s) = "\"" ++ s ++ "\"" ∧
    jsonLoads decimalCfg "16000.50" = some (.dec "16000.50") ∧
    jsonLoads plainCfg (dumps (.dec "16000.50")) = some (.str "16000.50") := by
  refine ⟨?_, rfl, rfl⟩
  show dumpStr s = "\"" ++ s ++ "\""
  unfold dumpStr escapeJson
  rw [flatten_map_escape_eq_self s.data
    (fun c hc => escapeChar_decChar c (h c hc))]

/-- C10 witness: the decimal digits 16000.50 are emitted quoted. -/
theorem c10_decimal_encoded_as_string_witness :
    dumps (.dec "16000.50") = "\"" ++ "16000.50" ++ "\"" :=
  (c10_decimal_encoded_as_string "16000.50" (by decide)).1

/-! ## Character run lemmas -/

theorem char_ne_of_toNat_ne (c d : Char) (h : c.toNat ≠ d.toNat) : c ≠ d :=
  fun e => h (congrArg Char.toNat e)

theorem takeWhile_all_append (p : Char → Bool) (l r : List Char)
    (h : ∀ c ∈ l, p c = true) : (l ++ r).takeWhile p = l ++ r.takeWhile p := by
  induction l with
  | nil => simp
  | cons c cs ih =>
    simp only [List.cons_append,
      List.takeWhile_cons_of_pos (h c (List.mem_cons_self c cs))]
    rw [ih (fun x hx => h x (List.mem_cons_of_mem c hx))]

theorem dropWhile_all_append (p : Char → Bool) (l r : List Char)
    (h : ∀ c ∈ l, p c = true) : (l ++ r).dropWhile p = r.dropWhile p := by
  induction l with
  | nil => simp
  | cons c cs ih =>
    simp only [List.cons_append,
      List.dropWhile_cons_of_pos (h c (List.mem_cons_self c cs))]
    exact ih (fun x hx => h x (List.mem_cons_of_mem c hx))

theorem takeWhile_head_neg (p : Char → Bool) (r : List Char)
    (h : ∀ c, r.head? = some c → p c = false) : r.takeWhile p = [] := by
  cases r with
  | nil => rfl
  | cons c cs => exact List.takeWhile_cons_of_neg (by simp [h c rfl])

theorem dropWhile_head_neg (p : Char → Bool) (r : List Char)
    (h : ∀ c, r.head? = some c → p c = false) : r.dropWhile p = r := by
  cases r with
  | nil => rfl
  | cons c cs => exact List.dropWhile_cons_of_neg (by simp [h c rfl])

theorem skipWs_eq_self (cs : List Char)
    (h : ∀ c, cs.head? = some c → isWsChar c = false) : skipWs cs = cs :=
  dropWhile_head_neg isWsChar cs h

theorem skipWs_cons_ws (c : Char) (cs : List Char) (h : isWsChar c = true) :
    skipWs (c :: cs) = skipWs cs :=
  List.dropWhile_cons_of_pos h

/-! ## Digit lemmas -/

theorem isDigit_toNat (c : Char) (h : c.isDigit = true) :
    48 ≤ c.toNat ∧ c.toNat ≤ 57 := by
  unfold Char.isDigit at h
  simp at h
  exact ⟨h.1, h.2⟩

theorem digit_ne_char (c d : Char) (hc : c.isDigit = true)
    (hd : d.isDigit = false) : c ≠ d := by
  intro e
  rw [e] at hc
  rw [hc] at hd
  exact absurd hd (by simp)

theorem digit_not_ws (c : Char) (h : c.isDigit = true) : isWsChar c = false := by
  obtain ⟨h1, h2⟩ := isDigit_toNat c h
  have w1 : (' ').toNat = 32 := rfl
  have w2 : ('\t').toNat = 9 := rfl
  have w3 : ('\n').toNat = 10 := rfl
  have w4 : ('\r').toNat = 13 := rfl
  simp only [isWsChar, Bool.or_eq_false_iff, beq_eq_false_iff_ne]
  exact ⟨⟨⟨char_ne_of_toNat_ne c ' ' (by omega),
    char_ne_of_toNat_ne c '\t' (by omega)⟩,
    char_ne_of_toNat_ne c '\n' (by omega)⟩,
    char_ne_of_toNat_ne c '\r' (by omega)⟩

/-! ## Decimal repr lemmas -/

theorem digitsToNat_append_digit (ds : List Char) (c : Char) :
    digitsToNat (ds ++ [c]) = digitsToNat ds * 10 + (c.toNat - 48) := by
  unfold digitsToNat
  rw [List.foldl_append]
  rfl

theorem ofNat_digit (m : Nat) (h : m < 10) :
    (Char.ofNat (48 + m)).toNat = 48 + m ∧
    (Char.ofNat (48 + m)).isDigit = true := by
  interval_cases m <;> exact ⟨by decide, by decide⟩

theorem natReprAux_spec : ∀ (fuel m : Nat), m < 10 ^ (fuel + 1) →
    ∀ acc, ∃ ds, natReprAux (fuel + 1) m acc = ds ++ acc ∧ ds ≠ [] ∧
      (∀ c ∈ ds, c.isDigit = true) ∧ digitsToNat ds = m ∧
      (ds.head? = some '0' → m = 0) := by
  intro fuel
  induction fuel with
  | zero =>
    intro m hm acc
    have hlt : m < 10 := by simpa using hm
    obtain ⟨ht, hd⟩ := ofNat_digit m hlt
    refine ⟨[Char.ofNat (48 + m)], ?_, by simp, ?_, ?_, ?_⟩
    · simp [natReprAux, hlt]
    · intro c hc
      rw [List.mem_singleton] at hc
      rw [hc]
      exact hd
    · unfold digitsToNat
      simp [ht]
    · intro hz
      simp only [List.head?_cons, Option.some.injEq] at hz
      have : (Char.ofNat (48 + m)).toNat = ('0').toNat := congrArg Char.toNat hz
      rw [ht] at this
      have h0 : ('0').toNat = 48 := rfl
      omega
  | succ f ih =>
    intro m hm acc
    by_cases hlt : m < 10
    · obtain ⟨ht, hd⟩ := ofNat_digit m hlt
      refine ⟨[Char.ofNat (48 + m)], ?_, by simp, ?_, ?_, ?_⟩
      · simp [natReprAux, hlt]
      · intro c hc
        rw [List.mem_singleton] at hc
        rw [hc]
        exact hd
      · unfold digitsToNat
        simp [ht]
      · intro hz
        simp only [List.head?_cons, Option.some.injEq] at hz
        have : (Char.ofNat (48 + m)).toNat = ('0').toNat := congrArg Char.toNat hz
        rw [ht] at this
        have h0 : ('0').toNat = 48 := rfl
        omega
    · have hdiv : m / 10 < 10 ^ (f + 1) := by
        apply Nat.div_lt_of_lt_mul
        calc m < 10 ^ (f + 1 + 1) := hm
        _ = 10 * 10 ^ (f + 1) := by ring
      obtain ⟨hm0, hd0⟩ := ofNat_digit (m % 10) (Nat.mod_lt m (by omega))
      obtain ⟨ds, e1, e2, e3, e4, e5⟩ :=
        ih (m / 10) hdiv (Char.ofNat (48 + m % 10) :: acc)
      refine ⟨ds ++ [Char.ofNat (48 + m % 10)], ?_, by simp, ?_, ?_, ?_⟩
      · have hred : natReprAux (f + 1 + 1) m acc =
            natReprAux (f + 1) (m / 10) (Char.ofNat (48 + m % 10) :: acc) := by
          simp [natReprAux, hlt]
        rw [hred, e1]
        simp
      · intro c hc
        rcases List.mem_append.mp hc with hc2 | hc2
        · exact e3 c hc2
        · rw [List.mem_singleton] at hc2
          rw [hc2]
          exact hd0
      · rw [digitsToNat_append_digit, e4, hm0]
        omega
      · intro hz
        cases ds with
        | nil => exact absurd rfl e2
        | cons d0 ds2 =>
          simp only [List.cons_append, List.head?_cons,
            Option.some.injEq] at hz
          have := e5 (by simp [hz])
          omega

theorem natReprChars_spec (m : Nat) :
    natReprChars m ≠ [] ∧ (∀ c ∈ natReprChars m, c.isDigit = true) ∧
    digitsToNat (natReprChars m) = m ∧
    ((natReprChars m).head? = some '0' → natReprChars m = ['0']) := by
  have hm : m < 10 ^ (m + 1) :=
    lt_of_lt_of_le (Nat.lt_pow_self (by norm_num) m)
      (Nat.pow_le_pow_right (by norm_num) (by omega))
  obtain ⟨ds, h1, h2, h3, h4, h5⟩ := natReprAux_spec m m hm []
  have hds : natReprChars m = ds := by
    unfold natReprChars
    rw [h1]
    simp
  rw [hds]
  refine ⟨h2, h3, h4, ?_⟩
  intro hz
  have hm0 := h5 hz
  subst hm0
  have : natReprChars 0 = ['0'] := rfl
  rw [hds] at this
  exact this.symm ▸ rfl

/-! ## Numeric token lemmas -/

theorem readFrac_no_dot (cs : List Char)
    (h : ∀ c, cs.head? = some c → c ≠ '.') : readFrac cs = some ([], cs) := by
  unfold readFrac
  split
  · rename_i r
    exact absurd rfl (h '.' rfl)
  · rfl

theorem readFrac_cons_dot (l : List Char) :
    readFrac ('.' :: l) =
      (if (l.takeWhile Char.isDigit).isEmpty then none
       else some ('.' :: l.takeWhile Char.isDigit, l.dropWhile Char.isDigit)) :=
  rfl

theorem readFrac_dot (ds rest : List Char) (hds : ds ≠ [])
    (hdig : ∀ c ∈ ds, c.isDigit = true)
    (hb : ∀ c, rest.head? = some c → c.isDigit = false) :
    readFrac ('.' :: (ds ++ rest)) = some ('.' :: ds, rest) := by
  rw [readFrac_cons_dot,
    takeWhile_all_append Char.isDigit ds rest hdig,
    takeWhile_head_neg Char.isDigit rest hb,
    dropWhile_all_append Char.isDigit ds rest hdig,
    dropWhile_head_neg Char.isDigit rest hb]
  simp [hds]

theorem readExp_cons (c : Char) (r : List Char) :
    readExp (c :: r) =
      (if c = 'e' ∨ c = 'E' then
        let p :=
          match r with
          | s :: r2 => if s = '+' ∨ s = '-' then ([s], r2) else (([] : List Char), s :: r2)
          | [] => (([] : List Char), ([] : List Char))
        if (p.2.takeWhile Char.isDigit).isEmpty then none
        else some (c :: (p.1 ++ p.2.takeWhile Char.isDigit), p.2.dropWhile Char.isDigit)
      else some ([], c :: r)) := rfl

theorem readExp_no_e (cs : List Char)
    (h : ∀ c, cs.head? = some c → c ≠ 'e' ∧ c ≠ 'E') :
    readExp cs = some ([], cs) := by
  cases cs with
  | nil => rfl
  | cons c r =>
    rw [readExp_cons, if_neg]
    intro hc
    rcases hc with hc | hc
    · exact (h c rfl).1 hc
    · exact (h c rfl).2 hc

theorem readExp_e (e : Char) (sgn ds rest : List Char)
    (he : e = 'e' ∨ e = 'E') (hsgn : sgn = [] ∨ sgn = ['+'] ∨ sgn = ['-'])
    (hds : ds ≠ []) (hdig : ∀ c ∈ ds, c.isDigit = true)
    (hb : ∀ c, rest.head? = some c → c.isDigit = false) :
    readExp (e :: (sgn ++ (ds ++ rest))) = some (e :: (sgn ++ ds), rest) := by
  rw [readExp_cons, if_pos he]
  have hrun : (ds ++ rest).takeWhile Char.isDigit = ds := by
    rw [takeWhile_all_append Char.isDigit ds rest hdig,
      takeWhile_head_neg Char.isDigit rest hb]
    simp
  have hdrop : (ds ++ rest).dropWhile Char.isDigit = rest := by
    rw [dropWhile_all_append Char.isDigit ds rest hdig,
      dropWhile_head_neg Char.isDigit rest hb]
  rcases hsgn with rfl | rfl | rfl
  · cases ds with
    | nil => exact absurd rfl hds
    | cons d ds2 =>
      have hd := hdig d (List.mem_cons_self d ds2)
      have hmatch : ¬ (d = '+' ∨ d = '-') := by
        intro hc
        rcases hc with hc | hc
        · exact digit_ne_char d '+' hd (by decide) hc
        · exact digit_ne_char d '-' hd (by decide) hc
      simp only [List.nil_append, List.cons_append, if_neg hmatch]
      simp only [List.cons_append] at hrun hdrop
      simp only [hrun, hdrop]
      simp [hds]
  · simp only [List.singleton_append, List.cons_append]
    simp [hrun, hdrop, hds]
  · simp only [List.singleton_append, List.cons_append]
    simp [hrun, hdrop, hds]

theorem fracExp_complete (fp ep rest : List Char)
    (hfp : fp = [] ∨ ∃ ds, fp = '.' :: ds ∧ ds ≠ [] ∧ ∀ c ∈ ds, c.isDigit = true)
    (hep : ep = [] ∨ ∃ e sgn ds, (e = 'e' ∨ e = 'E') ∧ ep = e :: (sgn ++ ds) ∧
      (sgn = [] ∨ sgn = ['+'] ∨ sgn = ['-']) ∧ ds ≠ [] ∧ ∀ c ∈ ds, c.isDigit = true)
    (hb : numBoundary rest) :
    readFrac (fp ++ (ep ++ rest)) = some (fp, ep ++ rest) ∧
    readExp (ep ++ rest) = some (ep, rest) := by
  have hephead : ∀ c, (ep ++ rest).head? = some c →
      c.isDigit = false ∧ c ≠ '.' := by
    intro c hc
    rcases hep with rfl | ⟨e, sgn, ds, he, rfl, _, _, _⟩
    · simp only [List.nil_append] at hc
      obtain ⟨h1, h2, _, _⟩ := hb c hc
      exact ⟨h1, h2⟩
    · simp only [List.cons_append, List.head?_cons, Option.some.injEq] at hc
      subst hc
      rcases he with rfl | rfl
      · exact ⟨by decide, by decide⟩
      · exact ⟨by decide, by decide⟩
  have hexp : readExp (ep ++ rest) = some (ep, rest) := by
    rcases hep with rfl | ⟨e, sgn, ds, he, rfl, hsgn, hds, hdig⟩
    · simp only [List.nil_append]
      exact readExp_no_e rest (fun c hc => ⟨(hb c hc).2.2.1, (hb c hc).2.2.2⟩)
    · simp only [List.cons_append, List.append_assoc]
      exact readExp_e e sgn ds rest he hsgn hds hdig
        (fun c hc => (hb c hc).1)
  refine ⟨?_, hexp⟩
  rcases hfp with rfl | ⟨ds, rfl, hds, hdig⟩
  · simp only [List.nil_append]
    exact readFrac_no_dot (ep ++ rest) (fun c hc => (hephead c hc).2)
  · simp only [List.cons_append]
    exact readFrac_dot ds (ep ++ rest) hds hdig
      (fun c hc => (hephead c hc).1)

theorem readNumCore_cons (sign : Bool) (c : Char) (r : List Char) :
    readNumCore sign (c :: r) =
      (if c = '0' then
        match readFrac r with
        | none => none
        | some (fp, r1) =>
          match readExp r1 with
          | none => none
          | some (ep, r2) => some (sign, ['0'], fp, ep, r2)
      else if c.isDigit then
        match readFrac (r.dropWhile Char.isDigit) with
        | none => none
        | some (fp, r1) =>
          match readExp r1 with
          | none => none
          | some (ep, r2) =>
            some (sign, c :: r.takeWhile Char.isDigit, fp, ep, r2)
      else none) := rfl

theorem readNumCore_zero (sign : Bool) (r : List Char) :
    readNumCore sign ('0' :: r) =
      (match readFrac r with
       | none => none
       | some (fp, r1) =>
         match readExp r1 with
         | none => none
         | some (ep, r2) => some (sign, ['0'], fp, ep, r2)) := by
  rw [readNumCore_cons, if_pos rfl]

theorem readNumCore_digit (sign : Bool) (c : Char) (r : List Char)
    (hc : c.isDigit = true) (hc0 : c ≠ '0') :
    readNumCore sign (c :: r) =
      (match readFrac (r.dropWhile Char.isDigit) with
       | none => none
       | some (fp, r1) =>
         match readExp r1 with
         | none => none
         | some (ep, r2) =>
           some (sign, c :: r.takeWhile Char.isDigit, fp, ep, r2)) := by
  rw [readNumCore_cons, if_neg hc0, if_pos hc]

theorem readNumParts_eq_core (cs : List Char)
    (h : ∀ c, cs.head? = some c → c ≠ '-') :
    readNumParts cs = readNumCore false cs := by
  unfold readNumParts
  split
  · rename_i r
    exact absurd rfl (h '-' rfl)
  · rfl

theorem readNumCore_complete (sign : Bool) (ip fp ep rest : List Char)
    (h : ValidNumParts ip fp ep) (hb : numBoundary rest) :
    readNumCore sign (ip ++ (fp ++ (ep ++ rest))) =
      some (sign, ip, fp, ep, rest) := by
  obtain ⟨h1, h2, h3, h4, h5⟩ := h
  obtain ⟨hfrac, hexp⟩ := fracExp_complete fp ep rest h4 h5 hb
  have hfphead : ∀ c, (fp ++ (ep ++ rest)).head? = some c →
      c.isDigit = false := by
    intro c hc
    rcases h4 with rfl | ⟨ds, rfl, _, _⟩
    · simp only [List.nil_append] at hc
      rcases h5 with rfl | ⟨e, sgn, ds, he, rfl, _, _, _⟩
      · simp only [List.nil_append] at hc
        exact (hb c hc).1
      · simp only [List.cons_append, List.head?_cons, Option.some.injEq] at hc
        subst hc
        rcases he with rfl | rfl
        · decide
        · decide
    · simp only [List.cons_append, List.head?_cons, Option.some.injEq] at hc
      subst hc
      decide
  by_cases hip : ip = ['0']
  · subst hip
    simp only [List.cons_append, List.nil_append]
    rw [readNumCore_zero]
    simp only [hfrac, hexp]
  · cases ip with
    | nil => exact absurd rfl h2
    | cons c ip2 =>
      have hcdig : c.isDigit = true := h1 c (List.mem_cons_self c ip2)
      have hc0 : c ≠ '0' := by
        intro e
        exact hip (h3 (by rw [e]; rfl))
      have hip2 : ∀ x ∈ ip2, x.isDigit = true :=
        fun x hx => h1 x (List.mem_cons_of_mem c hx)
      simp only [List.cons_append]
      rw [readNumCore_digit sign c (ip2 ++ (fp ++ (ep ++ rest))) hcdig hc0]
      rw [takeWhile_all_append Char.isDigit ip2 _ hip2,
        takeWhile_head_neg Char.isDigit _ hfphead,
        dropWhile_all_append Char.isDigit ip2 _ hip2,
        dropWhile_head_neg Char.isDigit _ hfphead]
      simp only [hfrac, hexp, List.append_nil]

theorem readNumParts_complete (sign : Bool) (ip fp ep rest : List Char)
    (h : ValidNumParts ip fp ep) (hb : numBoundary rest) :
    readNumParts ((if sign then ['-'] else []) ++ (ip ++ (fp ++ (ep ++ rest)))) =
      some (sign, ip, fp, ep, rest) := by
  cases sign with
  | true =>
    show readNumParts ('-' :: (ip ++ (fp ++ (ep ++ rest)))) = _
    have hred : readNumParts ('-' :: (ip ++ (fp ++ (ep ++ rest)))) =
        readNumCore true (ip ++ (fp ++ (ep ++ rest))) := rfl
    rw [hred]
    exact readNumCore_complete true ip fp ep rest h hb
  | false =>
    simp only [List.nil_append, Bool.false_eq_true, if_neg, not_false_iff]
    rw [readNumParts_eq_core]
    · exact readNumCore_complete false ip fp ep rest h hb
    · intro c hc
      cases ip with
      | nil => exact absurd rfl h.ip_ne
      | cons c0 ip2 =>
        simp only [List.cons_append, List.head?_cons, Option.some.injEq] at hc
        subst hc
        exact digit_ne_char c0 '-' (h.ip_digits c0 (List.mem_cons_self c0 ip2))
          (by decide)

/-! ## String literal lemmas -/

theorem readStringChars_quote (rest : List Char) :
    readStringChars ('"' :: rest) = some ([], rest) := rfl

theorem readStringChars_esc (e : Char) (rest : List Char) :
    readStringChars ('\\' :: e :: rest) =
    (match escDecode e with
     | none => none
     | some ec =>
       match readStringChars rest with
       | none => none
       | some (s, r) => some (ec :: s, r)) := rfl

theorem readStringChars_other (c : Char) (rest : List Char) (h1 : c ≠ '"')
    (h2 : ∀ e r1, c = '\\' → rest = e :: r1 → False) :
    readStringChars (c :: rest) =
    (if c.toNat < 32 then none
     else
      match readStringChars rest with
      | none => none
      | some (s, r) => some (c :: s, r)) := by
  conv_lhs => unfold readStringChars
  split
  · simp_all
  · simp_all
  · rename_i e r1 heq
    rw [List.cons.injEq] at heq
    exact (h2 e r1 heq.1 heq.2).elim
  · rename_i c2 r2 heq
    cases heq
    rfl

theorem escDecode_clean (e ec : Char) (h : escDecode e = some ec) :
    cleanChar ec = true := by
  unfold escDecode at h
  repeat' split at h
  all_goals first
    | (injection h with h; subst h; decide)
    | simp at h

theorem cleanChar_of_ge (c : Char) (h : 32 ≤ c.toNat) : cleanChar c = true := by
  unfold cleanChar
  rw [decide_eq_true h]
  simp

theorem readStringChars_clean :
    ∀ (cs s r : List Char), readStringChars cs = some (s, r) →
      ∀ c ∈ s, cleanChar c = true := by
  intro cs
  induction cs using readStringChars.induct with
  | case1 =>
    intro s r h
    exact absurd h (by simp [readStringChars])
  | case2 rest =>
    intro s r h
    rw [readStringChars_quote] at h
    injection h with h
    rw [Prod.mk.injEq] at h
    intro c hc
    rw [← h.1] at hc
    simp at hc
  | case3 e rest hdec =>
    intro s r h
    rw [readStringChars_esc, hdec] at h
    simp at h
  | case4 e rest ec hdec hrest ih =>
    intro s r h
    rw [readStringChars_esc, hdec, hrest] at h
    simp at h
  | case5 e rest ec hdec s0 r0 hrest ih =>
    intro s r h
    rw [readStringChars_esc, hdec, hrest] at h
    injection h with h
    rw [Prod.mk.injEq] at h
    intro c hc
    rw [← h.1] at hc
    rcases List.mem_cons.mp hc with hce | hcs
    · exact hce ▸ escDecode_clean e ec hdec
    · exact ih s0 r0 hrest c hcs
  | case6 c rest h1 h2 hlt =>
    intro s r h
    rw [readStringChars_other c rest (fun hh => h1 hh)
      (fun e r1 hc hr => h2 e r1 hc hr), if_pos hlt] at h
    simp at h
  | case7 c rest h1 h2 hge hrest ih =>
    intro s r h
    rw [readStringChars_other c rest (fun hh => h1 hh)
      (fun e r1 hc hr => h2 e r1 hc hr), if_neg hge, hrest] at h
    simp at h
  | case8 c rest h1 h2 hge s0 r0 hrest ih =>
    intro s r h
    rw [readStringChars_other c rest (fun hh => h1 hh)
      (fun e r1 hc hr => h2 e r1 hc hr), if_neg hge, hrest] at h
    injection h with h
    rw [Prod.mk.injEq] at h
    intro x hx
    rw [← h.1] at hx
    rcases List.mem_cons.mp hx with hxc | hxs
    · exact hxc ▸ cleanChar_of_ge c (by omega)
    · exact ih s0 r0 hrest x hxs

theorem readStringChars_escapeChar (c : Char) (hc : cleanChar c = true)
    (tail s r : List Char) (h : readStringChars tail = some (s, r)) :
    readStringChars (escapeChar c ++ tail) = some (c :: s, r) := by
  by_cases h1 : c = '"'
  · subst h1
    simp [escapeChar, readStringChars_esc, escDecode, h]
  by_cases h2 : c = '\\'
  · subst h2
    simp [escapeChar, readStringChars_esc, escDecode, h]
  by_cases h3 : c = '\n'
  · subst h3
    simp [escapeChar, readStringChars_esc, escDecode, h]
  by_cases h4 : c = '\t'
  · subst h4
    simp [escapeChar, readStringChars_esc, escDecode, h]
  by_cases h5 : c = '\r'
  · subst h5
    simp [escapeChar, readStringChars_esc, escDecode, h]
  by_cases h6 : c.toNat = 8
  · have hcv : c = Char.ofNat 8 := by rw [← h6, Char.ofNat_toNat]
    subst hcv
    simp [escapeChar, readStringChars_esc, escDecode, h]
  by_cases h7 : c.toNat = 12
  · have hcv : c = Char.ofNat 12 := by rw [← h7, Char.ofNat_toNat]
    subst hcv
    simp [escapeChar, readStringChars_esc, escDecode, h]
  have hge : 32 ≤ c.toNat := by
    unfold cleanChar at hc
    simp only [Bool.or_eq_true, decide_eq_true_eq, beq_iff_eq] at hc
    rcases hc with (((((hg | h8) | ht) | hn) | h12) | hr13)
    · exact hg
    · exact absurd h8 h6
    · exact absurd ht h4
    · exact absurd hn h3
    · exact absurd h12 h7
    · exact absurd hr13 h5
  have he : escapeChar c = [c] := by
    unfold escapeChar
    rw [if_neg h1, if_neg h2, if_neg h3, if_neg h4, if_neg h5, if_neg h6,
      if_neg h7, if_neg (by omega : ¬c.toNat < 32)]
  rw [he, List.singleton_append,
    readStringChars_other c tail h1 (fun e r1 hc2 _ => h2 hc2),
    if_neg (by omega : ¬c.toNat < 32), h]

theorem readStringChars_escape_list (l : List Char)
    (h : ∀ c ∈ l, cleanChar c = true) (rest : List Char) :
    readStringChars ((l.map escapeChar).flatten ++ '"' :: rest) =
      some (l, rest) := by
  induction l with
  | nil => simpa using readStringChars_quote rest
  | cons c cs ih =>
    have h1 := h c (by simp)
    have h2 : ∀ x ∈ cs, cleanChar x = true := fun x hx => h x (by simp [hx])
    simp only [List.map_cons, List.flatten_cons, List.append_assoc]
    exact readStringChars_escapeChar c h1 _ _ _ (ih h2)

theorem readStringChars_dumpStr (s : String) (hs : cleanStr s = true)
    (rest : List Char) :
    readStringChars ((escapeJson s).data ++ '"' :: rest) =
      some (s.data, rest) := by
  have hall : ∀ c ∈ s.data, cleanChar c = true := by
    intro c hc
    exact List.all_eq_true.mp hs c hc
  exact readStringChars_escape_list s.data hall rest

/-! ## Number round-trip lemmas -/

theorem mk_data (l : List Char) : (String.mk l).data = l := rfl

theorem validNumParts_natRepr (m : Nat) :
    ValidNumParts (natReprChars m) [] [] := by
  obtain ⟨h1, h2, h3, h4⟩ := natReprChars_spec m
  exact ⟨h2, h1, h4, Or.inl rfl, Or.inl rfl⟩

theorem intRepr_ofNat (m : Nat) :
    intRepr (Int.ofNat m) = String.mk (natReprChars m) := rfl

theorem intRepr_negSucc (m : Nat) :
    intRepr (Int.negSucc m) = String.mk ('-' :: natReprChars (m + 1)) := rfl

theorem readNum_int (n : Int) (rest : List Char) (hb : numBoundary rest) :
    ∃ sign ip, readNumParts ((intRepr n).data ++ rest) =
        some (sign, ip, [], [], rest) ∧
      mkNumVal floatCfg sign ip [] [] = JVal.int n := by
  cases n with
  | ofNat m =>
    refine ⟨false, natReprChars m, ?_, ?_⟩
    · have h := readNumParts_complete false (natReprChars m) [] [] rest
        (validNumParts_natRepr m) hb
      rw [intRepr_ofNat, mk_data]
      simpa using h
    · unfold mkNumVal
      simp [(natReprChars_spec m).2.2.1]
  | negSucc m =>
    refine ⟨true, natReprChars (m + 1), ?_, ?_⟩
    · have h := readNumParts_complete true (natReprChars (m + 1)) [] [] rest
        (validNumParts_natRepr (m + 1)) hb
      rw [intRepr_negSucc, mk_data]
      simpa using h
    · unfold mkNumVal
      simp [(natReprChars_spec (m + 1)).2.2.1, Int.negSucc_eq]

theorem readNum_float (r : String) (h : FloatReady r) (rest : List Char)
    (hb : numBoundary rest) :
    ∃ sign ip fp ep,
      readNumParts (r.data ++ rest) = some (sign, ip, fp, ep, rest) ∧
      mkNumVal floatCfg sign ip fp ep = JVal.float r := by
  obtain ⟨sign, ip, fp, ep, hv, hdata, hne, hcanon⟩ := h
  refine ⟨sign, ip, fp, ep, ?_, ?_⟩
  · have hc := readNumParts_complete sign ip fp ep rest hv hb
    rw [hdata]
    simpa [List.append_assoc] using hc
  · unfold mkNumVal
    rw [if_neg (by
      simp only [Bool.and_eq_true, List.isEmpty_iff]
      tauto)]
    have htok : String.mk ((if sign then ['-'] else []) ++ ip ++ fp ++ ep) =
        r := by
      rw [← hdata]
    rw [htok]
    show JVal.float (canonFloat r) = JVal.float r
    rw [hcanon]

/-! ## Dump head-character lemmas -/

theorem dumps_null_eq : dumps JVal.null = "null" := rfl

theorem dumps_bool_eq (b : Bool) :
    dumps (JVal.bool b) = (if b then "true" else "false") := by
  cases b <;> rfl

theorem dumps_int_eq (n : Int) : dumps (JVal.int n) = intRepr n := rfl

theorem dumps_float_eq (r : String) : dumps (JVal.float r) = r := rfl

theorem dumps_dec_eq (d : String) : dumps (JVal.dec d) = dumpStr d := rfl

theorem dumps_str_eq (s : String) : dumps (JVal.str s) = dumpStr s := rfl

theorem dumps_arr_eq (xs : List JVal) :
    dumps (JVal.arr xs) = "[" ++ dumpsList xs ++ "]" := rfl

theorem dumps_obj_eq (fs : List (String × JVal)) :
    dumps (JVal.obj fs) = "\x7b" ++ dumpsObj fs ++ "\x7d" := rfl

theorem dumpStr_data (s : String) :
    (dumpStr s).data = '"' :: ((escapeJson s).data ++ ['"']) := by
  simp [dumpStr]

theorem data_append (a b : String) : (a ++ b).data = a.data ++ b.data :=
  String.data_append a b

theorem dumps_head (v : JVal) (h : Wready v) :
    ∃ c t, (dumps v).data = c :: t ∧ isWsChar c = false ∧
      c ≠ ']' ∧ c ≠ '\x7d' ∧ c ≠ ',' := by
  cases h with
  | null =>
    exact ⟨'n', ['u', 'l', 'l'], rfl, by decide, by decide, by decide,
      by decide⟩
  | bool b =>
    cases b with
    | true =>
      exact ⟨'t', ['r', 'u', 'e'], rfl, by decide, by decide, by decide,
        by decide⟩
    | false =>
      exact ⟨'f', ['a', 'l', 's', 'e'], rfl, by decide, by decide, by decide,
        by decide⟩
  | int n =>
    cases n with
    | ofNat m =>
      obtain ⟨h1, h2, h3, h4⟩ := natReprChars_spec m
      cases hm : natReprChars m with
      | nil => exact absurd hm h1
      | cons c t =>
        have hc : c.isDigit = true := h2 c (by rw [hm]; exact List.mem_cons_self c t)
        refine ⟨c, t, ?_, digit_not_ws c hc, digit_ne_char c ']' hc (by decide),
          digit_ne_char c '\x7d' hc (by decide),
          digit_ne_char c ',' hc (by decide)⟩
        rw [dumps_int_eq, intRepr_ofNat, mk_data, hm]
    | negSucc m =>
      refine ⟨'-', natReprChars (m + 1), ?_, by decide, by decide, by decide,
        by decide⟩
      rw [dumps_int_eq, intRepr_negSucc, mk_data]
  | float r hr =>
    obtain ⟨sign, ip, fp, ep, hv, hdata, hne, hcanon⟩ := hr
    cases sign with
    | true =>
      refine ⟨'-', ip ++ (fp ++ ep), ?_, by decide, by decide, by decide,
        by decide⟩
      rw [dumps_float_eq, hdata]
      simp
    | false =>
      cases hip : ip with
      | nil => exact absurd hip hv.ip_ne
      | cons c t =>
        have hc : c.isDigit = true := hv.ip_digits c (by rw [hip]; exact List.mem_cons_self c t)
        refine ⟨c, t ++ (fp ++ ep), ?_, digit_not_ws c hc,
          digit_ne_char c ']' hc (by decide),
          digit_ne_char c '\x7d' hc (by decide),
          digit_ne_char c ',' hc (by decide)⟩
        rw [dumps_float_eq, hdata, hip]
        simp
  | str s hs =>
    refine ⟨'"', (escapeJson s).data ++ ['"'], ?_, by decide, by decide,
      by decide, by decide⟩
    rw [dumps_str_eq, dumpStr_data]
  | arr xs hxs =>
    refine ⟨'[', (dumpsList xs).data ++ [']'], ?_, by decide, by decide,
      by decide, by decide⟩
    rw [dumps_arr_eq]
    simp [data_append]
  | obj fs hk hv hnd =>
    refine ⟨'\x7b', (dumpsObj fs).data ++ ['\x7d'], ?_, by decide, by decide,
      by decide, by decide⟩
    rw [dumps_obj_eq]
    simp [data_append]

theorem skipWs_dumps (v : JVal) (h : Wready v) (rest : List Char) :
    skipWs ((dumps v).data ++ rest) = (dumps v).data ++ rest := by
  obtain ⟨c, t, hd, hws, _, _, _⟩ := dumps_head v h
  rw [hd]
  exact skipWs_eq_self _ (by
    intro x hx
    simp only [List.cons_append, List.head?_cons, Option.some.injEq] at hx
    exact hx ▸ hws)

/-! ## Parser reduction lemmas -/

theorem applyHook_floatCfg (fs : List (String × JVal)) :
    applyHook floatCfg fs = fs := rfl

theorem insertPair_fresh (fs : List (String × JVal)) (k : String) (v : JVal)
    (h : ∀ p ∈ fs, p.1 ≠ k) : insertPair fs k v = fs ++ [(k, v)] := by
  unfold insertPair
  rw [if_neg]
  simp only [List.any_eq_true, beq_iff_eq, not_exists]
  intro p hp
  exact h p hp.1 hp.2

theorem numBoundary_cons (c : Char) (l : List Char) (h1 : c.isDigit = false)
    (h2 : c ≠ '.') (h3 : c ≠ 'e') (h4 : c ≠ 'E') : numBoundary (c :: l) := by
  intro x hx
  simp only [List.head?_cons, Option.some.injEq] at hx
  subst hx
  exact ⟨h1, h2, h3, h4⟩

theorem jsize_pos (v : JVal) : 1 ≤ jsize v := by
  cases v <;> simp [jsize]

theorem parseVal_null (cfg : ParseCfg) (fuel : Nat) (cs r : List Char)
    (h : skipWs cs = 'n' :: 'u' :: 'l' :: 'l' :: r) :
    parseVal cfg (fuel + 1) cs = some (JVal.null, r) := by
  unfold parseVal
  rw [h]
  simp

theorem parseVal_true (cfg : ParseCfg) (fuel : Nat) (cs r : List Char)
    (h : skipWs cs = 't' :: 'r' :: 'u' :: 'e' :: r) :
    parseVal cfg (fuel + 1) cs = some (JVal.bool true, r) := by
  unfold parseVal
  rw [h]
  simp

theorem parseVal_false (cfg : ParseCfg) (fuel : Nat) (cs r : List Char)
    (h : skipWs cs = 'f' :: 'a' :: 'l' :: 's' :: 'e' :: r) :
    parseVal cfg (fuel + 1) cs = some (JVal.bool false, r) := by
  unfold parseVal
  rw [h]
  simp

theorem parseVal_str (cfg : ParseCfg) (fuel : Nat) (cs r : List Char)
    (h : skipWs cs = '"' :: r) :
    parseVal cfg (fuel + 1) cs =
    (match readStringChars r with
     | none => none
     | some (s, r2) => some (JVal.str (String.mk s), r2)) := by
  unfold parseVal
  rw [h]
  simp

theorem parseVal_arr (cfg : ParseCfg) (fuel : Nat) (cs r : List Char)
    (h : skipWs cs = '[' :: r) :
    parseVal cfg (fuel + 1) cs =
    (match skipWs r with
     | ']' :: r2 => some (JVal.arr [], r2)
     | cs2 => parseArrItems cfg fuel cs2 []) := by
  unfold parseVal
  rw [h]
  simp

theorem parseVal_obj (cfg : ParseCfg) (fuel : Nat) (cs r : List Char)
    (h : skipWs cs = '\x7b' :: r) :
    parseVal cfg (fuel + 1) cs =
    (match skipWs r with
     | '\x7d' :: r2 => some (JVal.obj (applyHook cfg []), r2)
     | cs2 => parseObjItems cfg fuel cs2 []) := by
  unfold parseVal
  rw [h]
  simp

theorem parseVal_num (cfg : ParseCfg) (fuel : Nat) (cs r : List Char)
    (c : Char) (h : skipWs cs = c :: r) (h1 : c ≠ '"') (h2 : c ≠ 't')
    (h3 : c ≠ 'f') (h4 : c ≠ 'n') (h5 : c ≠ '[') (h6 : c ≠ '\x7b') :
    parseVal cfg (fuel + 1) cs =
    (match readNumParts (c :: r) with
     | none => none
     | some (sign, ip, fp, ep, r2) => some (mkNumVal cfg sign ip fp ep, r2)) := by
  unfold parseVal
  rw [h]
  simp [h1, h2, h3, h4, h5, h6]

theorem parseArrItems_succ (cfg : ParseCfg) (fuel : Nat) (cs : List Char)
    (acc : List JVal) :
    parseArrItems cfg (fuel + 1) cs acc =
    (match parseVal cfg fuel cs with
     | none => none
     | some (v, r) =>
       match skipWs r with
       | ',' :: r2 => parseArrItems cfg fuel r2 (acc ++ [v])
       | ']' :: r2 => some (JVal.arr (acc ++ [v]), r2)
       | _ => none) := rfl

theorem parseObjItems_succ (cfg : ParseCfg) (fuel : Nat) (cs : List Char)
    (acc : List (String × JVal)) :
    parseObjItems cfg (fuel + 1) cs acc =
    (match skipWs cs with
     | '"' :: r =>
       match readStringChars r with
       | none => none
       | some (k, r1) =>
         match skipWs r1 with
         | ':' :: r2 =>
           match parseVal cfg fuel r2 with
           | none => none
           | some (v, r3) =>
             match skipWs r3 with
             | ',' :: r4 => parseObjItems cfg fuel r4 (insertPair acc (String.mk k) v)
             | '\x7d' :: r4 =>
               some (JVal.obj (applyHook cfg (insertPair acc (String.mk k) v)), r4)
             | _ => none
         | _ => none
     | _ => none) := rfl

theorem num_head_not_special (c : Char) (h : c.isDigit = true ∨ c = '-') :
    c ≠ '"' ∧ c ≠ 't' ∧ c ≠ 'f' ∧ c ≠ 'n' ∧ c ≠ '[' ∧ c ≠ '\x7b' := by
  rcases h with h | rfl
  · exact ⟨digit_ne_char c '"' h (by decide), digit_ne_char c 't' h (by decide),
      digit_ne_char c 'f' h (by decide), digit_ne_char c 'n' h (by decide),
      digit_ne_char c '[' h (by decide), digit_ne_char c '\x7b' h (by decide)⟩
  · exact ⟨by decide, by decide, by decide, by decide, by decide, by decide⟩

theorem num_head (n : Int) :
    ∃ c t, (intRepr n).data = c :: t ∧ (c.isDigit = true ∨ c = '-') := by
  cases n with
  | ofNat m =>
    obtain ⟨h1, h2, h3, h4⟩ := natReprChars_spec m
    cases hm : natReprChars m with
    | nil => exact absurd hm h1
    | cons c t =>
      refine ⟨c, t, ?_, Or.inl (h2 c (by rw [hm]; exact List.mem_cons_self c t))⟩
      rw [intRepr_ofNat, mk_data, hm]
  | negSucc m =>
    exact ⟨'-', natReprChars (m + 1), by rw [intRepr_negSucc, mk_data], Or.inr rfl⟩

theorem float_head (r : String) (h : FloatReady r) :
    ∃ c t, r.data = c :: t ∧ (c.isDigit = true ∨ c = '-') := by
  obtain ⟨sign, ip, fp, ep, hv, hdata, hne, hcanon⟩ := h
  cases sign with
  | true =>
    refine ⟨'-', ip ++ (fp ++ ep), ?_, Or.inr rfl⟩
    rw [hdata]
    simp
  | false =>
    cases hip : ip with
    | nil => exact absurd hip hv.ip_ne
    | cons c t =>
      refine ⟨c, t ++ (fp ++ ep), ?_,
        Or.inl (hv.ip_digits c (by rw [hip]; exact List.mem_cons_self c t))⟩
      rw [hdata, hip]
      simp

theorem dumpsList_head (v : JVal) (vs : List JVal) (hv : Wready v) :
    ∃ c t, (dumpsList (v :: vs)).data = c :: t ∧ isWsChar c = false ∧
      c ≠ ']' ∧ c ≠ '\x7d' ∧ c ≠ ',' := by
  obtain ⟨c, t, hd, hws, hrb, hcb, hcc⟩ := dumps_head v hv
  cases vs with
  | nil => exact ⟨c, t, hd, hws, hrb, hcb, hcc⟩
  | cons w ws =>
    refine ⟨c, t ++ (", " ++ dumpsList (w :: ws)).data, ?_, hws, hrb, hcb, hcc⟩
    have he : dumpsList (v :: w :: ws) = dumps v ++ (", " ++ dumpsList (w :: ws)) := by
      show dumps v ++ ", " ++ dumpsList (w :: ws) = _
      rw [String.append_assoc]
    rw [he, data_append, hd]
    rfl

theorem dumpsObj_head (p : String × JVal) (fs : List (String × JVal)) :
    ∃ t, (dumpsObj (p :: fs)).data = '"' :: t := by
  cases fs with
  | nil =>
    refine ⟨(escapeJson p.1).data ++ ['"'] ++ (": " ++ dumps p.2).data, ?_⟩
    have he : dumpsObj [p] = dumpStr p.1 ++ (": " ++ dumps p.2) := by
      show dumpStr p.1 ++ ": " ++ dumps p.2 = _
      rw [String.append_assoc]
    rw [he, data_append, dumpStr_data]
    rfl
  | cons q qs =>
    refine ⟨(escapeJson p.1).data ++ ['"'] ++
      (": " ++ dumps p.2 ++ ", " ++ dumpsObj (q :: qs)).data, ?_⟩
    have he : dumpsObj (p :: q :: qs) =
        dumpStr p.1 ++ (": " ++ dumps p.2 ++ ", " ++ dumpsObj (q :: qs)) := by
      show dumpStr p.1 ++ ": " ++ dumps p.2 ++ ", " ++ dumpsObj (q :: qs) = _
      simp [String.append_assoc]
    rw [he, data_append, dumpStr_data]
    rfl

/-! ## Serialize-then-reparse round trip for one value -/

theorem parseArrItems_step (cfg : ParseCfg) (fuel : Nat) (cs : List Char)
    (acc : List JVal) (v : JVal) (r : List Char)
    (h : parseVal cfg fuel cs = some (v, r)) :
    parseArrItems cfg (fuel + 1) cs acc =
    (match skipWs r with
     | ',' :: r2 => parseArrItems cfg fuel r2 (acc ++ [v])
     | ']' :: r2 => some (JVal.arr (acc ++ [v]), r2)
     | _ => none) := by
  rw [parseArrItems_succ, h]

theorem parse_dumps : ∀ fuel : Nat,
    (∀ v cs rest, Wready v → jsize v ≤ fuel →
      skipWs cs = (dumps v).data ++ rest → numBoundary rest →
      parseVal floatCfg fuel cs = some (v, rest)) ∧
    (∀ xs cs rest acc, (∀ v ∈ xs, Wready v) → xs ≠ [] →
      jsizeList xs ≤ fuel →
      skipWs cs = (dumpsList xs).data ++ ']' :: rest →
      parseArrItems floatCfg fuel cs acc = some (JVal.arr (acc ++ xs), rest)) ∧
    (∀ fs cs rest acc, (∀ p ∈ fs, cleanStr p.1 = true) →
      (∀ p ∈ fs, Wready p.2) → fs ≠ [] → jsizeObj fs ≤ fuel →
      ((acc ++ fs).map Prod.fst).Nodup →
      skipWs cs = (dumpsObj fs).data ++ '\x7d' :: rest →
      parseObjItems floatCfg fuel cs acc =
        some (JVal.obj (acc ++ fs), rest)) := by
  intro fuel
  induction fuel with
  | zero =>
    refine ⟨?_, ?_, ?_⟩
    · intro v cs rest hw hsz hskip hb
      exact absurd hsz (by have := jsize_pos v; omega)
    · intro xs cs rest acc hxs hne hsz hskip
      cases xs with
      | nil => exact absurd rfl hne
      | cons v vs =>
        have he : jsizeList (v :: vs) = 1 + jsize v + jsizeList vs := rfl
        exact absurd hsz (by omega)
    · intro fs cs rest acc hk hv2 hne hsz hnd hskip
      cases fs with
      | nil => exact absurd rfl hne
      | cons p ps =>
        have he : jsizeObj (p :: ps) = 1 + jsize p.2 + jsizeObj ps := rfl
        exact absurd hsz (by omega)
  | succ fuel ih =>
    obtain ⟨ihV, ihA, ihO⟩ := ih
    refine ⟨?_, ?_, ?_⟩
    · intro v cs rest hw hsz hskip hb
      cases hw with
      | null =>
        have hd : (dumps JVal.null).data = ['n', 'u', 'l', 'l'] := rfl
        rw [hd] at hskip
        simp only [List.cons_append, List.nil_append] at hskip
        exact parseVal_null floatCfg fuel cs rest hskip
      | bool b =>
        cases b with
        | true =>
          have hd : (dumps (JVal.bool true)).data = ['t', 'r', 'u', 'e'] := rfl
          rw [hd] at hskip
          simp only [List.cons_append, List.nil_append] at hskip
          exact parseVal_true floatCfg fuel cs rest hskip
        | false =>
          have hd : (dumps (JVal.bool false)).data =
              ['f', 'a', 'l', 's', 'e'] := rfl
          rw [hd] at hskip
          simp only [List.cons_append, List.nil_append] at hskip
          exact parseVal_false floatCfg fuel cs rest hskip
      | int n =>
        obtain ⟨sign, ip, hr, hmk⟩ := readNum_int n rest hb
        obtain ⟨c, t, hd, hcd⟩ := num_head n
        obtain ⟨hq, ht, hf, hn2, hbr, hbc⟩ := num_head_not_special c hcd
        rw [dumps_int_eq, hd] at hskip
        simp only [List.cons_append] at hskip
        rw [parseVal_num floatCfg fuel cs (t ++ rest) c hskip hq ht hf hn2
          hbr hbc]
        have he : c :: (t ++ rest) = (intRepr n).data ++ rest := by
          rw [hd]
          rfl
        rw [he]
        simp only [hr, hmk]
      | float r hr =>
        obtain ⟨sign, ip, fp, ep, hrp, hmk⟩ := readNum_float r hr rest hb
        obtain ⟨c, t, hd, hcd⟩ := float_head r hr
        obtain ⟨hq, ht, hf, hn2, hbr, hbc⟩ := num_head_not_special c hcd
        rw [dumps_float_eq, hd] at hskip
        simp only [List.cons_append] at hskip
        rw [parseVal_num floatCfg fuel cs (t ++ rest) c hskip hq ht hf hn2
          hbr hbc]
        have he : c :: (t ++ rest) = r.data ++ rest := by
          rw [hd]
          rfl
        rw [he]
        simp only [hrp, hmk]
      | str s hs =>
        have hd : (dumps (JVal.str s)).data =
            '"' :: ((escapeJson s).data ++ ['"']) := by
          rw [dumps_str_eq, dumpStr_data]
        rw [hd] at hskip
        simp only [List.cons_append, List.append_assoc, List.singleton_append,
          List.nil_append] at hskip
        rw [parseVal_str floatCfg fuel cs _ hskip]
        simp only [readStringChars_dumpStr s hs rest]
      | arr xs hxs =>
        have hd : (dumps (JVal.arr xs)).data =
            '[' :: ((dumpsList xs).data ++ [']']) := by
          rw [dumps_arr_eq, data_append, data_append]
          rfl
        rw [hd] at hskip
        simp only [List.cons_append, List.append_assoc, List.singleton_append,
          List.nil_append] at hskip
        rw [parseVal_arr floatCfg fuel cs _ hskip]
        cases xs with
        | nil =>
          have h0 : (dumpsList ([] : List JVal)).data = [] := rfl
          rw [h0]
          simp only [List.nil_append]
          rw [skipWs_eq_self (']' :: rest) (by
            intro x hx
            simp only [List.head?_cons, Option.some.injEq] at hx
            exact hx ▸ (by decide : isWsChar ']' = false))]
          rfl
        | cons v vs =>
          obtain ⟨c, t, hdl, hws2, hrb, hcb, hcc⟩ :=
            dumpsList_head v vs (hxs v (by simp))
          have hsk : skipWs ((dumpsList (v :: vs)).data ++ ']' :: rest) =
              (dumpsList (v :: vs)).data ++ ']' :: rest := by
            rw [hdl]
            exact skipWs_eq_self _ (by
              intro x hx
              simp only [List.cons_append, List.head?_cons,
                Option.some.injEq] at hx
              exact hx ▸ hws2)
          rw [hsk]
          split
          · rename_i r2 heq
            rw [hdl] at heq
            simp only [List.cons_append, List.cons.injEq] at heq
            exact absurd heq.1 hrb
          · have hj : jsize (JVal.arr (v :: vs)) =
                1 + jsizeList (v :: vs) := rfl
            have := ihA (v :: vs) ((dumpsList (v :: vs)).data ++ ']' :: rest)
              rest [] hxs (by simp) (by omega) hsk
            simpa using this
      | obj fs hk hv2 hnd =>
        have hd : (dumps (JVal.obj fs)).data =
            '\x7b' :: ((dumpsObj fs).data ++ ['\x7d']) := by
          rw [dumps_obj_eq, data_append, data_append]
          rfl
        rw [hd] at hskip
        simp only [List.cons_append, List.append_assoc, List.singleton_append,
          List.nil_append] at hskip
        rw [parseVal_obj floatCfg fuel cs _ hskip]
        cases fs with
        | nil =>
          have h0 : (dumpsObj ([] : List (String × JVal))).data = [] := rfl
          rw [h0]
          simp only [List.nil_append]
          rw [skipWs_eq_self ('\x7d' :: rest) (by
            intro x hx
            simp only [List.head?_cons, Option.some.injEq] at hx
            exact hx ▸ (by decide : isWsChar '\x7d' = false))]
          rfl
        | cons p ps =>
          obtain ⟨t0, hdo⟩ := dumpsObj_head p ps
          have hsk : skipWs ((dumpsObj (p :: ps)).data ++ '\x7d' :: rest) =
              (dumpsObj (p :: ps)).data ++ '\x7d' :: rest := by
            rw [hdo]
            exact skipWs_eq_self _ (by
              intro x hx
              simp only [List.cons_append, List.head?_cons,
                Option.some.injEq] at hx
              exact hx ▸ (by decide : isWsChar '"' = false))
          rw [hsk]
          split
          · rename_i r2 heq
            rw [hdo] at heq
            simp only [List.cons_append, List.cons.injEq] at heq
            exact absurd heq.1 (by decide)
          · have hj : jsize (JVal.obj (p :: ps)) =
                1 + jsizeObj (p :: ps) := rfl
            have := ihO (p :: ps) ((dumpsObj (p :: ps)).data ++ '\x7d' :: rest)
              rest [] hk hv2 (by simp) (by omega) (by simpa using hnd) hsk
            simpa using this
    · intro xs cs rest acc hxs hne hsz hskip
      cases xs with
      | nil => exact absurd rfl hne
      | cons v vs =>
        have hszl : jsizeList (v :: vs) = 1 + jsize v + jsizeList vs := rfl
        cases vs with
        | nil =>
          have hdl : (dumpsList [v]).data = (dumps v).data := rfl
          rw [hdl] at hskip
          have hV := ihV v cs (']' :: rest) (hxs v (by simp)) (by omega) hskip
            (numBoundary_cons ']' rest (by decide) (by decide) (by decide)
              (by decide))
          rw [parseArrItems_step floatCfg fuel cs acc v (']' :: rest) hV]
          rw [skipWs_eq_self (']' :: rest) (by
            intro x hx
            simp only [List.head?_cons, Option.some.injEq] at hx
            exact hx ▸ (by decide : isWsChar ']' = false))]
          rfl
        | cons w ws =>
          have hdl : (dumpsList (v :: w :: ws)).data =
              (dumps v).data ++ (',' :: ' ' :: (dumpsList (w :: ws)).data) := by
            show (dumps v ++ ", " ++ dumpsList (w :: ws)).data = _
            rw [data_append, data_append]
            simp
          rw [hdl] at hskip
          simp only [List.append_assoc, List.cons_append,
            List.nil_append] at hskip
          have hV := ihV v cs
            (',' :: ' ' :: ((dumpsList (w :: ws)).data ++ ']' :: rest))
            (hxs v (by simp)) (by omega) hskip
            (numBoundary_cons ',' _ (by decide) (by decide) (by decide)
              (by decide))
          rw [parseArrItems_step floatCfg fuel cs acc v _ hV]
          rw [skipWs_eq_self
            (',' :: ' ' :: ((dumpsList (w :: ws)).data ++ ']' :: rest)) (by
            intro x hx
            simp only [List.head?_cons, Option.some.injEq] at hx
            exact hx ▸ (by decide : isWsChar ',' = false))]
          obtain ⟨c2, t2, hdl2, hws3, _, _, _⟩ :=
            dumpsList_head w ws (hxs w (by simp))
          have hsk2 : skipWs
              (' ' :: ((dumpsList (w :: ws)).data ++ ']' :: rest)) =
              (dumpsList (w :: ws)).data ++ ']' :: rest := by
            rw [skipWs_cons_ws ' ' _ (by decide), hdl2]
            exact skipWs_eq_self _ (by
              intro x hx
              simp only [List.cons_append, List.head?_cons,
                Option.some.injEq] at hx
              exact hx ▸ hws3)
          rw [List.append_cons acc v (w :: ws)]
          exact ihA (w :: ws)
            (' ' :: ((dumpsList (w :: ws)).data ++ ']' :: rest)) rest
            (acc ++ [v]) (fun x hx => hxs x (by simp [hx])) (by simp)
            (by omega) hsk2
    · intro fs cs rest acc hk hv2 hne hsz hnd hskip
      cases fs with
      | nil => exact absurd rfl hne
      | cons p ps =>
        have hszo : jsizeObj (p :: ps) = 1 + jsize p.2 + jsizeObj ps := rfl
        have hfresh : ∀ q ∈ acc, q.1 ≠ p.1 := by
          intro q hq he
          rw [List.map_append] at hnd
          have hdisj := List.disjoint_of_nodup_append hnd
          exact hdisj (List.mem_map_of_mem Prod.fst hq)
            (by rw [he]; simp)
        rw [parseObjItems_succ]
        cases ps with
        | nil =>
          have hdo2 : (dumpsObj [p]).data =
              '"' :: ((escapeJson p.1).data ++
                ('"' :: ':' :: ' ' :: (dumps p.2).data)) := by
            show (dumpStr p.1 ++ ": " ++ dumps p.2).data = _
            rw [data_append, data_append, dumpStr_data]
            simp
          rw [hdo2] at hskip
          simp only [List.append_assoc, List.cons_append,
            List.nil_append] at hskip
          rw [hskip]
          have hrs := readStringChars_dumpStr p.1 (hk p (by simp))
            (':' :: ' ' :: ((dumps p.2).data ++ '\x7d' :: rest))
          have hskA : skipWs
              (':' :: ' ' :: ((dumps p.2).data ++ '\x7d' :: rest)) =
              ':' :: ' ' :: ((dumps p.2).data ++ '\x7d' :: rest) :=
            skipWs_eq_self _ (by
              intro x hx
              simp only [List.head?_cons, Option.some.injEq] at hx
              exact hx ▸ (by decide : isWsChar ':' = false))
          have hV := ihV p.2 (' ' :: ((dumps p.2).data ++ '\x7d' :: rest))
            ('\x7d' :: rest) (hv2 p (by simp)) (by omega)
            (by
              rw [skipWs_cons_ws ' ' _ (by decide)]
              exact skipWs_dumps p.2 (hv2 p (by simp)) ('\x7d' :: rest))
            (numBoundary_cons '\x7d' rest (by decide) (by decide) (by decide)
              (by decide))
          have hskB : skipWs ('\x7d' :: rest) = '\x7d' :: rest :=
            skipWs_eq_self _ (by
              intro x hx
              simp only [List.head?_cons, Option.some.injEq] at hx
              exact hx ▸ (by decide : isWsChar '\x7d' = false))
          simp only [hrs, hskA, hV, hskB]
          show some (JVal.obj (applyHook floatCfg
            (insertPair acc p.1 p.2)), rest) = _
          rw [applyHook_floatCfg, insertPair_fresh acc p.1 p.2 hfresh]
        | cons q qs =>
          have hdo2 : (dumpsObj (p :: q :: qs)).data =
              '"' :: ((escapeJson p.1).data ++
                ('"' :: ':' :: ' ' :: ((dumps p.2).data ++
                  (',' :: ' ' :: (dumpsObj (q :: qs)).data)))) := by
            show (dumpStr p.1 ++ ": " ++ dumps p.2 ++ ", " ++
              dumpsObj (q :: qs)).data = _
            rw [data_append, data_append, data_append, data_append,
              dumpStr_data]
            simp
          rw [hdo2] at hskip
          simp only [List.append_assoc, List.cons_append,
            List.nil_append] at hskip
          rw [hskip]
          have hrs := readStringChars_dumpStr p.1 (hk p (by simp))
            (':' :: ' ' :: ((dumps p.2).data ++ ',' :: ' ' ::
              ((dumpsObj (q :: qs)).data ++ '\x7d' :: rest)))
          have hskA : skipWs
              (':' :: ' ' :: ((dumps p.2).data ++ ',' :: ' ' ::
                ((dumpsObj (q :: qs)).data ++ '\x7d' :: rest))) =
              ':' :: ' ' :: ((dumps p.2).data ++ ',' :: ' ' ::
                ((dumpsObj (q :: qs)).data ++ '\x7d' :: rest)) :=
            skipWs_eq_self _ (by
              intro x hx
              simp only [List.head?_cons, Option.some.injEq] at hx
              exact hx ▸ (by decide : isWsChar ':' = false))
          have hV := ihV p.2 (' ' :: ((dumps p.2).data ++ ',' :: ' ' ::
              ((dumpsObj (q :: qs)).data ++ '\x7d' :: rest)))
            (',' :: ' ' :: ((dumpsObj (q :: qs)).data ++ '\x7d' :: rest))
            (hv2 p (by simp)) (by omega)
            (by
              rw [skipWs_cons_ws ' ' _ (by decide)]
              exact skipWs_dumps p.2 (hv2 p (by simp)) _)
            (numBoundary_cons ',' _ (by decide) (by decide) (by decide)
              (by decide))
          have hskB : skipWs (',' :: ' ' ::
              ((dumpsObj (q :: qs)).data ++ '\x7d' :: rest)) =
              ',' :: ' ' :: ((dumpsObj (q :: qs)).data ++ '\x7d' :: rest) :=
            skipWs_eq_self _ (by
              intro x hx
              simp only [List.head?_cons, Option.some.injEq] at hx
              exact hx ▸ (by decide : isWsChar ',' = false))
          simp only [hrs, hskA, hV, hskB]
          obtain ⟨t3, hdo3⟩ := dumpsObj_head q qs
          have hsk3 : skipWs (' ' :: ((dumpsObj (q :: qs)).data ++
              '\x7d' :: rest)) = (dumpsObj (q :: qs)).data ++
              '\x7d' :: rest := by
            rw [skipWs_cons_ws ' ' _ (by decide), hdo3]
            exact skipWs_eq_self _ (by
              intro x hx
              simp only [List.cons_append, List.head?_cons,
                Option.some.injEq] at hx
              exact hx ▸ (by decide : isWsChar '"' = false))
          show parseObjItems floatCfg fuel
            (' ' :: ((dumpsObj (q :: qs)).data ++ '\x7d' :: rest))
            (insertPair acc p.1 p.2) = _
          rw [insertPair_fresh acc p.1 p.2 hfresh,
            List.append_cons acc p (q :: qs)]
          exact ihO (q :: qs)
            (' ' :: ((dumpsObj (q :: qs)).data ++ '\x7d' :: rest)) rest
            (acc ++ [p]) (fun x hx => hk x (by simp [hx]))
            (fun x hx => hv2 x (by simp [hx])) (by simp) (by omega)
            (by
              rw [List.append_cons acc p (q :: qs)] at hnd
              exact hnd) hsk3

/-! ## Text shape of the emitted JSON array file -/

theorem intercalate_go_spec (as : List String) : ∀ acc : String,
    String.intercalate.go acc ",\n" as = acc ++ joinSep as := by
  induction as with
  | nil =>
    intro acc
    show acc = acc ++ joinSep []
    simp [joinSep]
  | cons a as ih =>
    intro acc
    show String.intercalate.go (acc ++ ",\n" ++ a) ",\n" as = _
    rw [ih]
    simp [joinSep, String.append_assoc]

theorem bodyOf_join (v : JVal) (vs : List JVal) :
    bodyOf (v :: vs) =
      "    " ++ dumps v ++ joinSep (vs.map (fun o => "    " ++ dumps o)) := by
  induction vs generalizing v with
  | nil => simp [bodyOf, joinSep]
  | cons w ws ih =>
    show "    " ++ dumps v ++ ",\n" ++ bodyOf (w :: ws) = _
    rw [ih w]
    simp [joinSep, String.append_assoc]

theorem write_batch_body (batch : List JVal) (hne : batch ≠ [])
    (isFirst : Bool) :
    write_batch batch isFirst =
      (if isFirst then "" else ",\n") ++ bodyOf batch := by
  unfold write_batch
  rw [if_neg (by simpa using hne)]
  cases batch with
  | nil => exact absurd rfl hne
  | cons v vs =>
    have hi : String.intercalate ",\n"
        ((v :: vs).map (fun o => "    " ++ dumps o)) =
        "    " ++ dumps v ++ joinSep (vs.map (fun o => "    " ++ dumps o)) := by
      show String.intercalate.go ("    " ++ dumps v) ",\n"
        (vs.map (fun o => "    " ++ dumps o)) = _
      rw [intercalate_go_spec]
    rw [hi, bodyOf_join]

theorem bodyOf_cons2 (v w : JVal) (ws : List JVal) :
    bodyOf (v :: w :: ws) = "    " ++ dumps v ++ ",\n" ++ bodyOf (w :: ws) :=
  rfl

theorem bodyOf_append (xs ys : List JVal) (hx : xs ≠ []) (hy : ys ≠ []) :
    bodyOf (xs ++ ys) = bodyOf xs ++ ",\n" ++ bodyOf ys := by
  induction xs with
  | nil => exact absurd rfl hx
  | cons x xs ih =>
    cases xs with
    | nil =>
      cases ys with
      | nil => exact absurd rfl hy
      | cons y ys2 =>
        show bodyOf (x :: y :: ys2) = bodyOf [x] ++ ",\n" ++ bodyOf (y :: ys2)
        rw [bodyOf_cons2]
        show "    " ++ dumps x ++ ",\n" ++ bodyOf (y :: ys2) = _
        simp [bodyOf, String.append_assoc]
    | cons x2 xs2 =>
      have h1 : (x :: x2 :: xs2) ++ ys = x :: ((x2 :: xs2) ++ ys) := rfl
      rw [h1]
      have h2 : (x2 :: xs2) ++ ys = x2 :: (xs2 ++ ys) := rfl
      have h3 : bodyOf (x :: ((x2 :: xs2) ++ ys)) =
          "    " ++ dumps x ++ ",\n" ++ bodyOf ((x2 :: xs2) ++ ys) := by
        rw [h2]
        exact bodyOf_cons2 x x2 (xs2 ++ ys)
      rw [h3, ih (by simp), bodyOf_cons2]
      simp [String.append_assoc]

theorem conv1Go_text (B : Int) (lines : List String) :
    ∀ (n : Nat) (st : Conv1State),
      (∀ b ∈ st.batches, b ≠ []) →
      st.isFirst = st.batches.isEmpty →
      st.text = "[\n" ++ bodyOf st.batches.flatten →
      ((conv1Go B (enumFrom n lines) st).text =
        "[\n" ++ bodyOf (conv1Go B (enumFrom n lines) st).batches.flatten ∧
       (∀ b ∈ (conv1Go B (enumFrom n lines) st).batches, b ≠ []) ∧
       (conv1Go B (enumFrom n lines) st).isFirst =
         (conv1Go B (enumFrom n lines) st).batches.isEmpty) := by
  induction lines with
  | nil =>
    intro n st h1 h2 h3
    simp only [enumFrom, conv1Go]
    exact ⟨h3, h1, h2⟩
  | cons l ls ih =>
    intro n st h1 h2 h3
    by_cases hb : isBlankLine l
    · have hred : conv1Go B (enumFrom n (l :: ls)) st =
          conv1Go B (enumFrom (n + 1) ls) st := by
        simp [enumFrom, conv1Go, hb]
      rw [hred]
      exact ih (n + 1) st h1 h2 h3
    · cases hdec : jsonLoads plainCfg l with
      | none =>
        have hred : conv1Go B (enumFrom n (l :: ls)) st =
            conv1Go B (enumFrom (n + 1) ls)
              { st with errors := st.errors ++ [n] } := by
          simp only [enumFrom, conv1Go, hdec]
          rw [if_neg hb]
        rw [hred]
        exact ih (n + 1) _ h1 h2 h3
      | some v =>
        by_cases hfull : B ≤ ((st.batch ++ [v]).length : Int)
        · have hred : conv1Go B (enumFrom n (l :: ls)) st =
              conv1Go B (enumFrom (n + 1) ls)
                { text := st.text ++ write_batch (st.batch ++ [v]) st.isFirst
                  isFirst := false
                  batch := []
                  batches := st.batches ++ [st.batch ++ [v]]
                  count := st.count + (st.batch ++ [v]).length
                  errors := st.errors } := by
            simp only [enumFrom, conv1Go, hdec]
            rw [if_neg hb, if_pos hfull]
          rw [hred]
          apply ih (n + 1)
          · intro b hbm
            rcases List.mem_append.mp hbm with hbm2 | hbm2
            · exact h1 b hbm2
            · rw [List.mem_singleton] at hbm2
              subst hbm2
              simp
          · cases hbs : st.batches with
            | nil => simp
            | cons b bs => simp
          · show st.text ++ write_batch (st.batch ++ [v]) st.isFirst =
              "[\n" ++ bodyOf (st.batches ++ [st.batch ++ [v]]).flatten
            rw [h3, write_batch_body (st.batch ++ [v]) (by simp) st.isFirst]
            cases hbs : st.batches with
            | nil =>
              have hf : st.isFirst = true := by rw [h2, hbs]; rfl
              rw [hf]
              simp [String.append_assoc, bodyOf]
            | cons b bs =>
              have hf : st.isFirst = false := by rw [h2, hbs]; rfl
              rw [hf, ← hbs]
              have hfl : st.batches.flatten ≠ [] := by
                rw [hbs]
                have hbne : b ≠ [] := h1 b (by rw [hbs]; simp)
                cases hbb : b with
                | nil => exact absurd hbb hbne
                | cons x xs => simp
              rw [List.flatten_append, List.flatten_cons, List.flatten_nil,
                List.append_nil,
                bodyOf_append st.batches.flatten (st.batch ++ [v]) hfl
                  (by simp)]
              simp [String.append_assoc]
        · have hred : conv1Go B (enumFrom n (l :: ls)) st =
              conv1Go B (enumFrom (n + 1) ls)
                { st with batch := st.batch ++ [v] } := by
            simp only [enumFrom, conv1Go, hdec]
            rw [if_neg hb, if_neg hfull]
          rw [hred]
          exact ih (n + 1) _ h1 h2 h3

theorem convert_ndjson_to_json_text (lines : List String) (B : Int) :
    (convert_ndjson_to_json lines B).text =
      "[\n" ++ bodyOf (convert_ndjson_to_json lines B).batches.flatten ++
        "\n]" := by
  obtain ⟨ht, hbs, hif⟩ := conv1Go_text B lines 1 ⟨"[\n", true, [], [], 0, []⟩
    (by simp) rfl (by simp [bodyOf])
  set st := conv1Go B (enumFrom 1 lines) ⟨"[\n", true, [], [], 0, []⟩ with hst
  unfold convert_ndjson_to_json conv1Finish
  rw [← hst]
  by_cases hbe : st.batch.isEmpty
  · rw [if_pos hbe]
    show st.text ++ "\n]" = "[\n" ++ bodyOf st.batches.flatten ++ "\n]"
    rw [ht]
  · rw [if_neg hbe]
    show st.text ++ write_batch st.batch st.isFirst ++ "\n]" =
      "[\n" ++ bodyOf (st.batches ++ [st.batch]).flatten ++ "\n]"
    have hbne : st.batch ≠ [] := by simpa using hbe
    rw [ht, write_batch_body st.batch hbne st.isFirst]
    cases hbs2 : st.batches with
    | nil =>
      have hf : st.isFirst = true := by rw [hif, hbs2]; rfl
      rw [hf]
      simp [String.append_assoc, bodyOf]
    | cons b bs =>
      have hf : st.isFirst = false := by rw [hif, hbs2]; rfl
      rw [hf, ← hbs2]
      have hfl : st.batches.flatten ≠ [] := by
        rw [hbs2]
        have hbne2 : b ≠ [] := hbs b (by rw [hbs2]; simp)
        cases hbb : b with
        | nil => exact absurd hbb hbne2
        | cons x xs => simp
      rw [List.flatten_append, List.flatten_cons, List.flatten_nil,
        List.append_nil, bodyOf_append st.batches.flatten st.batch hfl hbne]
      simp [String.append_assoc]

/-! ## Fuel bound: structural size against dump length -/

theorem dumps_arr_data (xs : List JVal) :
    (dumps (JVal.arr xs)).data = '[' :: ((dumpsList xs).data ++ [']']) := by
  rw [dumps_arr_eq, data_append, data_append]
  rfl

theorem dumps_obj_data (fs : List (String × JVal)) :
    (dumps (JVal.obj fs)).data =
      '\x7b' :: ((dumpsObj fs).data ++ ['\x7d']) := by
  rw [dumps_obj_eq, data_append, data_append]
  rfl

theorem dumpsList_cons2_data (v w : JVal) (ws : List JVal) :
    (dumpsList (v :: w :: ws)).data =
      (dumps v).data ++ (',' :: ' ' :: (dumpsList (w :: ws)).data) := by
  show (dumps v ++ ", " ++ dumpsList (w :: ws)).data = _
  rw [data_append, data_append]
  simp

theorem dumpsObj_single_data (p : String × JVal) :
    (dumpsObj [p]).data =
      (dumpStr p.1).data ++ (':' :: ' ' :: (dumps p.2).data) := by
  show (dumpStr p.1 ++ ": " ++ dumps p.2).data = _
  rw [data_append, data_append]
  simp

theorem dumpsObj_cons2_data (p q : String × JVal) (qs : List (String × JVal)) :
    (dumpsObj (p :: q :: qs)).data =
      (dumpStr p.1).data ++ (':' :: ' ' :: ((dumps p.2).data ++
        (',' :: ' ' :: (dumpsObj (q :: qs)).data))) := by
  show (dumpStr p.1 ++ ": " ++ dumps p.2 ++ ", " ++ dumpsObj (q :: qs)).data = _
  rw [data_append, data_append, data_append, data_append]
  simp

theorem dumps_len : ∀ n : Nat,
    (∀ v, jsize v ≤ n → jsize v ≤ (dumps v).data.length + 1) ∧
    (∀ xs, jsizeList xs ≤ n →
      jsizeList xs ≤ (dumpsList xs).data.length + 2) ∧
    (∀ fs, jsizeObj fs ≤ n → jsizeObj fs ≤ (dumpsObj fs).data.length + 2) := by
  intro n
  induction n with
  | zero =>
    refine ⟨?_, ?_, ?_⟩
    · intro v h
      exact absurd h (by have := jsize_pos v; omega)
    · intro xs h
      omega
    · intro fs h
      omega
  | succ n ih =>
    obtain ⟨ihV, ihA, ihO⟩ := ih
    refine ⟨?_, ?_, ?_⟩
    · intro v h
      cases v with
      | null => decide
      | bool b => cases b <;> decide
      | int k =>
        have h1 : jsize (JVal.int k) = 1 := rfl
        omega
      | float r =>
        have h1 : jsize (JVal.float r) = 1 := rfl
        omega
      | dec d =>
        have h1 : jsize (JVal.dec d) = 1 := rfl
        omega
      | str s =>
        have h1 : jsize (JVal.str s) = 1 := rfl
        omega
      | arr xs =>
        have h1 : jsize (JVal.arr xs) = 1 + jsizeList xs := rfl
        have h2 : (dumps (JVal.arr xs)).data.length =
            (dumpsList xs).data.length + 2 := by
          rw [dumps_arr_data]
          simp
        have h3 := ihA xs (by omega)
        omega
      | obj fs =>
        have h1 : jsize (JVal.obj fs) = 1 + jsizeObj fs := rfl
        have h2 : (dumps (JVal.obj fs)).data.length =
            (dumpsObj fs).data.length + 2 := by
          rw [dumps_obj_data]
          simp
        have h3 := ihO fs (by omega)
        omega
    · intro xs h
      cases xs with
      | nil =>
        have h0 : jsizeList ([] : List JVal) = 0 := rfl
        omega
      | cons v vs =>
        have h1 : jsizeList (v :: vs) = 1 + jsize v + jsizeList vs := rfl
        cases vs with
        | nil =>
          have h0 : jsizeList ([] : List JVal) = 0 := rfl
          have h2 : (dumpsList [v]).data.length = (dumps v).data.length := rfl
          have h3 := ihV v (by omega)
          omega
        | cons w ws =>
          have h2 : (dumpsList (v :: w :: ws)).data.length =
              (dumps v).data.length + 2 +
                (dumpsList (w :: ws)).data.length := by
            rw [dumpsList_cons2_data]
            simp
            omega
          have h3 := ihV v (by omega)
          have h4 := ihA (w :: ws) (by omega)
          omega
    · intro fs h
      cases fs with
      | nil =>
        have h0 : jsizeObj ([] : List (String × JVal)) = 0 := rfl
        omega
      | cons p ps =>
        have h1 : jsizeObj (p :: ps) = 1 + jsize p.2 + jsizeObj ps := rfl
        cases ps with
        | nil =>
          have h0 : jsizeObj ([] : List (String × JVal)) = 0 := rfl
          have h2 : (dumpsObj [p]).data.length =
              (dumpStr p.1).data.length + 2 + (dumps p.2).data.length := by
            rw [dumpsObj_single_data]
            simp
            omega
          have h3 := ihV p.2 (by omega)
          omega
        | cons q qs =>
          have h2 : (dumpsObj (p :: q :: qs)).data.length =
              (dumpStr p.1).data.length + 4 + (dumps p.2).data.length +
                (dumpsObj (q :: qs)).data.length := by
            rw [dumpsObj_cons2_data]
            simp
            omega
          have h3 := ihV p.2 (by omega)
          have h4 := ihO (q :: qs) (by omega)
          omega

theorem jsize_le_dumps (v : JVal) :
    jsize v ≤ (dumps v).data.length + 1 :=
  (dumps_len (jsize v)).1 v le_rfl

/-! ## ijson over the emitted array file -/

theorem ijsonArrGo_succ (cfg : ParseCfg) (fuel : Nat) (cs : List Char)
    (acc : List JVal) :
    ijsonArrGo cfg (fuel + 1) cs acc =
    (match parseVal cfg (cs.length * 2 + 8) cs with
     | none => (acc, true)
     | some (v, r) =>
       match skipWs r with
       | ',' :: r2 => ijsonArrGo cfg fuel r2 (acc ++ [v])
       | ']' :: _ => (acc ++ [v], false)
       | _ => (acc ++ [v], true)) := rfl

theorem recTail_cons (w : JVal) (ws : List JVal) :
    recTail (w :: ws) =
      ',' :: '\n' :: ' ' :: ' ' :: ' ' :: ' ' ::
        ((dumps w).data ++ recTail ws) := rfl

theorem numBoundary_recTail (vs : List JVal) : numBoundary (recTail vs) := by
  cases vs with
  | nil =>
    exact numBoundary_cons '\n' [']'] (by decide) (by decide) (by decide)
      (by decide)
  | cons w ws =>
    exact numBoundary_cons ',' _ (by decide) (by decide) (by decide)
      (by decide)

theorem recTail_length (vs : List JVal) : vs.length ≤ (recTail vs).length := by
  induction vs with
  | nil => simp [recTail]
  | cons w ws ih =>
    rw [recTail_cons]
    simp
    omega

theorem ijsonArrGo_spec : ∀ (vs : List JVal) (v : JVal) (fuel : Nat)
    (pre : List Char) (acc : List JVal),
    Wready v → (∀ x ∈ vs, Wready x) → vs.length < fuel →
    (∀ c ∈ pre, isWsChar c = true) →
    ijsonArrGo floatCfg fuel (pre ++ ((dumps v).data ++ recTail vs)) acc =
      (acc ++ v :: vs, false) := by
  intro vs
  induction vs with
  | nil =>
    intro v fuel pre acc hv _ hf hpre
    cases fuel with
    | zero => exact absurd hf (by simp)
    | succ f =>
      rw [ijsonArrGo_succ]
      have hskip : skipWs (pre ++ ((dumps v).data ++ recTail [])) =
          (dumps v).data ++ recTail [] :=
        (dropWhile_all_append isWsChar pre _ hpre).trans
          (skipWs_dumps v hv (recTail []))
      have hfuel : jsize v ≤
          (pre ++ ((dumps v).data ++ recTail [])).length * 2 + 8 := by
        have h1 := jsize_le_dumps v
        have h2 : (pre ++ ((dumps v).data ++ recTail [])).length =
            pre.length + ((dumps v).data.length + (recTail []).length) := by
          simp
        omega
      have hp := (parse_dumps
          ((pre ++ ((dumps v).data ++ recTail [])).length * 2 + 8)).1 v _
        (recTail []) hv hfuel hskip (numBoundary_recTail [])
      rw [hp]
      rfl
  | cons w ws ih =>
    intro v fuel pre acc hv hws hf hpre
    cases fuel with
    | zero => exact absurd hf (by omega)
    | succ f =>
      rw [ijsonArrGo_succ]
      have hskip : skipWs (pre ++ ((dumps v).data ++ recTail (w :: ws))) =
          (dumps v).data ++ recTail (w :: ws) :=
        (dropWhile_all_append isWsChar pre _ hpre).trans
          (skipWs_dumps v hv (recTail (w :: ws)))
      have hfuel : jsize v ≤
          (pre ++ ((dumps v).data ++ recTail (w :: ws))).length * 2 + 8 := by
        have h1 := jsize_le_dumps v
        have h2 : (pre ++ ((dumps v).data ++ recTail (w :: ws))).length =
            pre.length + ((dumps v).data.length +
              (recTail (w :: ws)).length) := by
          simp
        omega
      have hp := (parse_dumps
          ((pre ++ ((dumps v).data ++ recTail (w :: ws))).length * 2 + 8)).1
        v _ (recTail (w :: ws)) hv hfuel hskip (numBoundary_recTail (w :: ws))
      rw [hp]
      have hsk2 : skipWs (recTail (w :: ws)) = recTail (w :: ws) := by
        rw [recTail_cons]
        exact skipWs_eq_self _ (by
          intro x hx
          simp only [List.head?_cons, Option.some.injEq] at hx
          exact hx ▸ (by decide : isWsChar ',' = false))
      simp only [hsk2, recTail_cons]
      rw [List.append_cons acc v (w :: ws)]
      have hlen : ws.length < f := by
        simp only [List.length_cons] at hf
        omega
      exact ih w f ['\n', ' ', ' ', ' ', ' '] (acc ++ [v]) (hws w (by simp))
        (fun x hx => hws x (by simp [hx])) hlen (by decide)

theorem bodyOf_recTail (v : JVal) (tl : List JVal) :
    (bodyOf (v :: tl)).data ++ ['\n', ']'] =
      ' ' :: ' ' :: ' ' :: ' ' :: ((dumps v).data ++ recTail tl) := by
  induction tl generalizing v with
  | nil =>
    show ("    " ++ dumps v).data ++ ['\n', ']'] = _
    rw [data_append]
    have h1 : ("    " : String).data = [' ', ' ', ' ', ' '] := rfl
    rw [h1]
    simp [recTail]
  | cons w ws ih =>
    show ("    " ++ dumps v ++ ",\n" ++ bodyOf (w :: ws)).data ++
      ['\n', ']'] = _
    rw [data_append, data_append, data_append]
    have h1 : ("    " : String).data = [' ', ' ', ' ', ' '] := rfl
    have h2 : (",\n" : String).data = [',', '\n'] := rfl
    rw [h1, h2]
    simp only [List.append_assoc, List.cons_append, List.nil_append]
    rw [ih w, recTail_cons]

theorem ijsonItems_body (vs : List JVal) (h : ∀ v ∈ vs, Wready v) :
    ijsonItems floatCfg ("[\n" ++ bodyOf vs ++ "\n]") = (vs, false) := by
  cases vs with
  | nil => rfl
  | cons v tl =>
    unfold ijsonItems
    have hdata : ("[\n" ++ bodyOf (v :: tl) ++ "\n]").data =
        '[' :: '\n' :: ((bodyOf (v :: tl)).data ++ ['\n', ']']) := by
      rw [data_append, data_append]
      have h1 : ("[\n" : String).data = ['[', '\n'] := rfl
      have h2 : ("\n]" : String).data = ['\n', ']'] := rfl
      rw [h1, h2]
      simp
    rw [hdata]
    rw [show skipWs ('[' :: '\n' ::
        ((bodyOf (v :: tl)).data ++ ['\n', ']'])) =
        '[' :: ('\n' :: ((bodyOf (v :: tl)).data ++ ['\n', ']'])) from
      skipWs_eq_self _ (by
        intro x hx
        simp only [List.head?_cons, Option.some.injEq] at hx
        exact hx ▸ (by decide : isWsChar '[' = false))]
    show (match skipWs ('\n' :: ((bodyOf (v :: tl)).data ++ ['\n', ']'])) with
      | ']' :: _ => (([] : List JVal), false)
      | cs => ijsonArrGo floatCfg (cs.length + 1) cs []) = (v :: tl, false)
    have hsk : skipWs ('\n' :: ((bodyOf (v :: tl)).data ++ ['\n', ']'])) =
        (dumps v).data ++ recTail tl := by
      rw [skipWs_cons_ws _ _ (by decide), bodyOf_recTail v tl,
        skipWs_cons_ws _ _ (by decide), skipWs_cons_ws _ _ (by decide),
        skipWs_cons_ws _ _ (by decide), skipWs_cons_ws _ _ (by decide)]
      exact skipWs_dumps v (h v (by simp)) (recTail tl)
    rw [hsk]
    split
    · rename_i heq
      obtain ⟨c, t, hd, _, hrb, _, _⟩ := dumps_head v (h v (by simp))
      rw [hd] at heq
      simp only [List.cons_append, List.cons.injEq] at heq
      exact absurd heq.1 hrb
    · have hlen : tl.length < ((dumps v).data ++ recTail tl).length + 1 := by
        have h1 := recTail_length tl
        have h2 : ((dumps v).data ++ recTail tl).length =
            (dumps v).data.length + (recTail tl).length := by
          simp
        omega
      have := ijsonArrGo_spec tl v
        (((dumps v).data ++ recTail tl).length + 1) [] []
        (h v (by simp)) (fun x hx => h x (by simp [hx])) hlen (by simp)
      simpa using this

/-! ## Numeric token soundness -/

theorem takeWhile_mem (p : Char → Bool) (l : List Char) (c : Char)
    (h : c ∈ l.takeWhile p) : p c = true := by
  induction l with
  | nil => simp [List.takeWhile] at h
  | cons a as ih =>
    by_cases hp : p a = true
    · rw [List.takeWhile_cons_of_pos hp] at h
      rcases List.mem_cons.mp h with rfl | h2
      · exact hp
      · exact ih h2
    · rw [List.takeWhile_cons_of_neg (by simpa using hp)] at h
      simp at h

theorem dropWhile_head_not (p : Char → Bool) :
    ∀ (l : List Char) (c : Char), (l.dropWhile p).head? = some c →
      p c = false := by
  intro l
  induction l with
  | nil =>
    intro c hc
    simp [List.dropWhile] at hc
  | cons a as ih =>
    intro c hc
    by_cases hp : p a = true
    · rw [List.dropWhile_cons_of_pos hp] at hc
      exact ih c hc
    · rw [List.dropWhile_cons_of_neg (by simpa using hp)] at hc
      simp only [List.head?_cons, Option.some.injEq] at hc
      subst hc
      simpa using hp

theorem dropWhile_idem (p : Char → Bool) (l : List Char) :
    (l.dropWhile p).dropWhile p = l.dropWhile p :=
  dropWhile_head_neg p _ (dropWhile_head_not p l)

theorem readFrac_sound (cs fp r : List Char) (h : readFrac cs = some (fp, r)) :
    fp = [] ∨ ∃ ds, fp = '.' :: ds ∧ ds ≠ [] ∧ ∀ c ∈ ds, c.isDigit = true := by
  unfold readFrac at h
  split at h
  · rename_i r1
    simp only [] at h
    split at h
    · simp at h
    · rename_i hne
      injection h with h
      rw [Prod.mk.injEq] at h
      refine Or.inr ⟨r1.takeWhile Char.isDigit, h.1.symm, by simpa using hne,
        fun c hc => takeWhile_mem Char.isDigit r1 c hc⟩
  · injection h with h
    rw [Prod.mk.injEq] at h
    exact Or.inl h.1.symm

theorem readExp_sound (cs ep r : List Char) (h : readExp cs = some (ep, r)) :
    ep = [] ∨ ∃ e sgn ds, (e = 'e' ∨ e = 'E') ∧ ep = e :: (sgn ++ ds) ∧
      (sgn = [] ∨ sgn = ['+'] ∨ sgn = ['-']) ∧ ds ≠ [] ∧
      ∀ c ∈ ds, c.isDigit = true := by
  unfold readExp at h
  split at h
  · injection h with h
    rw [Prod.mk.injEq] at h
    exact Or.inl h.1.symm
  · rename_i c r0
    split at h
    · rename_i he
      split at h
      · rename_i sgn r1 hm
        simp only [] at h
        split at h
        · simp at h
        · rename_i hne
          injection h with h
          rw [Prod.mk.injEq] at h
          refine Or.inr ⟨c, sgn, r1.takeWhile Char.isDigit, he, h.1.symm,
            ?_, by simpa using hne,
            fun x hx => takeWhile_mem Char.isDigit r1 x hx⟩
          split at hm
          · rename_i s r2
            split at hm
            · injection hm with hm1 hm2
              rename_i hs
              rcases hs with rfl | rfl
              · exact Or.inr (Or.inl hm1.symm)
              · exact Or.inr (Or.inr hm1.symm)
            · injection hm with hm1 hm2
              exact Or.inl hm1.symm
          · injection hm with hm1 hm2
            exact Or.inl hm1.symm
    · injection h with h
      rw [Prod.mk.injEq] at h
      exact Or.inl h.1.symm

theorem readNumCore_sound (sign : Bool) (cs : List Char)
    (sign2 : Bool) (ip fp ep r : List Char)
    (h : readNumCore sign cs = some (sign2, ip, fp, ep, r)) :
    sign2 = sign ∧ ValidNumParts ip fp ep := by
  unfold readNumCore at h
  split at h
  · simp at h
  · rename_i c r0
    split at h
    · rename_i hc0
      subst hc0
      split at h
      · simp at h
      · rename_i fp1 r1 hfrac
        split at h
        · simp at h
        · rename_i ep1 r2 hexp
          injection h with h
          rw [Prod.mk.injEq] at h
          obtain ⟨hs, h2⟩ := h
          rw [Prod.mk.injEq] at h2
          obtain ⟨hip, h3⟩ := h2
          rw [Prod.mk.injEq] at h3
          obtain ⟨hfp, h4⟩ := h3
          rw [Prod.mk.injEq] at h4
          obtain ⟨hep, hr⟩ := h4
          subst hs hip hfp hep
          exact ⟨rfl, ⟨by intro x hx; simp at hx; subst hx; decide,
            by simp, fun _ => rfl,
            readFrac_sound _ _ _ hfrac, readExp_sound _ _ _ hexp⟩⟩
    · rename_i hnc0
      split at h
      · rename_i hdig
        split at h
        · simp at h
        · rename_i fp1 r1 hfrac
          split at h
          · simp at h
          · rename_i ep1 r2 hexp
            injection h with h
            rw [Prod.mk.injEq] at h
            obtain ⟨hs, h2⟩ := h
            rw [Prod.mk.injEq] at h2
            obtain ⟨hip, h3⟩ := h2
            rw [Prod.mk.injEq] at h3
            obtain ⟨hfp, h4⟩ := h3
            rw [Prod.mk.injEq] at h4
            obtain ⟨hep, hr⟩ := h4
            subst hs hip hfp hep
            rename_i hc0
            refine ⟨rfl, ⟨?_, by simp, ?_,
              readFrac_sound _ _ _ hfrac, readExp_sound _ _ _ hexp⟩⟩
            · intro x hx
              rcases List.mem_cons.mp hx with rfl | h2
              · exact hdig
              · exact takeWhile_mem Char.isDigit r0 x h2
            · intro hz
              simp only [List.head?_cons, Option.some.injEq] at hz
              exact absurd hz hnc0
      · simp at h

theorem readNumParts_sound (cs : List Char) (sign : Bool)
    (ip fp ep r : List Char)
    (h : readNumParts cs = some (sign, ip, fp, ep, r)) :
    ValidNumParts ip fp ep := by
  unfold readNumParts at h
  split at h
  · exact (readNumCore_sound true _ sign ip fp ep r h).2
  · exact (readNumCore_sound false _ sign ip fp ep r h).2

/-! ## Canonical float representations survive reparsing -/

theorem string_eq_of_data (a b : String) (h : a.data = b.data) : a = b := by
  cases a
  cases b
  exact congrArg String.mk h

theorem any_eE_false (l : List Char) (h : ∀ c ∈ l, c ≠ 'e' ∧ c ≠ 'E') :
    l.any (fun c => c == 'e' || c == 'E') = false := by
  rw [List.any_eq_false]
  intro c hc
  simp only [Bool.or_eq_true, beq_iff_eq]
  push_neg
  exact h c hc

theorem canonFloat_exp (t : String)
    (h : t.data.any (fun c => c == 'e' || c == 'E') = true) :
    canonFloat t = t := by
  unfold canonFloat
  rw [if_pos h]

theorem floatReady_exp (sign : Bool) (ip fp ep : List Char)
    (hv : ValidNumParts ip fp ep) (hep : ep ≠ []) :
    canonFloat (String.mk ((if sign then ['-'] else []) ++ ip ++ fp ++ ep)) =
      String.mk ((if sign then ['-'] else []) ++ ip ++ fp ++ ep) ∧
    FloatReady (String.mk ((if sign then ['-'] else []) ++ ip ++ fp ++ ep)) := by
  rcases hv.ep_shape with rfl | ⟨e, sgn, ds, he, hepe, hsgn, hdsne, hds⟩
  · exact absurd rfl hep
  · have hany : (String.mk ((if sign then ['-'] else []) ++ ip ++ fp ++
        ep)).data.any (fun c => c == 'e' || c == 'E') = true := by
      rw [mk_data, List.any_eq_true]
      refine ⟨e, ?_, ?_⟩
      · rw [hepe]
        simp
      · rcases he with rfl | rfl <;> simp
    have hfix := canonFloat_exp _ hany
    refine ⟨hfix, sign, ip, fp, ep, hv, mk_data _, ?_, hfix⟩
    intro hc
    exact hep hc.2

theorem canonFloat_compute (sign : Bool) (ip ds : List Char)
    (hip : ∀ c ∈ ip, c.isDigit = true) (hipne : ip ≠ [])
    (hds : ∀ c ∈ ds, c.isDigit = true) :
    canonFloat (String.mk ((if sign then ['-'] else []) ++ ip ++ '.' :: ds)) =
      if ((ds.reverse.dropWhile (fun c => c == '0')).reverse).isEmpty then
        String.mk ((if sign then ['-'] else []) ++ ip) ++ ".0"
      else
        String.mk ((if sign then ['-'] else []) ++ ip) ++ "." ++
          String.mk ((ds.reverse.dropWhile (fun c => c == '0')).reverse) := by
  have hsign : ∀ c ∈ (if sign then ['-'] else []), c = '-' := by
    cases sign <;> simp
  have hno : ∀ c ∈ (if sign then ['-'] else []) ++ ip ++ '.' :: ds,
      c ≠ 'e' ∧ c ≠ 'E' := by
    intro c hc
    rcases List.mem_append.mp hc with hc2 | hc2
    · rcases List.mem_append.mp hc2 with hc3 | hc3
      · rw [hsign c hc3]
        exact ⟨by decide, by decide⟩
      · exact ⟨digit_ne_char c 'e' (hip c hc3) (by decide),
          digit_ne_char c 'E' (hip c hc3) (by decide)⟩
    · rcases List.mem_cons.mp hc2 with rfl | hc3
      · exact ⟨by decide, by decide⟩
      · exact ⟨digit_ne_char c 'e' (hds c hc3) (by decide),
          digit_ne_char c 'E' (hds c hc3) (by decide)⟩
  have hany := any_eE_false _ hno
  have h1 : '.' ∉ (if sign then ['-'] else []) ++ ip := by
    intro hm
    rcases List.mem_append.mp hm with hm2 | hm2
    · exact (by decide : ('.' : Char) ≠ '-') (hsign '.' hm2)
    · exact absurd (hip '.' hm2) (by decide)
  have h2 : '.' ∉ ds := fun hm => absurd (hds '.' hm) (by decide)
  have hcount : (((if sign then ['-'] else []) ++ ip) ++ '.' :: ds).count '.'
      = 1 := by
    rw [List.count_append, List.count_eq_zero.mpr h1, List.count_cons_self,
      List.count_eq_zero.mpr h2]
  have hall : ∀ c ∈ (if sign then ['-'] else []) ++ ip,
      (fun c : Char => decide (c ≠ '.')) c = true := by
    intro c hc
    simp only [decide_eq_true_eq]
    intro he
    exact h1 (he ▸ hc)
  have htw : (((if sign then ['-'] else []) ++ ip) ++ '.' :: ds).takeWhile
      (fun c => c ≠ '.') = (if sign then ['-'] else []) ++ ip := by
    rw [takeWhile_all_append _ _ _ hall,
      List.takeWhile_cons_of_neg (by simp)]
    simp
  have hdw : (((if sign then ['-'] else []) ++ ip) ++ '.' :: ds).dropWhile
      (fun c => c ≠ '.') = '.' :: ds := by
    rw [dropWhile_all_append _ _ _ hall,
      List.dropWhile_cons_of_neg (by simp)]
  unfold canonFloat
  simp only [mk_data]
  rw [if_neg (by rw [hany]; simp), if_pos hcount, htw, hdw]
  simp only [List.tail_cons]

theorem canonFloat_valid (sign : Bool) (ip ds : List Char)
    (hip : ∀ c ∈ ip, c.isDigit = true) (hipne : ip ≠ [])
    (hipz : ip.head? = some '0' → ip = ['0'])
    (hdsne : ds ≠ []) (hds : ∀ c ∈ ds, c.isDigit = true) :
    FloatReady (canonFloat (String.mk
      ((if sign then ['-'] else []) ++ ip ++ '.' :: ds))) := by
  rw [canonFloat_compute sign ip ds hip hipne hds]
  by_cases hz : ((ds.reverse.dropWhile (fun c => c == '0')).reverse).isEmpty
    = true
  · rw [if_pos hz]
    have hdata : (String.mk ((if sign then ['-'] else []) ++ ip) ++
        ".0").data = ((if sign then ['-'] else []) ++ ip) ++ ['.', '0'] := by
      rw [data_append, mk_data]
    have he : String.mk ((if sign then ['-'] else []) ++ ip) ++ ".0" =
        String.mk ((if sign then ['-'] else []) ++ ip ++ '.' :: ['0']) := by
      apply string_eq_of_data
      rw [hdata, mk_data]
    refine ⟨sign, ip, ['.', '0'], [], ⟨hip, hipne, hipz, ?_, Or.inl rfl⟩,
      ?_, by simp, ?_⟩
    · exact Or.inr ⟨['0'], rfl, by simp, by
        intro c hc
        rw [List.mem_singleton] at hc
        subst hc
        decide⟩
    · rw [hdata]
      simp
    · rw [he, canonFloat_compute sign ip ['0'] hip hipne (by
        intro c hc
        rw [List.mem_singleton] at hc
        subst hc
        decide)]
      rw [if_pos (by decide)]
      exact he
  · rw [if_neg hz]
    set fp2 := (ds.reverse.dropWhile (fun c => c == '0')).reverse with hfp2
    have hfp2ne : fp2 ≠ [] := by simpa using hz
    have hfp2d : ∀ c ∈ fp2, c.isDigit = true := by
      intro c hc
      rw [hfp2, List.mem_reverse] at hc
      have hc2 : c ∈ ds.reverse := (List.dropWhile_sublist _).subset hc
      rw [List.mem_reverse] at hc2
      exact hds c hc2
    have hdata : (String.mk ((if sign then ['-'] else []) ++ ip) ++ "." ++
        String.mk fp2).data =
        ((if sign then ['-'] else []) ++ ip) ++ '.' :: fp2 := by
      rw [data_append, data_append, mk_data, mk_data]
      have hdot : ("." : String).data = ['.'] := rfl
      rw [hdot]
      simp
    have he : String.mk ((if sign then ['-'] else []) ++ ip) ++ "." ++
        String.mk fp2 =
        String.mk ((if sign then ['-'] else []) ++ ip ++ '.' :: fp2) := by
      apply string_eq_of_data
      rw [hdata, mk_data]
    refine ⟨sign, ip, '.' :: fp2, [],
      ⟨hip, hipne, hipz, Or.inr ⟨fp2, rfl, hfp2ne, hfp2d⟩, Or.inl rfl⟩,
      ?_, by simp, ?_⟩
    · rw [hdata]
      simp
    · have hrev : fp2.reverse = ds.reverse.dropWhile (fun c => c == '0') := by
        rw [hfp2, List.reverse_reverse]
      have hidem : fp2.reverse.dropWhile (fun c => c == '0') = fp2.reverse := by
        rw [hrev]
        exact dropWhile_idem _ _
      rw [he, canonFloat_compute sign ip fp2 hip hipne hfp2d]
      rw [if_neg (by
        rw [hidem, List.reverse_reverse]
        simpa using hfp2ne)]
      rw [hidem, List.reverse_reverse]
      exact he

theorem mkNumVal_wready (sign : Bool) (ip fp ep : List Char)
    (hv : ValidNumParts ip fp ep) :
    Wready (mkNumVal floatCfg sign ip fp ep) := by
  unfold mkNumVal
  by_cases hbe : (fp.isEmpty && ep.isEmpty) = true
  · rw [if_pos hbe]
    exact Wready.int _
  · rw [if_neg hbe]
    show Wready (JVal.float (canonFloat (String.mk
      ((if sign then ['-'] else []) ++ ip ++ fp ++ ep))))
    apply Wready.float
    rcases hep : ep with _ | ⟨e, epr⟩
    · have hfpne : fp ≠ [] := by
        intro hfe
        apply hbe
        rw [hfe, hep]
        rfl
      rcases hv.fp_shape with rfl | ⟨ds, rfl, hdsne, hds⟩
      · exact absurd rfl hfpne
      · have he2 : (if sign then ['-'] else []) ++ ip ++ ('.' :: ds) ++ [] =
            (if sign then ['-'] else []) ++ ip ++ '.' :: ds := by
          simp
        rw [he2]
        exact canonFloat_valid sign ip ds hv.ip_digits hv.ip_ne hv.ip_zero
          hdsne hds
    · obtain ⟨hfix, hready⟩ := floatReady_exp sign ip fp ep hv
        (by rw [hep]; simp)
      rw [← hep]
      rw [hfix]
      exact hready

/-! ## Parser soundness: decoded values are reader-representable -/

theorem insertPair_map_fst_mem (fs : List (String × JVal)) (k : String)
    (v : JVal) (h : fs.any (fun p => p.1 == k) = true) :
    (insertPair fs k v).map Prod.fst = fs.map Prod.fst := by
  unfold insertPair
  rw [if_pos h, List.map_map]
  apply List.map_congr_left
  intro p hp
  show Prod.fst (if p.1 == k then (k, v) else p) = p.1
  by_cases he : (p.1 == k) = true
  · rw [if_pos he]
    exact (beq_iff_eq.mp he).symm
  · rw [if_neg he]

theorem insertPair_nodup (fs : List (String × JVal)) (k : String) (v : JVal)
    (h : (fs.map Prod.fst).Nodup) :
    ((insertPair fs k v).map Prod.fst).Nodup := by
  by_cases ha : fs.any (fun p => p.1 == k) = true
  · rw [insertPair_map_fst_mem fs k v ha]
    exact h
  · unfold insertPair
    rw [if_neg ha, List.map_append]
    simp only [List.map_cons, List.map_nil]
    rw [List.nodup_append]
    refine ⟨h, by simp, ?_⟩
    intro a h1 h2
    rw [List.mem_singleton] at h2
    subst h2
    rw [List.mem_map] at h1
    obtain ⟨p, hp, he⟩ := h1
    simp only [List.any_eq_true, beq_iff_eq, not_exists] at ha
    exact ha p ⟨hp, he⟩

theorem insertPair_clean (fs : List (String × JVal)) (k : String) (v : JVal)
    (h : ∀ p ∈ fs, cleanStr p.1 = true) (hk : cleanStr k = true) :
    ∀ p ∈ insertPair fs k v, cleanStr p.1 = true := by
  intro p hp
  by_cases ha : fs.any (fun q => q.1 == k) = true
  · unfold insertPair at hp
    rw [if_pos ha, List.mem_map] at hp
    obtain ⟨q, hq, he⟩ := hp
    by_cases hqe : (q.1 == k) = true
    · rw [if_pos hqe] at he
      rw [← he]
      exact hk
    · rw [if_neg hqe] at he
      rw [← he]
      exact h q hq
  · unfold insertPair at hp
    rw [if_neg ha] at hp
    rcases List.mem_append.mp hp with hp2 | hp2
    · exact h p hp2
    · rw [List.mem_singleton] at hp2
      subst hp2
      exact hk

theorem insertPair_wready (fs : List (String × JVal)) (k : String) (v : JVal)
    (h : ∀ p ∈ fs, Wready p.2) (hv : Wready v) :
    ∀ p ∈ insertPair fs k v, Wready p.2 := by
  intro p hp
  by_cases ha : fs.any (fun q => q.1 == k) = true
  · unfold insertPair at hp
    rw [if_pos ha, List.mem_map] at hp
    obtain ⟨q, hq, he⟩ := hp
    by_cases hqe : (q.1 == k) = true
    · rw [if_pos hqe] at he
      rw [← he]
      exact hv
    · rw [if_neg hqe] at he
      rw [← he]
      exact h q hq
  · unfold insertPair at hp
    rw [if_neg ha] at hp
    rcases List.mem_append.mp hp with hp2 | hp2
    · exact h p hp2
    · rw [List.mem_singleton] at hp2
      subst hp2
      exact hv

theorem parseVal_zero (cfg : ParseCfg) (cs : List Char) :
    parseVal cfg 0 cs = none := rfl

theorem parseArrItems_zero (cfg : ParseCfg) (cs : List Char)
    (acc : List JVal) : parseArrItems cfg 0 cs acc = none := rfl

theorem parseObjItems_zero (cfg : ParseCfg) (cs : List Char)
    (acc : List (String × JVal)) : parseObjItems cfg 0 cs acc = none := rfl

theorem parseVal_nil (cfg : ParseCfg) (fuel : Nat) (cs : List Char)
    (h : skipWs cs = []) : parseVal cfg (fuel + 1) cs = none := by
  unfold parseVal
  rw [h]

theorem parseVal_tchar_some (cfg : ParseCfg) (fuel : Nat)
    (cs r rr : List Char) (v : JVal) (h : skipWs cs = 't' :: r)
    (hp : parseVal cfg (fuel + 1) cs = some (v, rr)) : v = JVal.bool true := by
  unfold parseVal at hp
  simp only [h] at hp
  simp at hp
  split at hp
  · injection hp with hp
    rw [Prod.mk.injEq] at hp
    exact hp.1.symm
  · exact Option.noConfusion hp

theorem parseVal_fchar_some (cfg : ParseCfg) (fuel : Nat)
    (cs r rr : List Char) (v : JVal) (h : skipWs cs = 'f' :: r)
    (hp : parseVal cfg (fuel + 1) cs = some (v, rr)) :
    v = JVal.bool false := by
  unfold parseVal at hp
  simp only [h] at hp
  simp at hp
  split at hp
  · injection hp with hp
    rw [Prod.mk.injEq] at hp
    exact hp.1.symm
  · exact Option.noConfusion hp

theorem parseVal_nchar_some (cfg : ParseCfg) (fuel : Nat)
    (cs r rr : List Char) (v : JVal) (h : skipWs cs = 'n' :: r)
    (hp : parseVal cfg (fuel + 1) cs = some (v, rr)) : v = JVal.null := by
  unfold parseVal at hp
  simp only [h] at hp
  simp at hp
  split at hp
  · injection hp with hp
    rw [Prod.mk.injEq] at hp
    exact hp.1.symm
  · exact Option.noConfusion hp

theorem parse_sound : ∀ fuel : Nat,
    (∀ cs v r, parseVal floatCfg fuel cs = some (v, r) → Wready v) ∧
    (∀ cs acc v r, (∀ x ∈ acc, Wready x) →
      parseArrItems floatCfg fuel cs acc = some (v, r) → Wready v) ∧
    (∀ cs acc v r, (∀ p ∈ acc, cleanStr p.1 = true) →
      (∀ p ∈ acc, Wready p.2) → (acc.map Prod.fst).Nodup →
      parseObjItems floatCfg fuel cs acc = some (v, r) → Wready v) := by
  intro fuel
  induction fuel with
  | zero =>
    refine ⟨?_, ?_, ?_⟩
    · intro cs v r h
      rw [parseVal_zero] at h
      exact Option.noConfusion h
    · intro cs acc v r _ h
      rw [parseArrItems_zero] at h
      exact Option.noConfusion h
    · intro cs acc v r _ _ _ h
      rw [parseObjItems_zero] at h
      exact Option.noConfusion h
  | succ fuel ih =>
    obtain ⟨ihV, ihA, ihO⟩ := ih
    refine ⟨?_, ?_, ?_⟩
    · intro cs v r h
      cases hsc : skipWs cs with
      | nil =>
        rw [parseVal_nil floatCfg fuel cs hsc] at h
        exact Option.noConfusion h
      | cons c rest =>
        by_cases h1 : c = '"'
        · subst h1
          rw [parseVal_str floatCfg fuel cs rest hsc] at h
          split at h
          · exact Option.noConfusion h
          · rename_i s r2 heq
            injection h with h
            rw [Prod.mk.injEq] at h
            rw [← h.1]
            apply Wready.str
            unfold cleanStr
            rw [mk_data, List.all_eq_true]
            intro x hx
            exact readStringChars_clean rest s r2 heq x hx
        · by_cases h2 : c = 't'
          · subst h2
            rw [parseVal_tchar_some floatCfg fuel cs rest r v hsc h]
            exact Wready.bool true
          · by_cases h3 : c = 'f'
            · subst h3
              rw [parseVal_fchar_some floatCfg fuel cs rest r v hsc h]
              exact Wready.bool false
            · by_cases h4 : c = 'n'
              · subst h4
                rw [parseVal_nchar_some floatCfg fuel cs rest r v hsc h]
                exact Wready.null
              · by_cases h5 : c = '['
                · subst h5
                  rw [parseVal_arr floatCfg fuel cs rest hsc] at h
                  split at h
                  · injection h with h
                    rw [Prod.mk.injEq] at h
                    rw [← h.1]
                    exact Wready.arr [] (by simp)
                  · exact ihA _ [] v r (by simp) h
                · by_cases h6 : c = '\x7b'
                  · subst h6
                    rw [parseVal_obj floatCfg fuel cs rest hsc] at h
                    split at h
                    · injection h with h
                      rw [Prod.mk.injEq] at h
                      rw [← h.1]
                      exact Wready.obj [] (by simp) (by simp) (by simp)
                    · exact ihO _ [] v r (by simp) (by simp) (by simp) h
                  · rw [parseVal_num floatCfg fuel cs rest c hsc h1 h2 h3 h4
                      h5 h6] at h
                    split at h
                    · exact Option.noConfusion h
                    · rename_i sign ip fp ep r2 heq
                      injection h with h
                      rw [Prod.mk.injEq] at h
                      rw [← h.1]
                      exact mkNumVal_wready sign ip fp ep
                        (readNumParts_sound _ sign ip fp ep r2 heq)
    · intro cs acc v r hacc h
      rw [parseArrItems_succ] at h
      split at h
      · exact Option.noConfusion h
      · rename_i v1 r1 heq
        have hv1 : Wready v1 := ihV cs v1 r1 heq
        have hall : ∀ x ∈ acc ++ [v1], Wready x := by
          intro x hx
          rcases List.mem_append.mp hx with hx2 | hx2
          · exact hacc x hx2
          · rw [List.mem_singleton] at hx2
            subst hx2
            exact hv1
        split at h
        · exact ihA _ (acc ++ [v1]) v r hall h
        · injection h with h
          rw [Prod.mk.injEq] at h
          rw [← h.1]
          exact Wready.arr (acc ++ [v1]) hall
        · exact Option.noConfusion h
    · intro cs acc v r hck hcv hnd h
      rw [parseObjItems_succ] at h
      split at h
      · rename_i r1 heq1
        split at h
        · exact Option.noConfusion h
        · rename_i k r2 heq2
          split at h
          · rename_i r3 heq3
            split at h
            · exact Option.noConfusion h
            · rename_i v1 r4 heq4
              have hkc : cleanStr (String.mk k) = true := by
                unfold cleanStr
                rw [mk_data, List.all_eq_true]
                intro x hx
                exact readStringChars_clean r1 k r2 heq2 x hx
              have hv1 : Wready v1 := ihV r3 v1 r4 heq4
              split at h
              · exact ihO _ (insertPair acc (String.mk k) v1) v r
                  (insertPair_clean acc (String.mk k) v1 hck hkc)
                  (insertPair_wready acc (String.mk k) v1 hcv hv1)
                  (insertPair_nodup acc (String.mk k) v1 hnd) h
              · injection h with h
                rw [Prod.mk.injEq] at h
                rw [← h.1]
                show Wready (JVal.obj (applyHook floatCfg
                  (insertPair acc (String.mk k) v1)))
                rw [applyHook_floatCfg]
                exact Wready.obj _
                  (insertPair_clean acc (String.mk k) v1 hck hkc)
                  (insertPair_wready acc (String.mk k) v1 hcv hv1)
                  (insertPair_nodup acc (String.mk k) v1 hnd)
              · exact Option.noConfusion h
          · exact Option.noConfusion h
      · exact Option.noConfusion h

theorem jsonLoads_wready (s : String) (v : JVal)
    (h : jsonLoads plainCfg s = some v) : Wready v := by
  have hpf : plainCfg = floatCfg := rfl
  unfold jsonLoads at h
  rw [hpf] at h
  split at h
  · rename_i v1 r1 heq
    split at h
    · injection h with h
      rw [← h]
      exact (parse_sound (s.length * 2 + 8)).1 s.data v1 r1 heq
    · exact Option.noConfusion h
  · exact Option.noConfusion h

theorem okVals_wready (lines : List String) :
    ∀ v ∈ okVals lines, Wready v := by
  intro v hv
  unfold okVals at hv
  rw [List.mem_filterMap] at hv
  obtain ⟨l, hl, he⟩ := hv
  by_cases hb : isBlankLine l = true
  · rw [if_pos hb] at he
    exact Option.noConfusion he
  · rw [if_neg hb] at he
    exact jsonLoads_wready l v he

/-! ## The composed round trip over the emitted array text -/

theorem ijson_of_conv1 (lines : List String) (B : Int) :
    ijsonItems floatCfg (convert_ndjson_to_json lines B).text =
      ((convert_ndjson_to_json lines B).batches.flatten, false) := by
  rw [convert_ndjson_to_json_text lines B]
  have hflat := (convert_ndjson_to_json_spec lines B).2.1
  exact ijsonItems_body _ (by rw [hflat]; exact okVals_wready lines)

/-- C4 amended: the serialize-then-reparse round trip over the emitted
array text preserves the decoded record sequence and its order exactly,
up to the floating-point canonicalization every fractional token
undergoes at decode time: converting well-formed NDJSON records to a
JSON array file and running convert_json_to_ndjson on that file's text
yields a completing run whose ijson stage streams back exactly the
records the array file holds, and whose NDJSON output is one dump per
decoded input record, in input order, with no record lost, duplicated
or reordered; textual decimal equality of the original tokens is not
preserved. -/
theorem c4_roundtrip_values (lines : List String) (B B2 : Int)
    (hgood : ∀ l ∈ lines, goodLine l) :
    ijsonItems floatCfg (convert_ndjson_to_json lines B).text =
      ((convert_ndjson_to_json lines B).batches.flatten, false) ∧
    (convert_json_to_ndjson (convert_ndjson_to_json lines B).text B2).ok
      = true ∧
    (convert_json_to_ndjson
        (convert_ndjson_to_json lines B).text B2).batches.flatten =
      okVals lines ∧
    (convert_json_to_ndjson (convert_ndjson_to_json lines B).text B2).text =
      ndjsonRender (okVals lines) ∧
    (convert_json_to_ndjson (convert_ndjson_to_json lines B).text B2).count =
      lines.length ∧
    (okVals lines).length = lines.length := by
  have hbridge := ijson_of_conv1 lines B
  obtain ⟨s1, s2, s3⟩ := convert_ndjson_to_json_spec lines B
  have hlen : (okVals lines).length = lines.length :=
    okVals_length_of_good lines hgood
  have hc : convert_json_to_ndjson (convert_ndjson_to_json lines B).text B2 =
      convert_json_to_ndjson_items
        (convert_ndjson_to_json lines B).batches.flatten false B2 := by
    show convert_json_to_ndjson_items
      (ijsonItems floatCfg (convert_ndjson_to_json lines B).text).1
      (ijsonItems floatCfg (convert_ndjson_to_json lines B).text).2 B2 = _
    rw [hbridge]
  obtain ⟨o1, o2, o3, o4, o5⟩ := convert_json_to_ndjson_items_spec
    (convert_ndjson_to_json lines B).batches.flatten false B2
  have hid := o4 rfl
  rw [hc]
  refine ⟨hbridge, by simpa using o1, by rw [hid, s2], ?_, ?_, hlen⟩
  · rw [o3, hid, s2]
  · rw [o2, hid, s2, hlen]

/-- C4 amended witness: the demo record round-trips through the emitted
array text: the ijson stage yields back the one record the file holds,
the one written record equals the one decoded record, and the composed
run completes with count one. -/
theorem c4_roundtrip_values_witness :
    (∀ l ∈ ["\x7b\"a\": 16000.50\x7d"], goodLine l) ∧
    (convert_json_to_ndjson
        (convert_ndjson_to_json ["\x7b\"a\": 16000.50\x7d"] 1000).text
        1000).batches.flatten = okVals ["\x7b\"a\": 16000.50\x7d"] ∧
    (convert_json_to_ndjson
        (convert_ndjson_to_json ["\x7b\"a\": 16000.50\x7d"] 1000).text
        1000).count = 1 := by
  have h := c4_roundtrip_values ["\x7b\"a\": 16000.50\x7d"] 1000 1000
    (by decide)
  exact ⟨by decide, h.2.2.1, h.2.2.2.2.1⟩

end SchemaTools
